import Mathlib

/-!
# The download transfer engine of jellyfin-download-cli

A shallow embedding of the Go sources

* `internal/download/download.go` (stream copier, rate parsing, file names),
* `internal/store/store.go` (the SQLite ledger),
* `cmd/download.go` (the per-item orchestration and the batch loop),
* `internal/api/client.go` (`OpenDownload`),

followed by theorems about them.

Conventions.  Go `string` values are Lean `String`s and are processed as lists of
characters.  `int64`/`int` values are `Int`.  Byte counters that count bytes really
moved (`written`) are not wrapped: wrapping them would take 2^63 transferred bytes.
Sums of values that come from the network are wrapped to 64 bits.  Instants are
nanoseconds since the Go zero time; every `time.Now()` or `time.Since` is one reading
of an explicit clock.  Console output (`printInfo`, `printProgress`) is not part of the
state.  The SQLite database is reliable: statements on it do not fail.
-/

namespace Jf

/-! ## Go runtime values -/

/-- One octet of a stream or of a file. -/
abbrev Byte := UInt8

/-- Instants: nanoseconds since the zero `time.Time`; `0` is the zero value. -/
abbrev Time := Nat

/-- The message of a non-nil Go `error`. -/
abbrev GoError := String

/-- The clock of the process: the k-th reading taken returns `reading k`. -/
structure Clock where
  reading : Nat → Time
  calls : Nat

/-- One `time.Now()`. -/
def Clock.now (c : Clock) : Time × Clock :=
  (c.reading c.calls, { c with calls := c.calls + 1 })

/-- Wrap an integer to the two's complement `int64` range. -/
def wrap64 (x : Int) : Int :=
  (x + 2 ^ 63) % 2 ^ 64 - 2 ^ 63

/-! ## strings -/

/-- The predicate `unicode.IsSpace`. -/
def isSpace (c : Char) : Bool :=
  let n := c.toNat
  (9 ≤ n && n ≤ 13) || n == 32 || n == 0x85 || n == 0xA0 || n == 0x1680 ||
    (0x2000 ≤ n && n ≤ 0x200a) || n == 0x2028 || n == 0x2029 || n == 0x202f ||
    n == 0x205f || n == 0x3000

/-- Drop the longest trailing run of characters satisfying `p`. -/
def dropRightWhile (p : Char → Bool) (s : List Char) : List Char :=
  (s.reverse.dropWhile p).reverse

/-- The function `strings.TrimSpace` on characters. -/
def trimSpaceChars (s : List Char) : List Char :=
  dropRightWhile isSpace (s.dropWhile isSpace)

/-- The function `strings.TrimSpace`. -/
def TrimSpace (s : String) : String :=
  String.mk (trimSpaceChars s.data)

/-- The function `unicode.ToUpper`, given on the ASCII letters and on the two other
characters whose upper case is an ASCII letter (dotless i and long s); the remaining
characters have a non-ASCII upper case and are left in place, which does not change a
comparison with an ASCII word. -/
def toUpperChar (c : Char) : Char :=
  if 97 ≤ c.toNat ∧ c.toNat ≤ 122 then Char.ofNat (c.toNat - 32)
  else if c.toNat = 0x131 then 'I'
  else if c.toNat = 0x17F then 'S'
  else c

/-- The function `strings.ToUpper`. -/
def ToUpper (s : String) : String :=
  String.mk (s.data.map toUpperChar)

/-- Value of a list of decimal digits. -/
def digitsValue (ds : List Char) : Nat :=
  ds.foldl (fun acc c => acc * 10 + (c.toNat - 48)) 0

/-- Is the character a decimal digit. -/
def isDigit (c : Char) : Bool :=
  48 ≤ c.toNat && c.toNat ≤ 57

/-! ## The rate limiter (`golang.org/x/time/rate`) -/

/-- A non-negative rational `num / den`. -/
structure Rate where
  num : Nat
  den : Nat
deriving DecidableEq, Repr

/-- The limiter of `golang.org/x/time/rate` as far as `WaitN` on an uncancelled or
cancelled context depends on it: the limit in bytes per second (`isInf` for `rate.Inf`)
and the burst. -/
structure Limiter where
  limit : Rate
  isInf : Bool
  burst : Int
deriving DecidableEq, Repr

/-- A `context.Context`: whether it is already done, and the error it then reports. -/
structure Context where
  done : Bool
deriving DecidableEq, Repr

/-- The package variable `ctx = context.Background()` of `cmd/root.go`. -/
def ctx : Context := ⟨false⟩

/-- The method `(*rate.Limiter).WaitN`: an error when `n` exceeds the burst of a finite
limiter or when the context is done; otherwise it blocks until the tokens are granted and
returns nil (a background context has no deadline). -/
def Limiter.WaitN (lim : Limiter) (c : Context) (n : Nat) : Option GoError :=
  if (n : Int) > lim.burst ∧ lim.isInf = false then
    some ("rate: Wait(n=" ++ toString n ++ ") exceeds limiter's burst " ++ toString lim.burst)
  else if c.done then some "context canceled"
  else none

/-! ## `internal/download/download.go` -/

/-- The constant `defaultChunkSize`. -/
def defaultChunkSize : Nat := 256 * 1024

/-- How a reader ends: `io.EOF` or another error. -/
inductive ReadErr where
  | eof
  | other (msg : GoError)
deriving DecidableEq, Repr

/-- An `io.Reader` as the copy loop sees it: the reads that returned `(n, nil)`, in
order, and then the first read that returned a non-nil error, with the bytes that came
with it.  A read hands over at most `len(buf) = defaultChunkSize` bytes (`Reader.WF`).
A reader that never returns an error, on which the loop would not return, is not
represented. -/
structure Reader where
  reads : List (List Byte)
  lastData : List Byte
  lastErr : ReadErr

/-- Every read fits the 256 KiB buffer. -/
def Reader.WF (r : Reader) : Prop :=
  (∀ d ∈ r.reads, d.length ≤ defaultChunkSize) ∧ r.lastData.length ≤ defaultChunkSize

/-- All bytes the reader delivers, in order. -/
def Reader.bytes (r : Reader) : List Byte :=
  r.reads.flatten ++ r.lastData

/-- What `Write` returns. -/
structure WriteResult where
  n : Nat
  err : Option GoError
deriving DecidableEq, Repr

/-- An `io.Writer` over a state `σ`. -/
abbrev Writer (σ : Type) := List Byte → σ → WriteResult × σ

/-- The progress callback `func(int64, int64)`, a closure over the state `σ` that may
read the clock. -/
abbrev ProgressFn (σ : Type) := Int → Int → Clock → σ → Clock × σ

/-- What `CopyWithProgress` returns, with the clock and the state it leaves. -/
structure CopyResult (σ : Type) where
  written : Int
  err : Option GoError
  clock : Clock
  state : σ

/-- Outcome of one pass through the body of the `for` loop. -/
inductive Iter (σ : Type) where
  | next (written : Int) (lastUpdate : Time) (clock : Clock) (state : σ)
  | ret (res : CopyResult σ)

/-- Call the callback when there is one (`if onProgress != nil`). -/
def callProgress {σ : Type} (onProgress : Option (ProgressFn σ)) (written total : Int)
    (c : Clock) (s : σ) : Clock × σ :=
  match onProgress with
  | some f => f written total c s
  | none => (c, s)

/-- Lines 40-44: when bytes were read and a limiter is set, wait for that many tokens. -/
def waitChunk (cx : Context) (limiter : Option Limiter) (n : Nat) : Option GoError :=
  if 0 < n then
    match limiter with
    | some lim => lim.WaitN cx n
    | none => none
  else none

/-- Line 45: `dst.Write(buf[:n])`, made only when `n > 0`. -/
def writeChunk {σ : Type} (dst : Writer σ) (data : List Byte) (s : σ) : WriteResult × σ :=
  if 0 < data.length then dst data s else (⟨0, none⟩, s)

/-- Lines 52-57: the periodic progress report, more than 750ms after the last one.
Returns the new `lastUpdate`, the clock and the state. -/
def tickProgress {σ : Type} (onProgress : Option (ProgressFn σ)) (written total : Int)
    (lastUpdate : Time) (c : Clock) (s : σ) : Time × Clock × σ :=
  if c.now.1 > lastUpdate + 750000000 then
    (c.now.2.now.1, callProgress onProgress written total c.now.2.now.2 s)
  else (lastUpdate, c.now.2, s)

/-- Lines 59-67: what the error of the read decides. -/
def endOfRead {σ : Type} (onProgress : Option (ProgressFn σ)) (written total : Int)
    (readErr : Option ReadErr) (lastUpdate : Time) (c : Clock) (s : σ) : Iter σ :=
  match readErr with
  | none => .next written lastUpdate c s
  | some .eof =>
    .ret ⟨written, none, (callProgress onProgress written total c s).1,
      (callProgress onProgress written total c s).2⟩
  | some (.other e) => .ret ⟨written, some e, c, s⟩

/-- The body of the loop of `CopyWithProgress` for a read that returned `data` and
`readErr` (download.go lines 38-67). -/
def copyIteration {σ : Type} (cx : Context) (dst : Writer σ) (total : Int)
    (limiter : Option Limiter) (onProgress : Option (ProgressFn σ))
    (data : List Byte) (readErr : Option ReadErr)
    (written : Int) (lastUpdate : Time) (c : Clock) (s : σ) : Iter σ :=
  match waitChunk cx limiter data.length with
  | some e => .ret ⟨written, some e, c, s⟩
  | none =>
    match (writeChunk dst data s).1.err with
    | some e => .ret ⟨written + ((writeChunk dst data s).1.n : Int), some e, c, (writeChunk dst data s).2⟩
    | none =>
      endOfRead onProgress (written + ((writeChunk dst data s).1.n : Int)) total readErr
        (tickProgress onProgress (written + ((writeChunk dst data s).1.n : Int)) total
          lastUpdate c (writeChunk dst data s).2).1
        (tickProgress onProgress (written + ((writeChunk dst data s).1.n : Int)) total
          lastUpdate c (writeChunk dst data s).2).2.1
        (tickProgress onProgress (written + ((writeChunk dst data s).1.n : Int)) total
          lastUpdate c (writeChunk dst data s).2).2.2

/-- The `for` loop of `CopyWithProgress` over the reads still to come. -/
def copyLoop {σ : Type} (cx : Context) (dst : Writer σ) (total : Int)
    (limiter : Option Limiter) (onProgress : Option (ProgressFn σ))
    (lastData : List Byte) (lastErr : ReadErr) :
    List (List Byte) → Int → Time → Clock → σ → CopyResult σ
  | [], written, lastUpdate, c, s =>
    match copyIteration cx dst total limiter onProgress lastData (some lastErr)
        written lastUpdate c s with
    | .ret res => res
    | .next w _ c1 s1 => ⟨w, none, c1, s1⟩
  | d :: rest, written, lastUpdate, c, s =>
    match copyIteration cx dst total limiter onProgress d none written lastUpdate c s with
    | .ret res => res
    | .next w lu c1 s1 => copyLoop cx dst total limiter onProgress lastData lastErr rest w lu c1 s1

/-- The function `CopyWithProgress` of download.go. -/
def CopyWithProgress {σ : Type} (cx : Context) (dst : Writer σ) (src : Reader) (total : Int)
    (limiter : Option Limiter) (onProgress : Option (ProgressFn σ))
    (c : Clock) (s : σ) : CopyResult σ :=
  let t0 := c.now
  copyLoop cx dst total limiter onProgress src.lastData src.lastErr src.reads 0 t0.1 t0.2 s

/-- The text of a `*strconv.NumError` of `ParseFloat` for a string of digits and dots. -/
def numError (s : List Char) (why : String) : GoError :=
  "strconv.ParseFloat: parsing " ++ String.singleton (Char.ofNat 34) ++ String.mk s ++
    String.singleton (Char.ofNat 34) ++ ": " ++ why

/-- The function `strconv.ParseFloat(s, 64)` on the strings `splitNumberUnit` passes to
it, which consist of digits and dots only: digits with at most one dot and at least one
digit, as the exact decimal `num / den`; otherwise a syntax error, and a range error for
a value that rounds to infinity (from `2^1024 - 2^970` on).  The rounding of the decimal
to the nearest float64 is not modelled. -/
def parseFloatDigits (s : List Char) : Except GoError Rate :=
  let intPart := s.takeWhile isDigit
  let rest := s.dropWhile isDigit
  let frac : Option (List Char) :=
    match rest with
    | [] => some []
    | c :: fr => if c = '.' ∧ fr.all isDigit then some fr else none
  match frac with
  | none => .error (numError s "invalid syntax")
  | some fr =>
    if intPart.length + fr.length = 0 then .error (numError s "invalid syntax")
    else
      let num := digitsValue (intPart ++ fr)
      let den := 10 ^ fr.length
      if (2 ^ 1024 - 2 ^ 970) * den ≤ num then .error (numError s "value out of range")
      else .ok ⟨num, den⟩

/-- The function `splitNumberUnit` of download.go. -/
def splitNumberUnit (input : String) : Except GoError (Rate × String) :=
  let inp := trimSpaceChars input.data
  if inp = [] then .error "empty rate"
  else
    let isNum : Char → Bool := fun ch => isDigit ch || ch == '.'
    let numPart := trimSpaceChars (inp.takeWhile isNum)
    let unitPart := trimSpaceChars (inp.dropWhile isNum)
    if numPart = [] then .error "missing rate value"
    else
      match parseFloatDigits numPart with
      | .error e => .error ("invalid rate value: " ++ e)
      | .ok val => .ok (val, String.mk unitPart)

/-- The multiplier chosen by the `switch` on the upper-cased unit in `ParseRateLimit`;
`none` is the `default` branch. -/
def unitMultiplier (unit : String) : Option Nat :=
  let u := ToUpper unit
  if u = "B" ∨ u = "" then some 1
  else if u = "K" ∨ u = "KB" ∨ u = "KIB" then some 1024
  else if u = "M" ∨ u = "MB" ∨ u = "MIB" then some (1024 * 1024)
  else if u = "G" ∨ u = "GB" ∨ u = "GIB" then some (1024 * 1024 * 1024)
  else none

/-- The function `ParseRateLimit` of download.go.  `ok none` is the nil limiter.  The
test `bytesPerSec <= 0` holds when the parsed float is zero, that is when the decimal is
at most `2^-1075`.  The limiter is unlimited when its limit is `rate.Inf`, which is
`math.MaxFloat64 = 2^1024 - 2^971`; the conversion `int(bytesPerSec)` of a float outside
the int64 range gives the smallest int64, as on amd64.  Limit and burst are taken from
the exact product: the rounding of the decimal and of the product to float64 is not
modelled, so they are those of the code where the product is exact in float64 (an
integer below `2^53`, or such an integer times a power of two). -/
def ParseRateLimit (rateStr : String) : Except GoError (Option Limiter) :=
  let rs := TrimSpace rateStr
  if rs = "" then .ok none
  else
    match splitNumberUnit rs with
    | .error e => .error e
    | .ok (value, unit) =>
      match unitMultiplier unit with
      | none => .error ("unknown rate unit: " ++ unit)
      | some multiplier =>
        if value.num * 2 ^ 1075 ≤ value.den then .error "rate must be > 0"
        else
          let bps : Rate := ⟨value.num * multiplier, value.den⟩
          let whole : Nat := bps.num / bps.den
          let isInf : Bool := decide (bps.num = (2 ^ 1024 - 2 ^ 971) * bps.den)
          let burst : Int := if whole < 2 ^ 63 then (whole : Int) else -(2 ^ 63)
          .ok (some ⟨bps, isInf, burst⟩)

/-- The character class `[a-zA-Z0-9._\- ]` of `filenameCleaner`. -/
def isSafeChar (c : Char) : Bool :=
  let n := c.toNat
  (97 ≤ n && n ≤ 122) || (65 ≤ n && n ≤ 90) || (48 ≤ n && n ≤ 57) ||
    c == '.' || c == '_' || c == '-' || c == ' '

/-- The call `filenameCleaner.ReplaceAllString(s, "_")`: every maximal run of characters
outside the class becomes one underscore.  `inRun` tells that the preceding character
was outside the class. -/
def replaceUnsafe (inRun : Bool) : List Char → List Char
  | [] => []
  | c :: rest =>
    if isSafeChar c then c :: replaceUnsafe false rest
    else if inRun then replaceUnsafe true rest
    else '_' :: replaceUnsafe true rest

/-- The cutset `"._ "` of the call to `strings.Trim`. -/
def isTrimChar (c : Char) : Bool :=
  c == '.' || c == '_' || c == ' '

/-- The function `SanitizeFileName` of download.go on characters. -/
def sanitizeChars (name : List Char) : List Char :=
  let clean := replaceUnsafe false (trimSpaceChars name)
  let clean := dropRightWhile isTrimChar (clean.dropWhile isTrimChar)
  if clean = [] then "download".data else clean

/-- The function `SanitizeFileName` of download.go. -/
def SanitizeFileName (name : String) : String :=
  String.mk (sanitizeChars name.data)

/-! ### `path/filepath` on a Unix system -/

/-- Split at every slash (`strings.Split(s, "/")`). -/
def splitSlash : List Char → List (List Char)
  | [] => [[]]
  | c :: rest =>
    match splitSlash rest with
    | [] => [[]]
    | w :: ws => if c = '/' then [] :: w :: ws else (c :: w) :: ws

/-- One step of the lexical clean-up of a path: the components kept so far, last one
first, and the next component. -/
def cleanStep (rooted : Bool) (stack : List (List Char)) (comp : List Char) :
    List (List Char) :=
  if comp = [] ∨ comp = ['.'] then stack
  else if comp = ['.', '.'] then
    match stack with
    | [] => if rooted then [] else [comp]
    | top :: below => if top = ['.', '.'] then comp :: top :: below else below
  else comp :: stack

/-- The function `filepath.Clean` on characters. -/
def cleanChars (path : List Char) : List Char :=
  if path = [] then ['.']
  else
    let rooted : Bool := path.head? == some '/'
    let stack := (splitSlash path).foldl (cleanStep rooted) []
    let body := List.intercalate ['/'] stack.reverse
    if rooted then '/' :: body
    else if body = [] then ['.'] else body

/-- The function `filepath.Join` for two elements. -/
def joinChars (a b : List Char) : List Char :=
  if a ≠ [] then cleanChars (a ++ '/' :: b)
  else if b ≠ [] then cleanChars b
  else []

/-- The function `filepath.Join` for two elements. -/
def Join (a b : String) : String :=
  String.mk (joinChars a.data b.data)

/-- The function `filepath.Dir`: the path up to and including its last slash, cleaned. -/
def dirChars (path : List Char) : List Char :=
  cleanChars (dropRightWhile (fun c => c != '/') path)

/-- The function `filepath.Dir`. -/
def Dir (path : String) : String :=
  String.mk (dirChars path.data)

/-- The function `filepath.Ext`: `acc` is the part of the last component read so far,
scanning from the end. -/
def extScan (acc : List Char) : List Char → List Char
  | [] => []
  | c :: rest =>
    if c = '/' then []
    else if c = '.' then c :: acc
    else extScan (c :: acc) rest

/-- The function `filepath.Ext`. -/
def Ext (path : String) : String :=
  String.mk (extScan [] path.data.reverse)

/-- The function `DefaultDownloadPath` of download.go. -/
def DefaultDownloadPath (baseDir name ext : String) : String :=
  let fileName := SanitizeFileName name
  let ext := if ext ≠ "" ∧ ext.data.head? ≠ some '.' then "." ++ ext else ext
  Join baseDir (fileName ++ ext)

/-! ## `internal/store/store.go` -/

/-- The type `sql.NullString`. -/
structure NullString where
  Str : String
  Valid : Bool
deriving DecidableEq, Repr

/-- The type `sql.NullInt64`. -/
structure NullInt64 where
  Int64 : Int
  Valid : Bool
deriving DecidableEq, Repr

/-- The struct `store.Download`. -/
structure Download where
  ID : Int
  ItemID : String
  ItemName : String
  ItemType : String
  SeriesID : NullString
  SeasonNumber : NullInt64
  EpisodeNumber : NullInt64
  Status : String
  BytesTotal : NullInt64
  BytesDone : NullInt64
  Path : String
  Error : NullString
  CreatedAt : Time
  UpdatedAt : Time
deriving DecidableEq, Repr

/-- A row of the table `downloads`.  The two instants stand for their RFC3339Nano
text. -/
structure DownloadRow where
  id : Int
  item_id : String
  item_name : String
  item_type : String
  series_id : Option String
  season_number : Option Int
  episode_number : Option Int
  status : String
  bytes_total : Option Int
  bytes_done : Option Int
  path : String
  error : Option String
  created_at : Time
  updated_at : Time
deriving DecidableEq, Repr

/-- A row of the table `series_progress`, with its implicit rowid. -/
structure SeriesRow where
  rowid : Int
  series_id : String
  last_season : Option Int
  last_episode : Option Int
  updated_at : Time
deriving DecidableEq, Repr

/-- The database behind a `*store.Store`: the two tables, the `sqlite_sequence` entry
of `downloads` (the table is AUTOINCREMENT), and the state of the one connection that
sequential use of the pool keeps reusing: the rowid of its most recent successful
insertion, `0` while it has made none. -/
structure Store where
  downloads : List DownloadRow
  seq : Int
  series : List SeriesRow
  lastInsertRowid : Int
deriving DecidableEq, Repr

/-- The function `Open`: a new connection to the same database file. -/
def Store.Open (s : Store) : Store :=
  { s with lastInsertRowid := 0 }

/-- The function `nullString` at type `sql.NullString`. -/
def nullString (x : NullString) : Option String :=
  if x.Valid then some x.Str else none

/-- The function `nullString` at type `string`. -/
def nullStringOfString (x : String) : Option String :=
  if x = "" then none else some x

/-- The function `nullInt` at type `sql.NullInt64`. -/
def nullInt (x : NullInt64) : Option Int :=
  if x.Valid then some x.Int64 else none

/-- The unique index `idx_downloads_item_path`: does the row carry this key. -/
def keyMatch (itemID path : String) (r : DownloadRow) : Bool :=
  r.item_id == itemID && r.path == path

/-- Largest rowid in the table `downloads`, `0` when it is empty. -/
def maxDownloadId (rows : List DownloadRow) : Int :=
  rows.foldl (fun m r => max m r.id) 0

/-- Largest rowid in the table `series_progress`, `0` when it is empty. -/
def maxSeriesRowid (rows : List SeriesRow) : Int :=
  rows.foldl (fun m r => max m r.rowid) 0

/-- The `DO UPDATE SET` clause of the statement in `UpsertDownload`. -/
def updateOnConflict (d : Download) (r : DownloadRow) : DownloadRow :=
  { r with
    item_name := d.ItemName
    item_type := d.ItemType
    series_id := nullString d.SeriesID
    season_number := nullInt d.SeasonNumber
    episode_number := nullInt d.EpisodeNumber
    status := d.Status
    bytes_total := nullInt d.BytesTotal
    bytes_done := nullInt d.BytesDone
    error := nullString d.Error
    updated_at := d.UpdatedAt }

/-- The row the `INSERT` of `UpsertDownload` adds. -/
def insertedRow (id : Int) (d : Download) : DownloadRow :=
  { id := id
    item_id := d.ItemID
    item_name := d.ItemName
    item_type := d.ItemType
    series_id := nullString d.SeriesID
    season_number := nullInt d.SeasonNumber
    episode_number := nullInt d.EpisodeNumber
    status := d.Status
    bytes_total := nullInt d.BytesTotal
    bytes_done := nullInt d.BytesDone
    path := d.Path
    error := nullString d.Error
    created_at := d.CreatedAt
    updated_at := d.UpdatedAt }

/-- The statement `INSERT INTO downloads ... ON CONFLICT(item_id, path) DO UPDATE SET
...`.  On a conflict the row with that key is updated and the connection keeps its last
insert rowid, while the rowid that was drawn for the insertion is used up (the
AUTOINCREMENT sequence moves on); otherwise a row with a fresh rowid is added and
becomes the last insert.  (With the unique index at most one row carries the key.) -/
def execUpsert (s : Store) (d : Download) : Store :=
  if s.downloads.any (keyMatch d.ItemID d.Path) then
    { s with
      downloads := (s.downloads.map
        (fun r => if keyMatch d.ItemID d.Path r then updateOnConflict d r else r))
      seq := max s.seq (maxDownloadId s.downloads) + 1 }
  else
    let id := max s.seq (maxDownloadId s.downloads) + 1
    { s with downloads := s.downloads ++ [insertedRow id d], seq := id, lastInsertRowid := id }

/-- The query `SELECT id FROM downloads WHERE item_id = ? AND path = ?`. -/
def selectId (s : Store) (itemID path : String) : Option Int :=
  (s.downloads.find? (keyMatch itemID path)).map (fun r => r.id)

/-- The record as `UpsertDownload` rewrites it through the pointer before the
statement runs. -/
def stampDownload (now : Time) (d : Download) : Download :=
  { d with
    Status := if d.Status = "" then "queued" else d.Status
    CreatedAt := if d.CreatedAt = 0 then now else d.CreatedAt
    UpdatedAt := now }

/-- The method `UpsertDownload`: the database after it, the record as left behind the
pointer, and the returned id or error.  `now` is its `time.Now().UTC()`. -/
def Store.UpsertDownload (s : Store) (now : Time) (d : Download) :
    Store × Download × Except GoError Int :=
  let d1 := stampDownload now d
  let s1 := execUpsert s d1
  let id := s1.lastInsertRowid
  if id = 0 then
    match selectId s1 d1.ItemID d1.Path with
    | some i => (s1, d1, .ok i)
    | none => (s1, d1, .error "resolve download id: sql: no rows in result set")
  else (s1, d1, .ok id)

/-- The method `UpdateDownloadProgress`. -/
def Store.UpdateDownloadProgress (s : Store) (now : Time) (id : Int) (bytesDone bytesTotal : Int) :
    Store :=
  { s with downloads := s.downloads.map (fun r =>
      if r.id = id then
        { r with bytes_done := some bytesDone, bytes_total := some bytesTotal, updated_at := now }
      else r) }

/-- The method `SetDownloadStatus`. -/
def Store.SetDownloadStatus (s : Store) (now : Time) (id : Int) (status errMsg : String) : Store :=
  { s with downloads := s.downloads.map (fun r =>
      if r.id = id then
        { r with status := status, error := nullStringOfString errMsg, updated_at := now }
      else r) }

/-- The statement of `UpdateSeriesProgress`: insert or update the row of the series. -/
def execSeriesUpsert (s : Store) (now : Time) (seriesID : String) (season episode : Int) : Store :=
  if s.series.any (fun r => r.series_id == seriesID) then
    { s with series := s.series.map (fun r =>
        if r.series_id == seriesID then
          { r with last_season := some season, last_episode := some episode, updated_at := now }
        else r) }
  else
    let rid := maxSeriesRowid s.series + 1
    { s with series := s.series ++ [⟨rid, seriesID, some season, some episode, now⟩],
             lastInsertRowid := rid }

/-- The method `UpdateSeriesProgress`; `now` is read only when the statement runs. -/
def Store.UpdateSeriesProgress (s : Store) (c : Clock) (seriesID : String) (season episode : Int) :
    Clock × Store :=
  if seriesID = "" then (c, s)
  else (c.now.2, execSeriesUpsert s c.now.1 seriesID season episode)

/-! ## `internal/api` -/

/-- The struct `api.Item` (its field `Type` is `Type_` here). -/
structure Item where
  Id : String
  Name : String
  Type_ : String
  SeriesName : String
  IndexNumber : Int
  ParentIndexNumber : Int
  ProductionYear : Int
  Path : String
deriving DecidableEq, Repr

/-- The parts of an `*http.Response` that the download code reads: the status code,
`ContentLength` (`-1` when unknown), the headers `Content-Range` and
`Content-Disposition` (`""` when absent), what `mime.ParseMediaType` makes of the
latter (`none` when it fails, else the parameters), and the body. -/
structure Response where
  StatusCode : Int
  ContentLength : Int
  ContentRange : String
  ContentDisposition : String
  DispositionParams : Option (List (String × String))
  Body : Reader

/-- What lies outside the process: the server behind `c.client.Do` for the request
`GET /Items/<id>/Download`, with the start of the `Range: bytes=<start>-` header when one
is sent, and the outcome of creating a directory and of opening a file for writing. -/
structure Env where
  httpDo : String → Option Int → Except GoError Response
  mkdirAll : String → Option GoError
  openFile : String → Option GoError

/-- Bytes shown as text, one character per byte. -/
def bodyText (bs : List Byte) : String :=
  String.mk (bs.map (fun b => Char.ofNat b.toNat))

/-- The method `(*Client).OpenDownload` of client.go. -/
def OpenDownload (env : Env) (itemID : String) (offset : Int) : Except GoError Response :=
  match env.httpDo itemID (if offset > 0 then some offset else none) with
  | .error e => .error e
  | .ok resp =>
    if resp.StatusCode ≥ 300 then
      .error ("download failed: " ++ TrimSpace (bodyText resp.Body.bytes))
    else .ok resp

/-! ## `cmd/download.go` -/

/-- The struct `downloadOptions`. -/
structure downloadOptions where
  Rate : String
  Output : String
  DryRun : Bool
  Series : String
  OverridePath : String
deriving DecidableEq, Repr

/-- An error returned by a command: a plain error or an `ExitError` with its code. -/
inductive CmdError where
  | plain (msg : GoError)
  | exit (code : Int) (msg : GoError)
deriving DecidableEq, Repr

/-- The function `sqlNullString`. -/
def sqlNullString (value : String) : NullString :=
  if value = "" then ⟨"", false⟩ else ⟨value, true⟩

/-- The function `sqlNullInt`. -/
def sqlNullInt (value : Int) : NullInt64 :=
  if value = 0 then ⟨0, false⟩ else ⟨value, true⟩

/-- The verb `%02d` of `fmt.Sprintf`. -/
def fmt02d (n : Int) : String :=
  if 0 ≤ n ∧ n < 10 then "0" ++ toString n else toString n

/-- The function `buildItemFilename`. -/
def buildItemFilename (item : Item) : String :=
  if item.Type_ = "Episode" then
    let series := if item.SeriesName = "" then "Series" else item.SeriesName
    let season := item.ParentIndexNumber
    let ep := item.IndexNumber
    if season > 0 ∧ ep > 0 then
      series ++ " - S" ++ fmt02d season ++ "E" ++ fmt02d ep ++ " - " ++ item.Name
    else series ++ " - " ++ item.Name
  else if item.ProductionYear > 0 then
    item.Name ++ " (" ++ toString item.ProductionYear ++ ")"
  else item.Name

/-- The function `fileExtension`. -/
def fileExtension (path : String) : String :=
  if path = "" then ".mkv"
  else if Ext path = "" then ".mkv" else Ext path

/-- The files on disk, keyed by their path string. -/
abbrev FS := List (String × List Byte)

/-- The content of the file at a path, if there is one. -/
def readFile : FS → String → Option (List Byte)
  | [], _ => none
  | (k, v) :: rest, path => if k = path then some v else readFile rest path

/-- The function `existingFileSize`: the size of the file, `0` when `os.Stat` fails. -/
def existingFileSize (fs : FS) (path : String) : Int :=
  match readFile fs path with
  | some content => (content.length : Int)
  | none => 0

/-- Replace the content of a file, or create the file. -/
def setFile : FS → String → List Byte → FS
  | [], path, content => [(path, content)]
  | (k, v) :: rest, path, content =>
    if k = path then (path, content) :: rest else (k, v) :: setFile rest path content

/-- The function `strconv.ParseInt(s, 10, 64)`: an optional sign and decimal digits
within the int64 range. -/
def parseInt64 (s : List Char) : Option Int :=
  match s with
  | [] => none
  | c :: r =>
    let ds := if c = '-' ∨ c = '+' then r else s
    if ds = [] ∨ ds.all isDigit = false then none
    else
      let v : Int := if c = '-' then -(digitsValue ds : Int) else (digitsValue ds : Int)
      if v < -(2 ^ 63) ∨ v > 2 ^ 63 - 1 then none else some v

/-- The function `filenameFromResponse`. -/
def filenameFromResponse (resp : Response) : String :=
  if resp.ContentDisposition = "" then ""
  else
    match resp.DispositionParams with
    | none => ""
    | some params => (params.lookup "filename").getD ""

/-- The function `totalBytesFromResponse`. -/
def totalBytesFromResponse (resp : Response) (offset : Int) : Int :=
  let fromRange : Option Int :=
    if resp.ContentRange ≠ "" then
      match splitSlash resp.ContentRange.data with
      | [_, b] => parseInt64 (trimSpaceChars b)
      | _ => none
    else none
  match fromRange with
  | some total => total
  | none => if resp.ContentLength > 0 then wrap64 (resp.ContentLength + offset) else 0

/-- A call on the ledger. -/
inductive LedgerOp where
  | upsert (d : Download)
  | setStatus (id : Int) (status errMsg : String)
  | progress (id : Int) (bytesDone bytesTotal : Int)
  | series (seriesID : String) (season episode : Int)
deriving DecidableEq, Repr

/-- What a run does that is visible outside it, in the order it happens: a call on the
ledger with the database before and after it, a request to the server, the opening of
the destination file. -/
inductive Event where
  | ledger (op : LedgerOp) (before after : Store)
  | request (itemID : String) (offset : Int)
  | openFile (path : String) (offset : Int) (append : Bool)
deriving DecidableEq, Repr

/-- The state a download acts on: the ledger, the files, the free space of the disk,
and the record of what has happened so far. -/
structure World where
  store : Store
  fs : FS
  diskFree : Nat
  trace : List Event
deriving DecidableEq, Repr

/-- A ledger call through `storeDB`, recorded. -/
def World.ledger (w : World) (op : LedgerOp) (after : Store) : World :=
  { w with store := after, trace := w.trace ++ [.ledger op w.store after] }

/-- Record an event. -/
def World.log (w : World) (e : Event) : World :=
  { w with trace := w.trace ++ [e] }

/-- The function `openDownloadFile`: `O_CREATE|O_WRONLY` with `O_APPEND` when
`offset > 0` and `O_TRUNC` otherwise. -/
def openDownloadFile (env : Env) (path : String) (offset : Int) (w : World) :
    Except GoError World :=
  match env.openFile path with
  | some e => .error e
  | none =>
    let content : List Byte := if offset > 0 then (readFile w.fs path).getD [] else []
    .ok ({ w with fs := setFile w.fs path content }.log
      (.openFile path offset (decide (offset > 0))))

/-- The method `(*os.File).Write` on the destination: the bytes go to the end of the
file (in truncate mode the file position is the end of the file, as nothing else writes
it); when the disk cannot take them all, those that fit are written and an error is
returned. -/
def fileWrite (path : String) : Writer (World × Time) :=
  fun data s =>
    let w := s.1
    let k := min data.length w.diskFree
    let content := (readFile w.fs path).getD [] ++ data.take k
    let w1 : World := { w with fs := setFile w.fs path content, diskFree := w.diskFree - k }
    (⟨k, if k < data.length then some ("write " ++ path ++ ": no space left on device") else none⟩,
      (w1, s.2))

/-- The closure `progressFn` of `downloadItem`; the second component of the state is
its captured variable `lastPersist`. -/
def progressFn (id : Int) (offset : Int) : ProgressFn (World × Time) :=
  fun written total c s =>
    let t := c.now
    if t.1 > s.2 + 1000000000 then
      let t2 := t.2.now
      let w1 := s.1.ledger (.progress id (offset + written) total)
        (s.1.store.UpdateDownloadProgress t2.1 id (offset + written) total)
      let t3 := t2.2.now
      (t3.2, (w1, t3.1))
    else (t.2, s)

/-- The destination path `downloadItem` starts from. -/
def plannedPath (item : Item) (outputDir : String) (opts : downloadOptions) : String :=
  if opts.OverridePath = "" then
    DefaultDownloadPath outputDir (buildItemFilename item) (fileExtension item.Path)
  else opts.OverridePath

/-- The record `downloadItem` builds (lines 258-270). -/
def newRecord (item : Item) (opts : downloadOptions) (path : String) : Download :=
  { ID := 0
    ItemID := item.Id
    ItemName := item.Name
    ItemType := item.Type_
    SeriesID := sqlNullString opts.Series
    SeasonNumber := if item.ParentIndexNumber ≠ 0 then sqlNullInt item.ParentIndexNumber else ⟨0, false⟩
    EpisodeNumber := if item.IndexNumber ≠ 0 then sqlNullInt item.IndexNumber else ⟨0, false⟩
    Status := ""
    BytesTotal := ⟨0, false⟩
    BytesDone := ⟨0, false⟩
    Path := path
    Error := ⟨"", false⟩
    CreatedAt := 0
    UpdatedAt := 0 }

/-- A `SetDownloadStatus` through `storeDB`, with its reading of the clock. -/
def setStatus (c : Clock) (w : World) (id : Int) (status errMsg : String) : Clock × World :=
  (c.now.2, w.ledger (.setStatus id status errMsg)
    (w.store.SetDownloadStatus c.now.1 id status errMsg))

/-- An `UpdateDownloadProgress` through `storeDB`, with its reading of the clock. -/
def updateProgress (c : Clock) (w : World) (id : Int) (bytesDone bytesTotal : Int) : Clock × World :=
  (c.now.2, w.ledger (.progress id bytesDone bytesTotal)
    (w.store.UpdateDownloadProgress c.now.1 id bytesDone bytesTotal))

/-- An `UpsertDownload` through `storeDB`, with its reading of the clock. -/
def upsert (c : Clock) (w : World) (d : Download) : Clock × World × Download × Except GoError Int :=
  let r := w.store.UpsertDownload c.now.1 d
  (c.now.2, w.ledger (.upsert d) r.1, r.2.1, r.2.2)

/-- Lines 302-305: a range request answered with 200 restarts the download. -/
def resumeOffset (offset0 : Int) (resp : Response) : Int :=
  if offset0 > 0 ∧ resp.StatusCode = 200 then 0 else offset0

/-- Lines 307-308: is the file name taken from the response. -/
def renamed (opts : downloadOptions) (resp : Response) : Bool :=
  decide (opts.OverridePath = "" ∧ filenameFromResponse resp ≠ "")

/-- Line 309: the path the file is written to. -/
def finalPath (opts : downloadOptions) (path : String) (resp : Response) : String :=
  if renamed opts resp then Join (Dir path) (SanitizeFileName (filenameFromResponse resp))
  else path

/-- Lines 307-313: with a file name from the response, the record is upserted again
under the new path; the id it returns is dropped. -/
def renameRecord (opts : downloadOptions) (record : Download) (path : String) (resp : Response)
    (c : Clock) (w : World) : Clock × World :=
  if renamed opts resp then
    ((upsert c w { record with Path := finalPath opts path resp }).1,
      (upsert c w { record with Path := finalPath opts path resp }).2.1)
  else (c, w)

/-- Lines 337-351: what `downloadItem` does with the result of the copy. -/
def finish (item : Item) (opts : downloadOptions) (id : Int) (bytesTotal : Int)
    (res : CopyResult (World × Time)) : Clock × World × Option CmdError :=
  match res.err with
  | some e =>
    ((setStatus res.clock res.state.1 id "failed" e).1,
      (setStatus res.clock res.state.1 id "failed" e).2, some (.exit 5 e))
  | none =>
    let q := updateProgress res.clock res.state.1 id bytesTotal bytesTotal
    let r := setStatus q.1 q.2 id "done" ""
    if item.Type_ = "Episode" then
      let u := r.2.store.UpdateSeriesProgress r.1 opts.Series item.ParentIndexNumber item.IndexNumber
      (u.1, r.2.ledger (.series opts.Series item.ParentIndexNumber item.IndexNumber) u.2, none)
    else (r.1, r.2, none)

/-- Lines 315-336: open the destination, persist the first snapshot and copy the body. -/
def copyToFile (env : Env) (item : Item) (limiter : Option Limiter) (opts : downloadOptions)
    (id : Int) (path1 : String) (offset : Int) (resp : Response)
    (c : Clock) (w : World) : Clock × World × Option CmdError :=
  match openDownloadFile env path1 offset w with
  | .error e =>
    ((setStatus c w id "failed" e).1, (setStatus c w id "failed" e).2, some (.plain e))
  | .ok w2 =>
    let bytesTotal := totalBytesFromResponse resp offset
    let p := updateProgress c w2 id offset bytesTotal
    finish item opts id bytesTotal
      (CopyWithProgress ctx (fileWrite path1) resp.Body bytesTotal limiter
        (some (progressFn id offset)) p.1.now.2 (p.2, p.1.now.1))

/-- The function `downloadItem` from the response on (lines 302-351). -/
def transfer (env : Env) (item : Item) (limiter : Option Limiter) (opts : downloadOptions)
    (id : Int) (record : Download) (path : String) (offset0 : Int) (resp : Response)
    (c : Clock) (w : World) : Clock × World × Option CmdError :=
  copyToFile env item limiter opts id (finalPath opts path resp) (resumeOffset offset0 resp) resp
    (renameRecord opts record path resp c w).1 (renameRecord opts record path resp c w).2

/-- The function `downloadItem`. -/
def downloadItem (env : Env) (item : Item) (outputDir : String) (limiter : Option Limiter)
    (opts : downloadOptions) (c : Clock) (w : World) : Clock × World × Option CmdError :=
  let path := plannedPath item outputDir opts
  let u := upsert c w (newRecord item opts path)
  match u.2.2.2 with
  | .error e => (u.1, u.2.1, some (.plain e))
  | .ok id =>
    if opts.DryRun then (u.1, u.2.1, none)
    else
      let r := setStatus u.1 u.2.1 id "downloading" ""
      match env.mkdirAll (Dir path) with
      | some e => (r.1, r.2, some (.plain e))
      | none =>
        let offset := existingFileSize r.2.fs path
        let w3 := r.2.log (.request item.Id offset)
        match OpenDownload env item.Id offset with
        | .error e =>
          let f := setStatus r.1 w3 id "failed" e
          (f.1, f.2, some (.exit 5 e))
        | .ok resp => transfer env item limiter opts id u.2.2.1 path offset resp r.1 w3

/-- The loop over the items in `runDownloadItems`: it returns at the first error. -/
def downloadLoop (env : Env) (outputDir : String) (limiter : Option Limiter)
    (opts : downloadOptions) : List Item → Clock → World → Clock × World × Option CmdError
  | [], c, w => (c, w, none)
  | item :: rest, c, w =>
    match downloadItem env item outputDir limiter opts c w with
    | (c1, w1, some e) => (c1, w1, some e)
    | (c1, w1, none) => downloadLoop env outputDir limiter opts rest c1 w1

/-- The function `runDownloadItems`. -/
def runDownloadItems (env : Env) (storeDir : String) (items : List Item) (opts : downloadOptions)
    (c : Clock) (w : World) : Clock × World × Option CmdError :=
  let w0 : World := { w with store := w.store.Open }
  let outputDir := if opts.Output = "" then Join storeDir "downloads" else opts.Output
  match env.mkdirAll outputDir with
  | some e => (c, w0, some (.plain e))
  | none =>
    match ParseRateLimit opts.Rate with
    | .error e => (c, w0, some (.exit 2 e))
    | .ok limiter => downloadLoop env outputDir limiter opts items c w0

/-! ## Sinks used as concrete inputs -/

/-- A sink that accepts every write in full and keeps the bytes in order. -/
def recordingSink : Writer (List Byte) :=
  fun data s => (⟨data.length, none⟩, s ++ data)

/-- A sink that accepts all but the last byte of every write and reports no error. -/
def shortSink : Writer (List Byte) :=
  fun data s => (⟨data.length - 1, none⟩, s ++ data.take (data.length - 1))

/-! ## Observations on a run -/

/-- Has a download of this item been started in the trace: its record was upserted or
its file was requested. -/
def attempted (itemID : String) (tr : List Event) : Bool :=
  tr.any (fun e =>
    match e with
    | .ledger (.upsert d) _ _ => d.ItemID == itemID
    | .request i _ => i == itemID
    | _ => false)

/-- Is the event the opening of a destination file. -/
def isOpenFile : Event → Bool
  | .openFile _ _ _ => true
  | _ => false

/-- The openings of destination files in a trace. -/
def opens (tr : List Event) : List Event := tr.filter isOpenFile

/-- The content of the file at a path in the state of a copy, empty when there is no
such file. -/
def contentAt (path : String) (s : World × Time) : List Byte :=
  (readFile s.1.fs path).getD []

/-- The values of `bytes_done` passed to `UpdateDownloadProgress`, in order. -/
def bytesDoneWrites (tr : List Event) : List Int :=
  tr.filterMap (fun e =>
    match e with
    | .ledger (.progress _ done _) _ _ => some done
    | _ => none)

/-- The status of the record with a given item id and path, if there is one. -/
def statusOf (s : Store) (itemID path : String) : Option String :=
  (s.downloads.find? (keyMatch itemID path)).map (fun r => r.status)

/-- The status changes of the specification: queued to downloading, downloading to done
or failed, failed to downloading. -/
def forwardStep (x y : String) : Prop :=
  (x = "queued" ∧ y = "downloading") ∨ (x = "downloading" ∧ y = "done") ∨
    (x = "downloading" ∧ y = "failed") ∨ (x = "failed" ∧ y = "downloading")

instance (x y : String) : Decidable (forwardStep x y) := by
  unfold forwardStep
  infer_instance

/-- A ledger call leaves the status of the record as it is or moves it by a step of
the specification; other events do not touch the ledger. -/
def statusStepOk (itemID path : String) : Event → Prop
  | .ledger _ before after =>
    ∀ x y, statusOf before itemID path = some x → statusOf after itemID path = some y →
      x = y ∨ forwardStep x y
  | _ => True

/-- The events a run has added to the trace. -/
def newEvents (before after : World) : List Event :=
  after.trace.drop before.trace.length

/-- Where a run has brought the record with the key: it is there, and it is
`downloading` when the id the run uses is its id, `queued` otherwise. -/
def recordTracked (s : Store) (itemID path : String) (id : Int) : Prop :=
  ∃ r, s.downloads.find? (keyMatch itemID path) = some r ∧
    ((r.id = id ∧ r.status = "downloading") ∨ (r.id ≠ id ∧ r.status = "queued"))

/-- The trace is `base`, then `e0`, then events that each respect the status steps. -/
def tailOk (base : List Event) (e0 : Event) (itemID path : String) (tr : List Event) : Prop :=
  ∃ rest, tr = base ++ e0 :: rest ∧ ∀ e ∈ rest, statusStepOk itemID path e

/-- The state of a run after it has marked the record as downloading. -/
def runTracked (base : List Event) (e0 : Event) (itemID path : String) (id : Int)
    (w : World) : Prop :=
  recordTracked w.store itemID path id ∧ tailOk base e0 itemID path w.trace

/-- The key of a row under the unique index. -/
def rowKey (r : DownloadRow) : String × String := (r.item_id, r.path)

/-- No two rows share an item id and a path. -/
def keysUnique (s : Store) : Prop := (s.downloads.map rowKey).Nodup

/-- The status `UpsertDownload` stores for a record. -/
def storedStatus (d : Download) : String :=
  if d.Status = "" then "queued" else d.Status


instance (s : Store) : Decidable (keysUnique s) := by
  unfold keysUnique
  infer_instance

/-! ## Concrete inputs -/

/-- A clock that advances one nanosecond per reading. -/
def tickClock : Clock := ⟨fun k => k, 0⟩

/-- A clock that advances two seconds per reading. -/
def slowClock : Clock := ⟨fun k => 1000 + k * 2000000000, 0⟩

/-- An empty ledger on a fresh connection. -/
def emptyStore : Store := ⟨[], 0, [], 0⟩

/-- No records, no files, room for 1000 bytes. -/
def emptyWorld : World := ⟨emptyStore, [], 1000, []⟩

/-- Options of a plain run into the directory `out`. -/
def plainOpts : downloadOptions := ⟨"", "out", false, "", ""⟩

/-- Two movies of a batch. -/
def itemA : Item := ⟨"a", "A", "Movie", "", 0, 0, 0, ""⟩

/-- The second movie of the batch. -/
def itemB : Item := ⟨"b", "B", "Movie", "", 0, 0, 0, ""⟩

/-- A server that refuses item `a` and serves one byte for every other item. -/
def failFirstEnv : Env :=
  { httpDo := fun itemID _ =>
      if itemID = "a" then .error "connection refused"
      else .ok ⟨200, 1, "", "", none, ⟨[], [7], .eof⟩⟩
    mkdirAll := fun _ => none
    openFile := fun _ => none }

/-- A movie whose planned path is `out/Movie.mkv`. -/
def movie : Item := ⟨"m1", "Movie", "Movie", "", 0, 0, 0, "/media/Movie.mkv"⟩

/-- A world in which three bytes of the movie are already on disk. -/
def staleWorld : World := ⟨emptyStore, [("out/Movie.mkv", [1, 2, 3])], 1000, []⟩

/-- The full body a server sends when it ignores the range. -/
def fullBody : Reader := ⟨[[9, 8], [7, 6]], [5], .eof⟩

/-- A server that ignores the range header: status 200 and the whole file. -/
def ignoreRangeEnv : Env :=
  { httpDo := fun _ _ => .ok ⟨200, 5, "", "", none, fullBody⟩
    mkdirAll := fun _ => none
    openFile := fun _ => none }

/-- A sink that accepts one byte of every write and reports an error. -/
def failingSink : Writer (List Byte) :=
  fun data s => (⟨1, some "write: broken pipe"⟩, s ++ data.take 1)

/-- The response of a server that honours `Range: bytes=3-` for a file of five bytes and
names the file `real.mkv`. -/
def rangeResponse : Response :=
  ⟨206, 2, "bytes 3-4/5", "attachment; filename=real.mkv", some [("filename", "real.mkv")],
    ⟨[[4]], [5], .eof⟩⟩

/-- A server that honours the range and suggests a file name. -/
def hintEnv : Env :=
  { httpDo := fun _ r => if r = some 3 then .ok rangeResponse else .error "unexpected request"
    mkdirAll := fun _ => none
    openFile := fun _ => none }

/-- A response that names the file as the planned path does. -/
def sameNameResponse : Response :=
  ⟨200, 1, "", "attachment; filename=Movie.mkv", some [("filename", "Movie.mkv")],
    ⟨[], [7], .eof⟩⟩

/-- A server whose file name for the movie is the planned one. -/
def sameNameEnv : Env :=
  { httpDo := fun _ _ => .ok sameNameResponse
    mkdirAll := fun _ => none
    openFile := fun _ => none }

/-- A server that streams five bytes without announcing a length. -/
def chunkedEnv : Env :=
  { httpDo := fun _ _ => .ok ⟨200, -1, "", "", none, ⟨[], [1, 2, 3, 4, 5], .eof⟩⟩
    mkdirAll := fun _ => none
    openFile := fun _ => none }

/-- A server that serves one byte for every item. -/
def oneByteEnv : Env :=
  { httpDo := fun _ _ => .ok ⟨200, 1, "", "", none, ⟨[], [7], .eof⟩⟩
    mkdirAll := fun _ => none
    openFile := fun _ => none }

/-- A row of the movie at `out/Movie.mkv` with a given status. -/
def movieRow (status : String) : DownloadRow :=
  { id := 1, item_id := "m1", item_name := "Movie", item_type := "Movie", series_id := none,
    season_number := none, episode_number := none, status := status, bytes_total := some 5,
    bytes_done := some 5, path := "out/Movie.mkv", error := none, created_at := 10,
    updated_at := 20 }

/-- A world whose ledger holds the movie as done. -/
def doneWorld : World := ⟨⟨[movieRow "done"], 1, [], 0⟩, [("out/Movie.mkv", [1, 2, 3, 4, 5])], 1000, []⟩

/-- A world whose ledger holds the movie as failed, three bytes on disk. -/
def failedWorld : World := ⟨⟨[movieRow "failed"], 1, [], 0⟩, [("out/Movie.mkv", [1, 2, 3])], 1000, []⟩

/-- Options of a dry run. -/
def dryOpts : downloadOptions := ⟨"", "out", true, "", ""⟩

/-- Options as `downloads resume` builds them for the movie. -/
def resumeOpts : downloadOptions := ⟨"", "out", false, "", "out/Movie.mkv"⟩

/-- The records of the two movies of the batch. -/
def recA : Download := newRecord itemA plainOpts "out/A.mkv"

/-- The record of the second movie. -/
def recB : Download := newRecord itemB plainOpts "out/B.mkv"

/-- A world whose ledger already holds the second movie of the batch. -/
def secondKnownWorld : World :=
  ⟨(emptyStore.UpsertDownload 1 recB).1, [], 1000, []⟩

/-- The record of `TestStoreDownloadLifecycle`. -/
def testRecord : Download :=
  { ID := 0, ItemID := "item-1", ItemName := "Test Movie", ItemType := "Movie",
    SeriesID := ⟨"", false⟩, SeasonNumber := ⟨0, false⟩, EpisodeNumber := ⟨0, false⟩,
    Status := "queued", BytesTotal := ⟨0, false⟩, BytesDone := ⟨0, false⟩,
    Path := "tmp/downloads/test.mkv", Error := ⟨"", false⟩, CreatedAt := 0, UpdatedAt := 0 }

/-- The ledger of the test after its first upsert. -/
def lifecycleStore : Store := (emptyStore.UpsertDownload 1 testRecord).1

/-! ## Reading the ledger (`GetDownload`, `ListDownloads`) -/

/-- Decimal digits of a number, padded with zeros on the left to a width. -/
def padDigits (width n : Nat) : List Char :=
  List.replicate (width - (Nat.toDigits 10 n).length) '0' ++ Nat.toDigits 10 n

/-- The civil date (year, month, day) of a day counted from 0001-01-01, in the
proleptic Gregorian calendar that package `time` uses. -/
def civilFromDays (days : Nat) : Nat × Nat × Nat :=
  let z := days + 306
  let era := z / 146097
  let doe := z % 146097
  let yoe := (doe - doe / 1460 + doe / 36524 - doe / 146096) / 365
  let doy := doe - (365 * yoe + yoe / 4 - yoe / 100)
  let mp := (5 * doy + 2) / 153
  let day := doy - (153 * mp + 2) / 5 + 1
  let month := if mp < 10 then mp + 3 else mp - 9
  let year := yoe + era * 400 + (if month ≤ 2 then 1 else 0)
  (year, month, day)

/-- The fractional second of the layout `.999999999`: nothing for zero nanoseconds,
else a dot and the nine digits without their trailing zeros. -/
def fractionText (nsec : Nat) : List Char :=
  if nsec = 0 then [] else '.' :: dropRightWhile (fun c => c == '0') (padDigits 9 nsec)

/-- The text `t.UTC().Format(time.RFC3339Nano)` of an instant. -/
def formatRFC3339Nano (t : Time) : List Char :=
  let secs := t / 1000000000
  let date := civilFromDays (secs / 86400)
  let rem := secs % 86400
  padDigits 4 date.1 ++ '-' :: padDigits 2 date.2.1 ++ '-' :: padDigits 2 date.2.2 ++
    'T' :: padDigits 2 (rem / 3600) ++ ':' :: padDigits 2 (rem % 3600 / 60) ++
    ':' :: padDigits 2 (rem % 60) ++ fractionText (t % 1000000000) ++ ['Z']

/-- Order of two texts under the collation BINARY of SQLite: `a ≤ b`. -/
def textLe : List Char → List Char → Bool
  | [], _ => true
  | _ :: _, [] => false
  | a :: as, b :: bs => if a.toNat < b.toNat then true else if a = b then textLe as bs else false

/-- The first instant of the year 10000. -/
def yearTenThousand : Time := 3652059 * 86400 * 1000000000

/-- The function `parseTime` applied to the stored text of an instant: `time.Parse`
reads back the instant that `Format` wrote when the year has four digits; from the
year 10000 on the text has a longer year, the parse fails and the zero time is
returned. -/
def parseTime (t : Time) : Time :=
  if t < yearTenThousand then t else 0

/-- A nullable text column scanned into a `sql.NullString`. -/
def scanNullString : Option String → NullString
  | some v => ⟨v, true⟩
  | none => ⟨"", false⟩

/-- A nullable integer column scanned into a `sql.NullInt64`. -/
def scanNullInt : Option Int → NullInt64
  | some v => ⟨v, true⟩
  | none => ⟨0, false⟩

/-- The `Scan` of a row of `downloads` into a `Download`, with the two instants
parsed. -/
def scanRow (r : DownloadRow) : Download :=
  { ID := r.id
    ItemID := r.item_id
    ItemName := r.item_name
    ItemType := r.item_type
    SeriesID := scanNullString r.series_id
    SeasonNumber := scanNullInt r.season_number
    EpisodeNumber := scanNullInt r.episode_number
    Status := r.status
    BytesTotal := scanNullInt r.bytes_total
    BytesDone := scanNullInt r.bytes_done
    Path := r.path
    Error := scanNullString r.error
    CreatedAt := parseTime r.created_at
    UpdatedAt := parseTime r.updated_at }

/-- The method `GetDownload`: `none` is the result `nil, nil` for an id without a
row. -/
def Store.GetDownload (s : Store) (id : Int) : Option Download :=
  (s.downloads.find? (fun r => r.id == id)).map scanRow

/-- The clause `ORDER BY updated_at DESC`: row `a` may stand before row `b` when the
text of its `updated_at` is not smaller. -/
def updatedNotBefore (a b : DownloadRow) : Prop :=
  textLe (formatRFC3339Nano b.updated_at) (formatRFC3339Nano a.updated_at) = true

instance : DecidableRel updatedNotBefore := fun a b => by
  unfold updatedNotBefore
  infer_instance

/-- The rows the query of `ListDownloads` returns, in its order.  Rows with the same
text keep the order of the table, which SQL leaves open. -/
def listRows (s : Store) (status : String) : List DownloadRow :=
  List.insertionSort updatedNotBefore
    (if status ≠ "" then s.downloads.filter (fun r => r.status == status) else s.downloads)

/-- The method `ListDownloads`. -/
def Store.ListDownloads (s : Store) (status : String) : List Download :=
  (listRows s status).map scanRow

/-- A row of the ledger with a given id, status and instant of last update. -/
def rowAt (id : Int) (status : String) (updated : Time) : DownloadRow :=
  { id := id, item_id := "item-" ++ toString id, item_name := "Movie", item_type := "Movie",
    series_id := none, season_number := none, episode_number := none, status := status,
    bytes_total := none, bytes_done := none, path := "out/" ++ toString id ++ ".mkv",
    error := some "boom", created_at := 5, updated_at := updated }

/-- The instant 2024-01-01T00:00:00Z. -/
def newYear2024 : Time := 738885 * 86400 * 1000000000

/-- A ledger with two records: record 1 last updated at 2024-01-01T00:00:00.12Z and
record 2 five milliseconds later, at 2024-01-01T00:00:00.125Z. -/
def twoUpdatesStore : Store :=
  ⟨[rowAt 1 "done" (newYear2024 + 120000000), rowAt 2 "done" (newYear2024 + 125000000)], 2, [], 0⟩

/-- A sequence of calls of `UpdateSeriesProgress`, each with its series id, season and
episode, one after the other on the same store. -/
def runSeriesCalls : List (String × Int × Int) → Clock → Store → Clock × Store
  | [], c, s => (c, s)
  | call :: rest, c, s =>
    runSeriesCalls rest (s.UpdateSeriesProgress c call.1 call.2.1 call.2.2).1
      (s.UpdateSeriesProgress c call.1 call.2.1 call.2.2).2

/-- The rows of `series_progress` for a series id. -/
def seriesRows (s : Store) (seriesID : String) : List SeriesRow :=
  s.series.filter (fun r => r.series_id == seriesID)

/-- The primary key of `series_progress`: no two rows share a series id. -/
def seriesUnique (s : Store) : Prop := (s.series.map (fun r => r.series_id)).Nodup

instance (s : Store) : Decidable (seriesUnique s) := by
  unfold seriesUnique
  infer_instance

/-- A 206 response that announces a length of zero and carries no range hint. -/
def zeroLengthResponse : Response :=
  ⟨206, 0, "", "", none, ⟨[], [], .eof⟩⟩

/-- What the invocations of the progress callback recorded so far look like while
`written` bytes are written: each carries the expected total and at most `written`
bytes, and the byte counts do not decrease along the record. -/
def callsOk (total written : Int) (calls : List (Int × Int)) : Prop :=
  (∀ x ∈ calls, x.1 ≤ written ∧ x.2 = total) ∧ (calls.map Prod.fst).Pairwise (· ≤ ·)

/-- A callback that records its arguments, for a state that is the record. -/
def recordingCallback : ProgressFn (List (Int × Int)) :=
  fun written total c s => (c, s ++ [(written, total)])

/-- A sink that accepts every write in full and keeps nothing. -/
def discardSink : Writer (List (Int × Int)) :=
  fun data s => (⟨data.length, none⟩, s)

/-! ## Rate strings of the specification -/

/-- Every way of writing a word in upper and lower case letters. -/
def caseVariants : List Char → List (List Char)
  | [] => [[]]
  | c :: rest => (caseVariants rest).flatMap (fun t => [c.toLower :: t, c.toUpper :: t])

/-- The units of the specification with their multipliers. -/
def unitTable : List (String × Nat) :=
  [("", 1), ("B", 1),
   ("K", 1024), ("KB", 1024), ("KiB", 1024),
   ("M", 1024 ^ 2), ("MB", 1024 ^ 2), ("MiB", 1024 ^ 2),
   ("G", 1024 ^ 3), ("GB", 1024 ^ 3), ("GiB", 1024 ^ 3)]

/-- The units of the specification written in any letter case, each with its
multiplier. -/
def unitSpellings : List (String × Nat) :=
  unitTable.flatMap (fun p => (caseVariants p.1.data).map (fun v => (String.mk v, p.2)))

/-- What a character of a unit spelling is not: white space, a digit, a dot. -/
def isUnitChar (c : Char) : Bool :=
  !isSpace c && !(isDigit c || c == '.')

/-- The digit 1 followed by 309 zeros. -/
def tenToThe309 : String :=
  String.mk ('1' :: List.replicate 309 '0')

/-- The leading digits-and-dots portion of the trimmed rate string. -/
def numericPortion (s : String) : List Char :=
  (trimSpaceChars s.data).takeWhile (fun ch => isDigit ch || ch == '.')

/-- What follows the digits-and-dots portion of the trimmed rate string, trimmed. -/
def unitPortion (s : String) : String :=
  String.mk (trimSpaceChars ((trimSpaceChars s.data).dropWhile (fun ch => isDigit ch || ch == '.')))

/-- A decimal number written with digits and dots: at most one dot, at least one digit. -/
def wellFormedDecimal (l : List Char) : Prop :=
  l.count '.' ≤ 1 ∧ ∃ c ∈ l, isDigit c = true

instance (l : List Char) : Decidable (wellFormedDecimal l) :=
  inferInstanceAs (Decidable (l.count '.' ≤ 1 ∧ ∃ c ∈ l, isDigit c = true))

/-- The value of a decimal number written with digits and at most one dot: its digits
read as a natural number, over ten to the number of characters behind the dot. -/
def decimalOf (l : List Char) : Rate :=
  ⟨digitsValue (l.filter isDigit), 10 ^ ((l.dropWhile isDigit).length - 1)⟩

/-- The decimal is below the values a float64 conversion rounds to infinity. -/
def belowFloatMax (r : Rate) : Prop :=
  r.num < (2 ^ 1024 - 2 ^ 970) * r.den

instance (r : Rate) : Decidable (belowFloatMax r) :=
  inferInstanceAs (Decidable (r.num < (2 ^ 1024 - 2 ^ 970) * r.den))

/-- The text is a number `strconv.ParseFloat` accepts. -/
def parseableNumber (l : List Char) : Prop :=
  wellFormedDecimal l ∧ belowFloatMax (decimalOf l)

instance (l : List Char) : Decidable (parseableNumber l) :=
  inferInstanceAs (Decidable (wellFormedDecimal l ∧ belowFloatMax (decimalOf l)))

/-- The decimal is at most `2^-1075`, so that the nearest float64 is zero. -/
def roundsToZero (r : Rate) : Prop :=
  r.num * 2 ^ 1075 ≤ r.den

instance (r : Rate) : Decidable (roundsToZero r) :=
  inferInstanceAs (Decidable (r.num * 2 ^ 1075 ≤ r.den))

/-- The unit is one of the units of the specification once it is put in upper case. -/
def recognisedUnit (u : String) : Prop :=
  ToUpper u ∈ ["", "B", "K", "KB", "KIB", "M", "MB", "MIB", "G", "GB", "GIB"]

instance (u : String) : Decidable (recognisedUnit u) :=
  inferInstanceAs
    (Decidable (ToUpper u ∈ ["", "B", "K", "KB", "KIB", "M", "MB", "MIB", "G", "GB", "GIB"]))

/-! ## Sanitizing as the specification words it -/

/-- Every character outside the class `[a-zA-Z0-9._\- ]` replaced by one underscore
each. -/
def replaceEach (l : List Char) : List Char :=
  l.map (fun c => if isSafeChar c then c else '_')

/-- What becomes of a character when runs are replaced, given the character before it:
a character of the class stays; a character outside the class becomes an underscore
when it opens a run, and disappears when the character before it is outside the class
as well. -/
def runImage (c : Char) (before : Option Char) : Option Char :=
  if isSafeChar c then some c
  else
    match before with
    | none => some '_'
    | some p => if isSafeChar p then some '_' else none

/-- Every maximal run of characters outside the class replaced by one underscore. -/
def replaceRuns (l : List Char) : List Char :=
  (l.zip (none :: l.map some)).filterMap (fun p => runImage p.1 p.2)

/-- Trim leading and trailing dots, underscores and spaces, and put "download" for an
empty result. -/
def finishName (clean : List Char) : String :=
  let t := dropRightWhile isTrimChar (clean.dropWhile isTrimChar)
  String.mk (if t = [] then "download".data else t)

/-- The sanitizer that replaces character by character. -/
def sanitizePerChar (x : String) : String :=
  finishName (replaceEach x.data)

/-- The sanitizer that replaces run by run. -/
def sanitizeByRuns (x : String) : String :=
  finishName (replaceRuns x.data)

/-- No two neighbouring characters are both outside the class. -/
def noUnsafePair (l : List Char) : Bool :=
  (l.zip l.tail).all (fun p => isSafeChar p.1 || isSafeChar p.2)

/-- A letter, a digit or a hyphen: the characters of the class `[a-zA-Z0-9._\- ]` that
the call to `strings.Trim` leaves in place. -/
def isKeptChar (c : Char) : Bool :=
  isSafeChar c && !isTrimChar c

/-! ## File names as the specification words them -/

/-- A positive number in decimal, with a leading zero when it has one digit. -/
def twoDigits (n : Int) : String :=
  if n < 10 then "0" ++ toString n else toString n

/-- The file name of an item with `<series>` read as the item's series name. -/
def specItemFilename (item : Item) : String :=
  if item.Type_ = "Episode" then
    if item.ParentIndexNumber > 0 ∧ item.IndexNumber > 0 then
      item.SeriesName ++ " - S" ++ twoDigits item.ParentIndexNumber ++ "E" ++
        twoDigits item.IndexNumber ++ " - " ++ item.Name
    else item.SeriesName ++ " - " ++ item.Name
  else if item.ProductionYear > 0 then
    item.Name ++ " (" ++ toString item.ProductionYear ++ ")"
  else item.Name

/-- An episode without a series name. -/
def namelessEpisode : Item := ⟨"e1", "Pilot", "Episode", "", 2, 1, 0, ""⟩

/-- An episode of a named series, season 1 episode 12. -/
def namedEpisode : Item := ⟨"e2", "Finale", "Episode", "Show", 12, 1, 2020, ""⟩

/-- A response with the whole file of two bytes that names the file `real.mkv`. -/
def namedResponse : Response :=
  ⟨200, 2, "", "attachment; filename=real.mkv", some [("filename", "real.mkv")],
    ⟨[], [4, 5], .eof⟩⟩

/-- A server that sends the whole file and suggests a file name. -/
def namedEnv : Env :=
  { httpDo := fun _ _ => .ok namedResponse
    mkdirAll := fun _ => none
    openFile := fun _ => none }

/-- The rows of an item in the ledger: path, status, `bytes_done`, `bytes_total`. -/
def rowsOfItem (s : Store) (itemID : String) :
    List (String × String × Option Int × Option Int) :=
  (s.downloads.filter (fun r => r.item_id == itemID)).map
    (fun r => (r.path, r.status, r.bytes_done, r.bytes_total))

/-! ## Cleaned paths -/

/-- A component that `filepath.Clean` keeps: not empty, not a single dot, without a
slash. -/
def okComp (c : List Char) : Prop :=
  c ≠ [] ∧ c ≠ ['.'] ∧ '/' ∉ c

/-- The stacks of components `filepath.Clean` builds, last component first: kept
components only, and a `..` only in a path that is not rooted, at the bottom or on
another `..`. -/
def okStack (rooted : Bool) : List (List Char) → Prop
  | [] => True
  | c :: below =>
    okComp c ∧ okStack rooted below ∧
      (c = ['.', '.'] → rooted = false ∧ (below = [] ∨ below.head? = some ['.', '.']))

/-- The path `filepath.Clean` writes for a stack of components. -/
def renderPath (rooted : Bool) (stack : List (List Char)) : List Char :=
  if rooted then '/' :: List.intercalate ['/'] stack.reverse
  else if List.intercalate ['/'] stack.reverse = [] then ['.']
  else List.intercalate ['/'] stack.reverse

/-- A file name that is one component of a path: not empty, neither `.` nor `..`,
without a slash. -/
def plainName (n : List Char) : Prop :=
  n ≠ [] ∧ n ≠ ['.'] ∧ n ≠ ['.', '.'] ∧ '/' ∉ n

/-- A response whose suggested file name climbs out of the directory. -/
def traversalResponse : Response :=
  ⟨200, 1, "", "attachment; filename=../../etc/passwd", some [("filename", "../../etc/passwd")],
    ⟨[], [7], .eof⟩⟩

/-! ## Number lists (`cmd/download.go`, `internal/ui/select.go`) -/

/-- The function `strings.Split(s, sep)` for a separator of one character. -/
def splitOn (sep : Char) : List Char → List (List Char)
  | [] => [[]]
  | c :: rest =>
    match splitOn sep rest with
    | [] => [[]]
    | w :: ws => if c = sep then [] :: w :: ws else (c :: w) :: ws

/-- The function `strings.SplitN(s, sep, 2)` on a text that contains the separator:
what stands before its first occurrence, and what stands after it. -/
def cutFirst (sep : Char) (s : List Char) : List Char × List Char :=
  (s.takeWhile (fun c => c != sep), (s.dropWhile (fun c => c != sep)).tail)

/-- The function `strconv.Atoi` where `int` has 64 bits. -/
def atoi (s : List Char) : Option Int :=
  parseInt64 s

/-- The loop `for i := start; i <= stop; i++ { body }` over an `int` of 64 bits: `i++`
wraps around, so with `stop` the largest `int` the loop does not end.  `fuel` bounds
the number of tests of the condition; `none` means the fuel ran out. -/
def forUpTo {α : Type} (body : Int → α → α) (stop : Int) : Nat → Int → α → Option α
  | 0, _, _ => none
  | fuel + 1, i, acc =>
    if i ≤ stop then forUpTo body stop fuel (wrap64 (i + 1)) (body i acc) else some acc

/-- The body of the loop over the parts in `parseNumberList`. -/
def numberPart (fuel : Nat) (out : List Int) (part0 : List Char) : Option (List Int) :=
  let part := trimSpaceChars part0
  if part = [] then some out
  else if '-' ∈ part then
    match atoi (trimSpaceChars (cutFirst '-' part).1),
        atoi (trimSpaceChars (cutFirst '-' part).2) with
    | some start, some stop =>
      if start > stop then some out
      else forUpTo (fun i o => o ++ [i]) stop fuel start out
    | _, _ => some out
  else
    match atoi part with
    | some v => some (out ++ [v])
    | none => some out

/-- The loop over the parts in `parseNumberList`. -/
def numberParts (fuel : Nat) : List (List Char) → List Int → Option (List Int)
  | [], out => some out
  | p :: rest, out =>
    match numberPart fuel out p with
    | none => none
    | some out2 => numberParts fuel rest out2

/-- The function `parseNumberList`; `none` means the fuel of a range loop ran out. -/
def parseNumberList (fuel : Nat) (value : String) : Option (List Int) :=
  if trimSpaceChars value.data = [] then some []
  else numberParts fuel (splitOn ',' (trimSpaceChars value.data)) []

/-- The function `toSet`: the keys of the map, in the order they were first put in.  The
code reads the number of keys and whether a key is present. -/
def toSet (values : List Int) : List Int :=
  values.foldl (fun set v => if v ∈ set then set else set ++ [v]) []

/-- The comparison passed to `sort.Slice` in `filterEpisodes`. -/
def episodeLess (a b : Item) : Bool :=
  if a.ParentIndexNumber = b.ParentIndexNumber then decide (a.IndexNumber < b.IndexNumber)
  else decide (a.ParentIndexNumber < b.ParentIndexNumber)

/-- The test of the loop in `filterEpisodes`: is the item kept. -/
def keepEpisode (seasonSet episodeSet : List Int) (item : Item) : Bool :=
  if item.Type_ ≠ "Episode" ∧ item.Type_ ≠ "" then false
  else if seasonSet.length > 0 ∧ item.ParentIndexNumber ∉ seasonSet then false
  else if episodeSet.length > 0 ∧ item.IndexNumber ∉ episodeSet then false
  else true

/-- The order `sort.Slice` is asked for: `b` is not less than `a`. -/
def notAfter (a b : Item) : Prop :=
  episodeLess b a = false

instance : DecidableRel notAfter :=
  fun a b => inferInstanceAs (Decidable (episodeLess b a = false))

/-- The function `filterEpisodes`.  `sort.Slice` leaves the order of items that compare
equal open; here they keep the order of the input. -/
def filterEpisodes (items : List Item) (seasons episodes : List Int) : List Item :=
  (items.filter (keepEpisode (toSet seasons) (toSet episodes))).insertionSort notAfter

/-- The function `dedupe` of select.go. -/
def dedupe (values : List Int) : List Int :=
  values.foldl (fun out v => if v ∈ out then out else out ++ [v]) []

/-- The body of the loop over the parts in `parseSelection`: the indices so far, or the
error the function returns. -/
def selectionPart (fuel : Nat) (max : Int) (allowMulti : Bool) (result : List Int)
    (part0 : List Char) : Option (Except GoError (List Int)) :=
  let part := trimSpaceChars part0
  if part = [] then some (.ok result)
  else if '-' ∈ part then
    if allowMulti = false then some (.error "range selection not allowed")
    else
      match atoi (trimSpaceChars (cutFirst '-' part).1) with
      | none => some (.error ("invalid selection: " ++ String.mk part))
      | some start =>
        match atoi (trimSpaceChars (cutFirst '-' part).2) with
        | none => some (.error ("invalid selection: " ++ String.mk part))
        | some stop =>
          if start < 1 ∨ stop < 1 ∨ start > max ∨ stop > max ∨ start > stop then
            some (.error ("selection out of range: " ++ String.mk part))
          else
            match forUpTo (fun i r => r ++ [i - 1]) stop fuel start result with
            | none => none
            | some r => some (.ok r)
  else
    match atoi part with
    | none => some (.error ("invalid selection: " ++ String.mk part))
    | some idx =>
      if idx < 1 ∨ idx > max then
        some (.error ("selection out of range: " ++ toString idx))
      else some (.ok (result ++ [idx - 1]))

/-- The loop over the parts in `parseSelection`. -/
def selectionParts (fuel : Nat) (max : Int) (allowMulti : Bool) :
    List (List Char) → List Int → Option (Except GoError (List Int))
  | [], result => some (.ok result)
  | p :: rest, result =>
    match selectionPart fuel max allowMulti result p with
    | none => none
    | some (.error e) => some (.error e)
    | some (.ok r) => selectionParts fuel max allowMulti rest r

/-- The function `parseSelection`; `none` means the fuel of a range loop ran out. -/
def parseSelection (fuel : Nat) (input : String) (max : Int) (allowMulti : Bool) :
    Option (Except GoError (List Int)) :=
  match selectionParts fuel max allowMulti (splitOn ',' input.data) [] with
  | none => none
  | some (.error e) => some (.error e)
  | some (.ok result) =>
    if result.length = 0 then some (.error "no selection made")
    else if allowMulti = false ∧ result.length > 1 then
      some (.error "multiple selections not allowed")
    else some (.ok (dedupe result))

/-! ## Filter specs as the specification words them -/

/-- An entry of a filter spec: a number, or a range, written in decimal digits. -/
inductive Entry where
  | single (ds : List Char)
  | range (lo hi : List Char)
deriving DecidableEq, Repr

/-- An entry with the number of spaces before and after it. -/
structure SpacedEntry where
  before : Nat
  entry : Entry
  after : Nat
deriving DecidableEq, Repr

/-- The text of an entry. -/
def Entry.text : Entry → List Char
  | .single ds => ds
  | .range lo hi => lo ++ '-' :: hi

/-- The text of an entry with its spaces. -/
def SpacedEntry.text (e : SpacedEntry) : List Char :=
  List.replicate e.before ' ' ++ e.entry.text ++ List.replicate e.after ' '

/-- A text of decimal digits that denotes a number below `bound`. -/
def isNumeral (bound : Nat) (ds : List Char) : Prop :=
  ds ≠ [] ∧ (∀ c ∈ ds, isDigit c = true) ∧ digitsValue ds < bound

instance (bound : Nat) (ds : List Char) : Decidable (isNumeral bound ds) :=
  inferInstanceAs (Decidable (ds ≠ [] ∧ (∀ c ∈ ds, isDigit c = true) ∧ digitsValue ds < bound))

/-- An entry the amended claim speaks of: a number that fits an `int`, or a range
`lo-hi` with `lo <= hi` whose upper end is below the largest `int`. -/
def Entry.valid : Entry → Prop
  | .single ds => isNumeral (2 ^ 63) ds
  | .range lo hi =>
    isNumeral (2 ^ 63) lo ∧ isNumeral (2 ^ 63 - 1) hi ∧ digitsValue lo ≤ digitsValue hi

instance (e : Entry) : Decidable e.valid :=
  match e with
  | .single ds => inferInstanceAs (Decidable (isNumeral (2 ^ 63) ds))
  | .range lo hi =>
    inferInstanceAs (Decidable (isNumeral (2 ^ 63) lo ∧ isNumeral (2 ^ 63 - 1) hi ∧
      digitsValue lo ≤ digitsValue hi))

/-- The numbers an entry stands for, in ascending order. -/
def Entry.numbers : Entry → List Int
  | .single ds => [(digitsValue ds : Int)]
  | .range lo hi =>
    (List.range (digitsValue hi + 1 - digitsValue lo)).map
      (fun k => ((digitsValue lo + k : Nat) : Int))

/-- The text of a filter spec: its entries, separated by commas. -/
def specText (es : List SpacedEntry) : String :=
  String.mk (List.intercalate [','] (es.map SpacedEntry.text))

/-- The filter spec "1,3-5". -/
def oneThreeToFive : List SpacedEntry :=
  [⟨0, .single ['1'], 0⟩, ⟨0, .range ['3'] ['5'], 0⟩]

/-- The items the specification selects: episodes (or items without a type) whose
season number is in `seasons` when that list is not empty and whose episode number is in
`episodes` when that list is not empty. -/
def episodeSelected (seasons episodes : List Int) (item : Item) : Prop :=
  (item.Type_ = "Episode" ∨ item.Type_ = "") ∧
    (seasons ≠ [] → item.ParentIndexNumber ∈ seasons) ∧
    (episodes ≠ [] → item.IndexNumber ∈ episodes)

instance (seasons episodes : List Int) (item : Item) :
    Decidable (episodeSelected seasons episodes item) :=
  inferInstanceAs (Decidable ((item.Type_ = "Episode" ∨ item.Type_ = "") ∧
    (seasons ≠ [] → item.ParentIndexNumber ∈ seasons) ∧
    (episodes ≠ [] → item.IndexNumber ∈ episodes)))

/-- Ascending order by season number, then episode number. -/
def episodeOrder (a b : Item) : Prop :=
  a.ParentIndexNumber < b.ParentIndexNumber ∨
    (a.ParentIndexNumber = b.ParentIndexNumber ∧ a.IndexNumber ≤ b.IndexNumber)

/-- Season 1 episode 1. -/
def episode11 : Item := ⟨"e11", "One", "Episode", "Show", 1, 1, 0, ""⟩

/-- Season 2 episode 1. -/
def episode21 : Item := ⟨"e21", "Two", "Episode", "Show", 1, 2, 0, ""⟩

/-! ## `internal/config/config.go` -/

/-- The fields of a `*url.URL`.  `User` is the userinfo as it is written in the URL. -/
structure URL where
  Scheme : String
  Opaque : String
  User : Option String
  Host : String
  Path : String
  OmitHost : Bool
  ForceQuery : Bool
  RawQuery : String
  Fragment : String
deriving DecidableEq, Repr

/-- The two functions of `net/url` that `NormalizeServerURL` calls: `url.Parse` and
`(*URL).String`. -/
structure UrlLib where
  parse : String → Except GoError URL
  write : URL → String

/-- The function `strings.TrimRight(s, "/")`. -/
def trimRightSlash (s : String) : String :=
  String.mk (dropRightWhile (fun c => c == '/') s.data)

/-- The function `strings.Contains`. -/
def containsSub (sub : List Char) : List Char → Bool
  | [] => sub.isEmpty
  | c :: rest => sub.isPrefixOf (c :: rest) || containsSub sub rest

/-- The first element of `strings.Split(s, sub)` for a non-empty `sub`: the text before
the first occurrence of `sub`, all of `s` when there is none. -/
def beforeSub (sub : List Char) : List Char → List Char
  | [] => []
  | c :: rest => if sub.isPrefixOf (c :: rest) then [] else c :: beforeSub sub rest

/-- The lines of `NormalizeServerURL` after the parsing: fragment and query are
emptied, the path is cut at "/web", the URL is written and trailing slashes go. -/
def finishServerURL (lib : UrlLib) (parsed : URL) : String :=
  let parsed := { parsed with Fragment := "", RawQuery := "" }
  let parsed :=
    if containsSub "/web".data parsed.Path.data then
      { parsed with Path := String.mk (beforeSub "/web".data parsed.Path.data) }
    else parsed
  trimRightSlash (lib.write parsed)

/-- The function `NormalizeServerURL` of config.go, over the library it calls. -/
def NormalizeServerURL (lib : UrlLib) (raw : String) : String :=
  let raw := TrimSpace raw
  if raw = "" then ""
  else
    match lib.parse raw with
    | .error _ => trimRightSlash raw
    | .ok parsed =>
      if parsed.Scheme = "" ∧ parsed.Host = "" ∧ parsed.Path ≠ "" then
        match lib.parse ("https://" ++ raw) with
        | .error _ => trimRightSlash raw
        | .ok parsed2 => finishServerURL lib parsed2
      else finishServerURL lib parsed

/-! ### `net/url` on plain texts

The functions `url.Parse` and `(*URL).String` for texts of ASCII letters, digits and
the characters `- . _ ~ / ? # : = & @ +`.  On such texts `net/url` escapes nothing and
rejects no character, and the functions below follow its steps.  For other texts
(percent escapes, spaces, brackets, other punctuation, characters outside ASCII)
`net/url` has checks and escapes that are not part of this model. -/

/-- The function `strings.Cut(s, sep)` for a separator of one character: before, after. -/
def cutChar (sep : Char) (s : List Char) : List Char × List Char :=
  (s.takeWhile (fun c => c != sep), (s.dropWhile (fun c => c != sep)).tail)

/-- An ASCII letter. -/
def isLetter (c : Char) : Bool :=
  (97 ≤ c.toNat && c.toNat ≤ 122) || (65 ≤ c.toNat && c.toNat ≤ 90)

/-- The function `getScheme` of net/url: the scheme and what follows its colon; no
scheme when a character that no scheme can have comes first.  `i` is the number of
characters read. -/
def schemeScan (raw : List Char) : Nat → List Char → Except GoError (List Char × List Char)
  | _, [] => .ok ([], raw)
  | i, c :: rest =>
    if isLetter c then schemeScan raw (i + 1) rest
    else if isDigit c ∨ c = '+' ∨ c = '-' ∨ c = '.' then
      if i = 0 then .ok ([], raw) else schemeScan raw (i + 1) rest
    else if c = ':' then
      if i = 0 then .error "missing protocol scheme" else .ok (raw.take i, rest)
    else .ok ([], raw)

/-- The function `strings.ToLower` on ASCII. -/
def toLowerAscii (s : List Char) : List Char :=
  s.map (fun c => if 65 ≤ c.toNat ∧ c.toNat ≤ 90 then Char.ofNat (c.toNat + 32) else c)

/-- The function `parseAuthority` of net/url: userinfo before the last `@`, then the
host, whose port (after its last colon) must be digits. -/
def parseAuthority (authority : List Char) : Except GoError (Option String × String) :=
  let host :=
    if '@' ∈ authority then (authority.reverse.takeWhile (fun c => c != '@')).reverse
    else authority
  let user : Option String :=
    if '@' ∈ authority then
      some (String.mk (authority.reverse.dropWhile (fun c => c != '@')).tail.reverse)
    else none
  let port := (host.reverse.takeWhile (fun c => c != ':')).reverse
  if ':' ∈ host ∧ port.all isDigit = false then
    .error ("invalid port " ++ String.mk (':' :: port) ++ " after host")
  else .ok (user, String.mk host)

/-- The function `parse` of net/url with `viaRequest` false, on the text before the
fragment. -/
def parseNoFragment (u : List Char) : Except GoError URL :=
  if u.any (fun c => c.toNat < 32 || c.toNat == 127) then
    .error "net/url: invalid control character in URL"
  else if u = ['*'] then .ok ⟨"", "", none, "", "*", false, false, "", ""⟩
  else
    match schemeScan u 0 u with
    | .error e => .error e
    | .ok (scheme0, rest0) =>
      let scheme := String.mk (toLowerAscii scheme0)
      let force : Bool := rest0.getLast? == some '?' && rest0.count '?' == 1
      let rest := if force then rest0.dropLast else (cutChar '?' rest0).1
      let query := if force then [] else (cutChar '?' rest0).2
      if rest.head? ≠ some '/' ∧ scheme ≠ "" then
        .ok ⟨scheme, String.mk rest, none, "", "", false, force, String.mk query, ""⟩
      else if rest.head? ≠ some '/' ∧ ':' ∈ (cutChar '/' rest).1 then
        .error "first path segment in URL cannot contain colon"
      else if (scheme ≠ "" ∨ ¬ (['/', '/', '/'].isPrefixOf rest)) ∧ ['/', '/'].isPrefixOf rest then
        let authority := (rest.drop 2).takeWhile (fun c => c != '/')
        let path := (rest.drop 2).dropWhile (fun c => c != '/')
        match parseAuthority authority with
        | .error e => .error e
        | .ok (user, host) =>
          .ok ⟨scheme, "", user, host, String.mk path, false, force, String.mk query, ""⟩
      else
        .ok ⟨scheme, "", none, "", String.mk rest,
          decide (scheme ≠ "" ∧ rest.head? = some '/'), force, String.mk query, ""⟩

/-- The function `url.Parse`. -/
def urlParse (rawURL : String) : Except GoError URL :=
  match parseNoFragment (cutChar '#' rawURL.data).1 with
  | .error e => .error e
  | .ok url => .ok { url with Fragment := String.mk (cutChar '#' rawURL.data).2 }

/-- The method `(*URL).String`. -/
def urlString (u : URL) : String :=
  let schemePart := if u.Scheme ≠ "" then u.Scheme ++ ":" else ""
  let body :=
    if u.Opaque ≠ "" then schemePart ++ u.Opaque
    else
      let authority :=
        if u.Scheme ≠ "" ∨ u.Host ≠ "" ∨ u.User ≠ none then
          if u.OmitHost ∧ u.Host = "" ∧ u.User = none then ""
          else
            (if u.Host ≠ "" ∨ u.Path ≠ "" ∨ u.User ≠ none then "//" else "") ++
              (match u.User with
                | some ui => ui ++ "@"
                | none => "") ++ u.Host
        else ""
      let slash := if u.Path ≠ "" ∧ u.Path.data.head? ≠ some '/' ∧ u.Host ≠ "" then "/" else ""
      let dot :=
        if schemePart ++ authority ++ slash = "" ∧ ':' ∈ (cutChar '/' u.Path.data).1 then "./"
        else ""
      schemePart ++ authority ++ slash ++ dot ++ u.Path
  let query := if u.ForceQuery ∨ u.RawQuery ≠ "" then "?" ++ u.RawQuery else ""
  let fragment := if u.Fragment ≠ "" then "#" ++ u.Fragment else ""
  body ++ query ++ fragment

/-- The library `net/url` on plain texts. -/
def plainUrl : UrlLib := ⟨urlParse, urlString⟩

/-- The dotless i (U+0131) read as the letter i. -/
def dotlessToI (c : Char) : Char :=
  if c.toNat = 0x131 then 'i' else c

/-- The text is one of the units of the specification (none, B, K, KB, KiB, M, MB, MiB,
G, GB, GiB) written in any letter case, the dotless i counting as a case of the letter
i. -/
def unitOfSpec (u : String) : Prop :=
  String.mk (u.data.map dotlessToI) ∈ unitSpellings.map Prod.fst

instance (u : String) : Decidable (unitOfSpec u) :=
  inferInstanceAs (Decidable (String.mk (u.data.map dotlessToI) ∈ unitSpellings.map Prod.fst))

/-! # Theorems -/

/-! ## The stream copier -/

theorem writeChunk_ok {σ : Type} (dst : Writer σ) (received : σ → List Byte)
    (hw : ∀ data s, (dst data s).1.err = none →
      (dst data s).1.n = data.length ∧ received (dst data s).2 = received s ++ data)
    (data : List Byte) (s : σ) (h : (writeChunk dst data s).1.err = none) :
    (writeChunk dst data s).1.n = data.length ∧
      received (writeChunk dst data s).2 = received s ++ data := by
  unfold writeChunk at *
  by_cases hd : 0 < data.length
  · simp only [hd, if_true] at *
    exact hw data s h
  · have hd0 : data = [] := List.eq_nil_of_length_eq_zero (by omega)
    subst hd0
    simp

theorem tickProgress_state {σ : Type} (onProgress : Option (ProgressFn σ)) (I : σ → Prop)
    (hcb : ∀ wr t c s, I s → I (callProgress onProgress wr t c s).2)
    (written total : Int) (lu : Time) (c : Clock) (s : σ) (h : I s) :
    I (tickProgress onProgress written total lu c s).2.2 := by
  unfold tickProgress
  split
  · exact hcb _ _ _ _ h
  · exact h

/-- One pass of the loop with a writer that reports every short write: when the pass
does not end in an error, the chunk has been written in full and received. -/
theorem copyIteration_ok {σ : Type} (cx : Context) (dst : Writer σ) (received : σ → List Byte)
    (total : Int) (limiter : Option Limiter) (onProgress : Option (ProgressFn σ))
    (hw : ∀ data s, (dst data s).1.err = none →
      (dst data s).1.n = data.length ∧ received (dst data s).2 = received s ++ data)
    (hcb : ∀ wr t c s, received (callProgress onProgress wr t c s).2 = received s)
    (data : List Byte) (readErr : Option ReadErr) (written : Int) (lu : Time) (c : Clock) (s : σ) :
    (∀ w l c1 s1, copyIteration cx dst total limiter onProgress data readErr written lu c s
        = .next w l c1 s1 →
      w = written + data.length ∧ received s1 = received s ++ data) ∧
    (∀ res, copyIteration cx dst total limiter onProgress data readErr written lu c s = .ret res →
      res.err = none →
      res.written = written + data.length ∧ received res.state = received s ++ data) := by
  have htick : ∀ wr lu c s0, received (tickProgress onProgress wr total lu c s0).2.2 = received s0 :=
    fun wr lu c s0 => tickProgress_state onProgress (fun x => received x = received s0)
      (fun _ _ _ _ hx => (hcb _ _ _ _).trans hx) wr total lu c s0 rfl
  unfold copyIteration
  cases hwait : waitChunk cx limiter data.length with
  | some e =>
    refine ⟨fun _ _ _ _ h => by simp at h, fun res hres he => ?_⟩
    simp only [Iter.ret.injEq] at hres
    rw [← hres] at he; simp at he
  | none =>
    cases hwe : (writeChunk dst data s).1.err with
    | some e =>
      refine ⟨fun _ _ _ _ h => by simp at h, fun res hres he => ?_⟩
      simp only [Iter.ret.injEq] at hres
      rw [← hres] at he; simp at he
    | none =>
      obtain ⟨hn, hr⟩ := writeChunk_ok dst received hw data s hwe
      simp only []
      unfold endOfRead
      cases readErr with
      | none =>
        refine ⟨fun w l c1 s1 h => ?_, fun _ h => by simp at h⟩
        simp only [Iter.next.injEq] at h
        obtain ⟨h1, _, _, h4⟩ := h
        refine ⟨by rw [← h1, hn], ?_⟩
        rw [← h4, htick, hr]
      | some re =>
        cases re with
        | eof =>
          refine ⟨fun _ _ _ _ h => by simp at h, fun res hres _ => ?_⟩
          simp only [Iter.ret.injEq] at hres
          rw [← hres]
          simp only []
          refine ⟨by rw [hn], ?_⟩
          rw [hcb, htick, hr]
        | other e =>
          refine ⟨fun _ _ _ _ h => by simp at h, fun res hres he => ?_⟩
          simp only [Iter.ret.injEq] at hres
          rw [← hres] at he; simp at he

theorem copyLoop_ok {σ : Type} (cx : Context) (dst : Writer σ) (received : σ → List Byte)
    (total : Int) (limiter : Option Limiter) (onProgress : Option (ProgressFn σ))
    (hw : ∀ data s, (dst data s).1.err = none →
      (dst data s).1.n = data.length ∧ received (dst data s).2 = received s ++ data)
    (hcb : ∀ wr t c s, received (callProgress onProgress wr t c s).2 = received s)
    (lastData : List Byte) (lastErr : ReadErr) (reads : List (List Byte)) :
    ∀ (written : Int) (lu : Time) (c : Clock) (s : σ),
      (copyLoop cx dst total limiter onProgress lastData lastErr reads written lu c s).err = none →
      (copyLoop cx dst total limiter onProgress lastData lastErr reads written lu c s).written
          = written + ((reads.flatten ++ lastData).length : Int) ∧
        received (copyLoop cx dst total limiter onProgress lastData lastErr reads written lu c s).state
          = received s ++ (reads.flatten ++ lastData) := by
  induction reads with
  | nil =>
    intro written lu c s
    have hit := copyIteration_ok cx dst received total limiter onProgress hw hcb lastData
      (some lastErr) written lu c s
    unfold copyLoop
    cases hi : copyIteration cx dst total limiter onProgress lastData (some lastErr) written lu c s with
    | ret res =>
      intro he
      simpa using hit.2 res hi he
    | next w l c1 s1 =>
      intro _
      simpa using hit.1 w l c1 s1 hi
  | cons d rest ih =>
    intro written lu c s
    have hit := copyIteration_ok cx dst received total limiter onProgress hw hcb d
      none written lu c s
    unfold copyLoop
    cases hi : copyIteration cx dst total limiter onProgress d none written lu c s with
    | ret res =>
      intro he
      simp only [] at he
      unfold copyIteration endOfRead at hi
      split at hi
      · simp only [Iter.ret.injEq] at hi; rw [← hi] at he; simp at he
      · split at hi
        · simp only [Iter.ret.injEq] at hi; rw [← hi] at he; simp at he
        · simp at hi
    | next w l c1 s1 =>
      intro he
      simp only [] at he ⊢
      obtain ⟨h1, h2⟩ := hit.1 w l c1 s1 hi
      obtain ⟨h3, h4⟩ := ih w l c1 s1 he
      rw [h3, h4, h1, h2]
      simp only [List.flatten_cons, List.append_assoc, List.length_append, Nat.cast_add]
      exact ⟨by ring, trivial⟩

theorem writeChunk_err_none {σ : Type} (dst : Writer σ)
    (hfull : ∀ data s, (dst data s).1.err = none) (data : List Byte) (s : σ) :
    (writeChunk dst data s).1.err = none := by
  unfold writeChunk
  split
  · exact hfull data s
  · rfl

theorem waitChunk_none (cx : Context) (n : Nat) : waitChunk cx none n = none := by
  unfold waitChunk
  split <;> rfl

/-- Without a limiter and with a sink that never fails, a source that ends in
end-of-stream is copied without error. -/
theorem copyLoop_no_error {σ : Type} (cx : Context) (dst : Writer σ)
    (total : Int) (onProgress : Option (ProgressFn σ))
    (hfull : ∀ data s, (dst data s).1.err = none)
    (lastData : List Byte) (reads : List (List Byte)) :
    ∀ (written : Int) (lu : Time) (c : Clock) (s : σ),
      (copyLoop cx dst total none onProgress lastData .eof reads written lu c s).err = none := by
  induction reads with
  | nil =>
    intro written lu c s
    unfold copyLoop copyIteration endOfRead
    simp only [waitChunk_none, writeChunk_err_none dst hfull]
  | cons d rest ih =>
    intro written lu c s
    unfold copyLoop copyIteration endOfRead
    simp only [waitChunk_none, writeChunk_err_none dst hfull]
    exact ih _ _ _ _

/-- A property of the state that the sink and the callback preserve holds when the copy
returns. -/
theorem copyLoop_invariant {σ : Type} (cx : Context) (dst : Writer σ)
    (total : Int) (limiter : Option Limiter) (onProgress : Option (ProgressFn σ)) (I : σ → Prop)
    (hdst : ∀ data s, I s → I (dst data s).2)
    (hcb : ∀ wr t c s, I s → I (callProgress onProgress wr t c s).2)
    (lastData : List Byte) (lastErr : ReadErr) (reads : List (List Byte)) :
    ∀ (written : Int) (lu : Time) (c : Clock) (s : σ), I s →
      I (copyLoop cx dst total limiter onProgress lastData lastErr reads written lu c s).state := by
  have hwc : ∀ data s, I s → I (writeChunk dst data s).2 := by
    intro data s hs
    unfold writeChunk
    split
    · exact hdst data s hs
    · exact hs
  have hit : ∀ data readErr written lu c s, I s →
      (∀ w l c1 s1, copyIteration cx dst total limiter onProgress data readErr written lu c s
          = .next w l c1 s1 → I s1) ∧
      (∀ res, copyIteration cx dst total limiter onProgress data readErr written lu c s
          = .ret res → I res.state) := by
    intro data readErr written lu c s hs
    have h1 := hwc data s hs
    have h2 := fun wr => tickProgress_state onProgress I hcb wr total lu c _ h1
    unfold copyIteration endOfRead
    split
    · exact ⟨fun _ _ _ _ h => by simp at h, fun res hres => by
        simp only [Iter.ret.injEq] at hres; rw [← hres]; exact hs⟩
    · split
      · exact ⟨fun _ _ _ _ h => by simp at h, fun res hres => by
          simp only [Iter.ret.injEq] at hres; rw [← hres]; exact h1⟩
      · split
        · exact ⟨fun _ _ _ s1 h => by
            simp only [Iter.next.injEq] at h; rw [← h.2.2.2]; exact h2 _, fun _ h => by simp at h⟩
        · exact ⟨fun _ _ _ _ h => by simp at h, fun res hres => by
            simp only [Iter.ret.injEq] at hres; rw [← hres]; exact hcb _ _ _ _ (h2 _)⟩
        · exact ⟨fun _ _ _ _ h => by simp at h, fun res hres => by
            simp only [Iter.ret.injEq] at hres; rw [← hres]; exact h2 _⟩
  induction reads with
  | nil =>
    intro written lu c s hs
    unfold copyLoop
    cases hi : copyIteration cx dst total limiter onProgress lastData (some lastErr) written lu c s with
    | ret res => exact (hit _ _ _ _ _ _ hs).2 res hi
    | next w l c1 s1 => exact (hit _ _ _ _ _ _ hs).1 w l c1 s1 hi
  | cons d rest ih =>
    intro written lu c s hs
    unfold copyLoop
    cases hi : copyIteration cx dst total limiter onProgress d none written lu c s with
    | ret res => exact (hit _ _ _ _ _ _ hs).2 res hi
    | next w l c1 s1 => exact ih w l c1 s1 ((hit _ _ _ _ _ _ hs).1 w l c1 s1 hi)

/-- C1: without a rate limiter, a source that ends in end-of-stream (whatever the
sequence of reads that delivers its bytes) and a sink that accepts every write in full
and records it: `CopyWithProgress` returns no error, the number of source bytes, and the
sink has received exactly the source bytes in their order.  `received` reads off the
state what the sink has received; the callback leaves it alone. -/
theorem C1_copy_all_bytes {σ : Type} (cx : Context) (dst : Writer σ)
    (received : σ → List Byte) (src : Reader) (total : Int)
    (onProgress : Option (ProgressFn σ)) (c : Clock) (s : σ)
    (heof : src.lastErr = .eof)
    (hfull : ∀ data s, (dst data s).1 = ⟨data.length, none⟩)
    (hrecv : ∀ data s, received (dst data s).2 = received s ++ data)
    (hcb : ∀ wr t c s, received (callProgress onProgress wr t c s).2 = received s) :
    (CopyWithProgress cx dst src total none onProgress c s).err = none ∧
    (CopyWithProgress cx dst src total none onProgress c s).written = (src.bytes.length : Int) ∧
    received (CopyWithProgress cx dst src total none onProgress c s).state
      = received s ++ src.bytes := by
  have herr : ∀ data s, (dst data s).1.err = none := fun data s => by rw [hfull]
  have hw : ∀ data s, (dst data s).1.err = none →
      (dst data s).1.n = data.length ∧ received (dst data s).2 = received s ++ data :=
    fun data s _ => ⟨by rw [hfull], hrecv data s⟩
  unfold CopyWithProgress
  rw [heof]
  have h0 := copyLoop_no_error cx dst total onProgress herr src.lastData src.reads 0
    c.now.1 c.now.2 s
  have h1 := copyLoop_ok cx dst received total none onProgress hw hcb src.lastData .eof
    src.reads 0 c.now.1 c.now.2 s h0
  refine ⟨h0, ?_, h1.2⟩
  rw [h1.1]
  simp [Reader.bytes]

/-- C1 at a concrete input: five bytes delivered by three reads, the last one together
with end-of-stream, into a sink that appends what it is given. -/
theorem C1_copy_all_bytes_witness :
    (CopyWithProgress ctx recordingSink ⟨[[1, 2], [], [3, 4]], [5], .eof⟩ 0 none none
        ⟨fun k => k, 0⟩ []).err = none ∧
    (CopyWithProgress ctx recordingSink ⟨[[1, 2], [], [3, 4]], [5], .eof⟩ 0 none none
        ⟨fun k => k, 0⟩ []).written = 5 ∧
    (CopyWithProgress ctx recordingSink ⟨[[1, 2], [], [3, 4]], [5], .eof⟩ 0 none none
        ⟨fun k => k, 0⟩ []).state = [1, 2, 3, 4, 5] :=
  C1_copy_all_bytes ctx recordingSink id ⟨[[1, 2], [], [3, 4]], [5], .eof⟩ 0 none
    ⟨fun k => k, 0⟩ [] rfl (fun _ _ => rfl) (fun _ _ => rfl) (fun _ _ _ _ => rfl)

set_option exponentiation.threshold 1100 in
/-- C5 at its failing input: the rate `1` is accepted and gives a burst of one byte; a
source that delivers two bytes in one read is then not copied: the wait for two tokens
fails, nothing is written and the copy returns the error. -/
theorem C5_burst_below_chunk :
    ParseRateLimit "1" = .ok (some ⟨⟨1, 1⟩, false, 1⟩) ∧
    (CopyWithProgress ctx recordingSink ⟨[], [1, 2], .eof⟩ 2 (some ⟨⟨1, 1⟩, false, 1⟩) none
        tickClock []).err = some "rate: Wait(n=2) exceeds limiter's burst 1" ∧
    (CopyWithProgress ctx recordingSink ⟨[], [1, 2], .eof⟩ 2 (some ⟨⟨1, 1⟩, false, 1⟩) none
        tickClock []).written = 0 ∧
    (CopyWithProgress ctx recordingSink ⟨[], [1, 2], .eof⟩ 2 (some ⟨⟨1, 1⟩, false, 1⟩) none
        tickClock []).state = [] :=
  ⟨rfl, by decide, by decide, by decide⟩


/-- C6 as amended: for a chunk of n > 0 bytes that the limiter lets through, when the
write of the sink returns an error, the copy stops there: it returns that error and the
bytes written so far, those the failed write accepted included, and leaves the state as
that write left it.  This holds for a chunk of a read without error and for the chunk
of the last read, at every point of the loop, and so for the first chunk of a copy. -/
theorem C6_write_error_stops {σ : Type} (cx : Context) (dst : Writer σ) (total : Int)
    (limiter : Option Limiter) (onProgress : Option (ProgressFn σ))
    (lastData : List Byte) (lastErr : ReadErr) (d : List Byte) (rest : List (List Byte))
    (written : Int) (lu : Time) (c : Clock) (s : σ) (e : GoError)
    (hd : 0 < d.length)
    (hwait : waitChunk cx limiter d.length = none)
    (herr : (dst d s).1.err = some e) :
    copyLoop cx dst total limiter onProgress lastData lastErr (d :: rest) written lu c s
      = ⟨written + ((dst d s).1.n : Int), some e, c, (dst d s).2⟩ ∧
    copyLoop cx dst total limiter onProgress d lastErr [] written lu c s
      = ⟨written + ((dst d s).1.n : Int), some e, c, (dst d s).2⟩ ∧
    CopyWithProgress cx dst ⟨d :: rest, lastData, lastErr⟩ total limiter onProgress c s
      = ⟨0 + ((dst d s).1.n : Int), some e, c.now.2, (dst d s).2⟩ := by
  have hw : writeChunk dst d s = dst d s := by simp [writeChunk, hd]
  refine ⟨?_, ?_, ?_⟩
  · unfold copyLoop copyIteration
    simp only [hwait, hw, herr]
  · unfold copyLoop copyIteration
    simp only [hwait, hw, herr]
  · unfold CopyWithProgress copyLoop copyIteration
    simp only [hwait, hw, herr]

/-- C6 at a concrete input: a sink that takes one byte of a write of two and reports an
error. -/
theorem C6_write_error_stops_witness :
    copyLoop ctx failingSink 0 none none [] .eof ([1, 2] :: [[3]]) 0 0 tickClock []
      = ⟨0 + ((failingSink [1, 2] []).1.n : Int), some "write: broken pipe", tickClock,
          (failingSink [1, 2] []).2⟩ ∧
    copyLoop ctx failingSink 0 none none [1, 2] .eof [] 0 0 tickClock []
      = ⟨0 + ((failingSink [1, 2] []).1.n : Int), some "write: broken pipe", tickClock,
          (failingSink [1, 2] []).2⟩ ∧
    CopyWithProgress ctx failingSink ⟨[1, 2] :: [[3]], [], .eof⟩ 0 none none tickClock []
      = ⟨0 + ((failingSink [1, 2] []).1.n : Int), some "write: broken pipe", tickClock.now.2,
          (failingSink [1, 2] []).2⟩ :=
  C6_write_error_stops ctx failingSink 0 none none [] .eof [1, 2] [[3]] 0 0 tickClock []
    "write: broken pipe" (by decide) rfl rfl

/-- C6 as stated fails: a sink accepts one byte of a chunk of two and reports no error;
the copy does not stop and returns no error. -/
theorem C6_short_write_unnoticed :
    (shortSink [1, 2] []).1 = ⟨1, none⟩ ∧
    (CopyWithProgress ctx shortSink ⟨[[1, 2]], [3, 4], .eof⟩ 4 none none tickClock []).err = none ∧
    (CopyWithProgress ctx shortSink ⟨[[1, 2]], [3, 4], .eof⟩ 4 none none tickClock []).written = 2 ∧
    (CopyWithProgress ctx shortSink ⟨[[1, 2]], [3, 4], .eof⟩ 4 none none tickClock []).state
      = [1, 3] := by
  decide


/-! ## The batch loop -/

/-- The loop over the items ends with the first download that fails. -/
theorem downloadLoop_append_fail (env : Env) (outputDir : String) (limiter : Option Limiter)
    (opts : downloadOptions) (k : Item) (post : List Item) (pre : List Item) :
    ∀ (c : Clock) (w : World),
      (downloadLoop env outputDir limiter opts pre c w).2.2 = none →
      (downloadItem env k outputDir limiter opts
        (downloadLoop env outputDir limiter opts pre c w).1
        (downloadLoop env outputDir limiter opts pre c w).2.1).2.2 ≠ none →
      downloadLoop env outputDir limiter opts (pre ++ k :: post) c w
        = downloadItem env k outputDir limiter opts
            (downloadLoop env outputDir limiter opts pre c w).1
            (downloadLoop env outputDir limiter opts pre c w).2.1 := by
  induction pre with
  | nil =>
    intro c w _ hk
    simp only [downloadLoop, List.nil_append] at hk ⊢
    rcases hd : downloadItem env k outputDir limiter opts c w with ⟨c1, w1, e⟩
    rw [hd] at hk
    cases e with
    | none => simp at hk
    | some e => rfl
  | cons i rest ih =>
    intro c w hpre hk
    simp only [List.cons_append]
    unfold downloadLoop at hpre hk ⊢
    rcases hd : downloadItem env i outputDir limiter opts c w with ⟨c1, w1, e⟩
    rw [hd] at hpre hk
    cases e with
    | some e => simp at hpre
    | none =>
      simp only [] at hpre hk ⊢
      exact ih c1 w1 hpre hk

/-- C2 as amended: in a batch with a valid rate, when the download of item k fails,
`runDownloadItems` returns at once with the result of that download: the state it leaves
is the state item k left, so nothing is done for the items after k, and the one error of
item k is what the batch reports. -/
theorem C2_batch_stops (env : Env) (storeDir : String) (opts : downloadOptions)
    (limiter : Option Limiter) (pre : List Item) (k : Item) (post : List Item)
    (c : Clock) (w : World)
    (hrate : ParseRateLimit opts.Rate = .ok limiter)
    (hpre : (runDownloadItems env storeDir pre opts c w).2.2 = none)
    (hk : (downloadItem env k (if opts.Output = "" then Join storeDir "downloads" else opts.Output)
        limiter opts (runDownloadItems env storeDir pre opts c w).1
        (runDownloadItems env storeDir pre opts c w).2.1).2.2 ≠ none) :
    runDownloadItems env storeDir (pre ++ k :: post) opts c w
      = downloadItem env k (if opts.Output = "" then Join storeDir "downloads" else opts.Output)
          limiter opts (runDownloadItems env storeDir pre opts c w).1
          (runDownloadItems env storeDir pre opts c w).2.1 := by
  unfold runDownloadItems at hpre hk ⊢
  cases hm : env.mkdirAll (if opts.Output = "" then Join storeDir "downloads" else opts.Output) with
  | some e => simp [hm] at hpre
  | none =>
    simp only [hm, hrate] at hpre hk ⊢
    exact downloadLoop_append_fail env _ limiter opts k post pre c _ hpre hk


/-- C2 at a concrete input: the first of two items is refused by the server. -/
theorem C2_batch_stops_witness :
    (downloadItem failFirstEnv itemA "out" none plainOpts tickClock emptyWorld).2.2 ≠ none ∧
    runDownloadItems failFirstEnv "store" ([] ++ itemA :: [itemB]) plainOpts tickClock emptyWorld
      = downloadItem failFirstEnv itemA "out" none plainOpts tickClock emptyWorld :=
  ⟨by decide, C2_batch_stops failFirstEnv "store" plainOpts none [] itemA [itemB] tickClock
    emptyWorld rfl (by decide) (by decide)⟩

/-- C2 as stated fails: the download of the first of two items fails with a remote
request failure, the batch reports it, and the second item is never attempted. -/
theorem C2_later_items_not_attempted :
    (downloadItem failFirstEnv itemA "out" none plainOpts tickClock emptyWorld).2.2
      = some (.exit 5 "connection refused") ∧
    (runDownloadItems failFirstEnv "store" [itemA, itemB] plainOpts tickClock emptyWorld).2.2
      = some (.exit 5 "connection refused") ∧
    attempted "b"
      (runDownloadItems failFirstEnv "store" [itemA, itemB] plainOpts tickClock emptyWorld).2.1.trace
      = false := by
  decide

/-! ## The destination file -/

theorem readFile_setFile (fs : FS) (p : String) (content : List Byte) :
    readFile (setFile fs p content) p = some content := by
  induction fs with
  | nil => simp [setFile, readFile]
  | cons e t ih =>
    obtain ⟨k, v⟩ := e
    by_cases hk : k = p
    · simp [setFile, readFile, hk]
    · simp [setFile, readFile, hk, ih]

theorem fileWrite_ok (path : String) (data : List Byte) (s : World × Time)
    (h : (fileWrite path data s).1.err = none) :
    (fileWrite path data s).1.n = data.length ∧
      contentAt path (fileWrite path data s).2 = contentAt path s ++ data := by
  unfold fileWrite at *
  simp only [] at h ⊢
  have hk : min data.length s.1.diskFree = data.length := by
    by_contra hne
    have : min data.length s.1.diskFree < data.length := by omega
    simp [this] at h
  simp only [contentAt, readFile_setFile, hk, List.take_length, Option.getD_some, and_self]

theorem fileWrite_exists (path : String) (data : List Byte) (s : World × Time) :
    (readFile (fileWrite path data s).2.1.fs path).isSome := by
  simp [fileWrite, readFile_setFile]

theorem fileWrite_store (path : String) (data : List Byte) (s : World × Time) :
    (fileWrite path data s).2.1.store = s.1.store ∧
    (fileWrite path data s).2.1.trace = s.1.trace := by
  simp [fileWrite]

theorem progressFn_fs (id offset : Int) (wr t : Int) (c : Clock) (s : World × Time) :
    (callProgress (some (progressFn id offset)) wr t c s).2.1.fs = s.1.fs := by
  simp only [callProgress, progressFn]
  split <;> simp [World.ledger]

theorem progressFn_opens (id offset : Int) (wr t : Int) (c : Clock) (s : World × Time) :
    opens (callProgress (some (progressFn id offset)) wr t c s).2.1.trace = opens s.1.trace := by
  simp only [callProgress, progressFn]
  split <;> simp [World.ledger, opens, isOpenFile]

theorem setStatus_fs (c : Clock) (w : World) (id : Int) (st e : String) :
    (setStatus c w id st e).2.fs = w.fs ∧
      opens (setStatus c w id st e).2.trace = opens w.trace := by
  simp [setStatus, World.ledger, opens, isOpenFile]

theorem finish_frame (item : Item) (opts : downloadOptions) (id bytesTotal : Int)
    (res : CopyResult (World × Time)) :
    (finish item opts id bytesTotal res).2.1.fs = res.state.1.fs ∧
    opens (finish item opts id bytesTotal res).2.1.trace = opens res.state.1.trace := by
  unfold finish
  split
  · simp [World.ledger, setStatus, opens, isOpenFile]
  · split <;> simp [World.ledger, setStatus, updateProgress, opens, isOpenFile]

theorem finish_ok (item : Item) (opts : downloadOptions) (id bytesTotal : Int)
    (res : CopyResult (World × Time)) (h : (finish item opts id bytesTotal res).2.2 = none) :
    res.err = none := by
  unfold finish at h
  cases he : res.err with
  | some e => simp [he] at h
  | none => rfl

/-- The copy into the destination file opens no file. -/
theorem copy_opens (path1 : String) (limiter : Option Limiter) (id offset total : Int)
    (src : Reader) (c : Clock) (s0 : World × Time) :
    opens (CopyWithProgress ctx (fileWrite path1) src total limiter
      (some (progressFn id offset)) c s0).state.1.trace = opens s0.1.trace := by
  unfold CopyWithProgress
  exact copyLoop_invariant ctx (fileWrite path1) total limiter (some (progressFn id offset))
    (fun s => opens s.1.trace = opens s0.1.trace)
    (fun data s hs => by simp only [(fileWrite_store path1 data s).2]; exact hs)
    (fun wr t c s hs => by simp only [progressFn_opens]; exact hs)
    src.lastData src.lastErr src.reads 0 c.now.1 c.now.2 s0 rfl

/-- The copy into the destination file: when it succeeds, the file holds what it held
before followed by all bytes of the body. -/
theorem copy_file_content (path1 : String) (limiter : Option Limiter) (id offset total : Int)
    (src : Reader) (c : Clock) (s0 : World × Time)
    (hex : (readFile s0.1.fs path1).isSome)
    (herr : (CopyWithProgress ctx (fileWrite path1) src total limiter
      (some (progressFn id offset)) c s0).err = none) :
    readFile (CopyWithProgress ctx (fileWrite path1) src total limiter
      (some (progressFn id offset)) c s0).state.1.fs path1
      = some (contentAt path1 s0 ++ src.bytes) := by
  unfold CopyWithProgress at herr ⊢
  have hcb : ∀ wr t c s, contentAt path1
      (callProgress (some (progressFn id offset)) wr t c s).2 = contentAt path1 s := by
    intro wr t c s
    simp only [contentAt, progressFn_fs]
  have h1 := copyLoop_ok ctx (fileWrite path1) (contentAt path1) total limiter
    (some (progressFn id offset)) (fileWrite_ok path1) hcb src.lastData src.lastErr src.reads
    0 c.now.1 c.now.2 s0 herr
  have h2 := copyLoop_invariant ctx (fileWrite path1) total limiter (some (progressFn id offset))
    (fun s => (readFile s.1.fs path1).isSome)
    (fun data s _ => fileWrite_exists path1 data s)
    (fun wr t c s hs => by simp only [progressFn_fs]; exact hs)
    src.lastData src.lastErr src.reads 0 c.now.1 c.now.2 s0 hex
  have h4 := h1.2
  simp only [] at h2
  rw [Option.isSome_iff_exists] at h2
  obtain ⟨x, hx⟩ := h2
  rw [hx]
  rw [contentAt, hx] at h4
  simp only [Option.getD_some] at h4
  rw [h4]
  rfl

/-- The files `copyToFile` opens: the destination, once, unless opening it fails. -/
theorem copyToFile_opens (env : Env) (item : Item) (limiter : Option Limiter)
    (opts : downloadOptions) (id : Int) (path1 : String) (offset : Int) (resp : Response)
    (c : Clock) (w : World) :
    opens (copyToFile env item limiter opts id path1 offset resp c w).2.1.trace
      = opens w.trace ++
        (match env.openFile path1 with
          | none => [.openFile path1 offset (decide (offset > 0))]
          | some _ => []) := by
  unfold copyToFile openDownloadFile
  cases env.openFile path1 with
  | some e => simp [(setStatus_fs _ _ _ _ _).2]
  | none =>
    simp only []
    rw [(finish_frame _ _ _ _ _).2, copy_opens]
    simp [updateProgress, World.ledger, World.log, opens, isOpenFile]

/-- What the destination holds after a successful `copyToFile`: its old content when it
was opened for append, nothing when it was truncated, and then the body. -/
theorem copyToFile_content (env : Env) (item : Item) (limiter : Option Limiter)
    (opts : downloadOptions) (id : Int) (path1 : String) (offset : Int) (resp : Response)
    (c : Clock) (w : World)
    (h : (copyToFile env item limiter opts id path1 offset resp c w).2.2 = none) :
    env.openFile path1 = none ∧
    readFile (copyToFile env item limiter opts id path1 offset resp c w).2.1.fs path1
      = some ((if offset > 0 then (readFile w.fs path1).getD [] else []) ++ resp.Body.bytes) := by
  unfold copyToFile openDownloadFile at *
  cases ho : env.openFile path1 with
  | some e => simp [ho] at h
  | none =>
    simp only [ho] at h ⊢
    have herr := finish_ok _ _ _ _ _ h
    rw [(finish_frame _ _ _ _ _).1]
    have h1 := copy_file_content path1 limiter id offset _ resp.Body _ _
      (by simp [updateProgress, World.ledger, World.log, readFile_setFile]) herr
    rw [h1]
    simp [updateProgress, World.ledger, World.log, readFile_setFile, contentAt]

theorem upsert_fs (c : Clock) (w : World) (d : Download) :
    (upsert c w d).2.1.fs = w.fs ∧ opens (upsert c w d).2.1.trace = opens w.trace := by
  simp [upsert, World.ledger, opens, isOpenFile]

theorem log_request_opens (w : World) (itemID : String) (offset : Int) :
    opens (w.log (.request itemID offset)).trace = opens w.trace := by
  simp [World.log, opens, isOpenFile]

theorem renameRecord_fs (opts : downloadOptions) (record : Download) (path : String)
    (resp : Response) (c : Clock) (w : World) :
    (renameRecord opts record path resp c w).2.fs = w.fs ∧
      opens (renameRecord opts record path resp c w).2.trace = opens w.trace := by
  unfold renameRecord
  split
  · exact upsert_fs _ _ _
  · exact ⟨rfl, rfl⟩

/-- The files a run of `downloadItem` opens once the server has answered: the final
path, once, with the offset that `resumeOffset` gives, unless something fails before. -/
theorem downloadItem_opens (env : Env) (item : Item) (outputDir : String)
    (limiter : Option Limiter) (opts : downloadOptions) (c : Clock) (w : World) (resp : Response)
    (hresp : OpenDownload env item.Id (existingFileSize w.fs (plannedPath item outputDir opts))
      = .ok resp) :
    ∃ evs, opens (downloadItem env item outputDir limiter opts c w).2.1.trace
        = opens w.trace ++ evs ∧
      ∀ e ∈ evs, e = .openFile (finalPath opts (plannedPath item outputDir opts) resp)
        (resumeOffset (existingFileSize w.fs (plannedPath item outputDir opts)) resp)
        (decide (resumeOffset (existingFileSize w.fs (plannedPath item outputDir opts)) resp > 0))
      := by
  unfold downloadItem
  simp only []
  cases hu : (upsert c w (newRecord item opts (plannedPath item outputDir opts))).2.2.2 with
  | error e => exact ⟨[], by simp [(upsert_fs _ _ _).2], by simp⟩
  | ok id =>
    simp only []
    split
    · exact ⟨[], by simp [(upsert_fs _ _ _).2], by simp⟩
    · cases hm : env.mkdirAll (Dir (plannedPath item outputDir opts)) with
      | some e => exact ⟨[], by simp [(upsert_fs _ _ _).2, (setStatus_fs _ _ _ _ _).2], by simp⟩
      | none =>
        simp only [(setStatus_fs _ _ _ _ _).1, (upsert_fs _ _ _).1, hresp]
        unfold transfer
        rw [copyToFile_opens, (renameRecord_fs _ _ _ _ _ _).2, log_request_opens,
          (setStatus_fs _ _ _ _ _).2, (upsert_fs _ _ _).2]
        refine ⟨_, rfl, ?_⟩
        intro e he
        split at he
        · simpa using he
        · simp at he

/-- What the final path holds after a successful run of `downloadItem`. -/
theorem downloadItem_content (env : Env) (item : Item) (outputDir : String)
    (limiter : Option Limiter) (opts : downloadOptions) (c : Clock) (w : World) (resp : Response)
    (hdry : opts.DryRun = false)
    (hresp : OpenDownload env item.Id (existingFileSize w.fs (plannedPath item outputDir opts))
      = .ok resp)
    (hok : (downloadItem env item outputDir limiter opts c w).2.2 = none) :
    env.openFile (finalPath opts (plannedPath item outputDir opts) resp) = none ∧
    readFile (downloadItem env item outputDir limiter opts c w).2.1.fs
        (finalPath opts (plannedPath item outputDir opts) resp)
      = some ((if resumeOffset (existingFileSize w.fs (plannedPath item outputDir opts)) resp > 0
            then (readFile w.fs (finalPath opts (plannedPath item outputDir opts) resp)).getD []
            else []) ++ resp.Body.bytes) := by
  unfold downloadItem at hok ⊢
  simp only [hdry, Bool.false_eq_true, if_false] at hok ⊢
  cases hu : (upsert c w (newRecord item opts (plannedPath item outputDir opts))).2.2.2 with
  | error e => simp [hu] at hok
  | ok id =>
    simp only [hu] at hok ⊢
    cases hm : env.mkdirAll (Dir (plannedPath item outputDir opts)) with
    | some e => simp [hm] at hok
    | none =>
      simp only [hm, (setStatus_fs _ _ _ _ _).1, (upsert_fs _ _ _).1, hresp] at hok ⊢
      unfold transfer at hok ⊢
      obtain ⟨h1, h2⟩ := copyToFile_content _ _ _ _ _ _ _ _ _ _ hok
      refine ⟨h1, ?_⟩
      rw [h2, (renameRecord_fs _ _ _ _ _ _).1]
      simp [World.log, (setStatus_fs _ _ _ _ _).1, (upsert_fs _ _ _).1]

/-- C4: a run that finds a local file of size s > 0 and gets a 200 response to its range
request resets the resume offset to 0; whatever file it opens is the final path, opened
with offset 0 in truncate mode; and when the run succeeds it has opened that file once
and the file holds exactly the bytes of the response body. -/
theorem C4_full_response_restarts (env : Env) (item : Item) (outputDir : String)
    (limiter : Option Limiter) (opts : downloadOptions) (c : Clock) (w : World) (resp : Response)
    (hdry : opts.DryRun = false)
    (hsize : 0 < existingFileSize w.fs (plannedPath item outputDir opts))
    (hresp : OpenDownload env item.Id (existingFileSize w.fs (plannedPath item outputDir opts))
      = .ok resp)
    (hfull : resp.StatusCode = 200) :
    resumeOffset (existingFileSize w.fs (plannedPath item outputDir opts)) resp = 0 ∧
    (∃ evs, opens (downloadItem env item outputDir limiter opts c w).2.1.trace
        = opens w.trace ++ evs ∧
      ∀ e ∈ evs, e = .openFile (finalPath opts (plannedPath item outputDir opts) resp) 0 false) ∧
    ((downloadItem env item outputDir limiter opts c w).2.2 = none →
      opens (downloadItem env item outputDir limiter opts c w).2.1.trace
        = opens w.trace ++
          [.openFile (finalPath opts (plannedPath item outputDir opts) resp) 0 false] ∧
      readFile (downloadItem env item outputDir limiter opts c w).2.1.fs
          (finalPath opts (plannedPath item outputDir opts) resp)
        = some resp.Body.bytes) := by
  have hoff : resumeOffset (existingFileSize w.fs (plannedPath item outputDir opts)) resp = 0 := by
    simp [resumeOffset, hsize, hfull]
  obtain ⟨evs, hevs, hall⟩ := downloadItem_opens env item outputDir limiter opts c w resp hresp
  rw [hoff] at hall
  refine ⟨hoff, ⟨evs, hevs, fun e he => by simpa using hall e he⟩, ?_⟩
  intro hok
  obtain ⟨hopen, hcontent⟩ := downloadItem_content env item outputDir limiter opts c w resp
    hdry hresp hok
  rw [hoff] at hcontent
  refine ⟨?_, by simpa using hcontent⟩
  unfold downloadItem at hok ⊢
  simp only [hdry, Bool.false_eq_true, if_false] at hok ⊢
  cases hu : (upsert c w (newRecord item opts (plannedPath item outputDir opts))).2.2.2 with
  | error e => simp [hu] at hok
  | ok id =>
    simp only [hu] at hok ⊢
    cases hm : env.mkdirAll (Dir (plannedPath item outputDir opts)) with
    | some e => simp [hm] at hok
    | none =>
      simp only [hm, (setStatus_fs _ _ _ _ _).1, (upsert_fs _ _ _).1, hresp] at hok ⊢
      unfold transfer
      rw [copyToFile_opens, (renameRecord_fs _ _ _ _ _ _).2, log_request_opens,
        (setStatus_fs _ _ _ _ _).2, (upsert_fs _ _ _).2, hopen, hoff]
      rfl

/-- C4 at a concrete input: three stale bytes on disk, a server that ignores the range
and sends five bytes. -/
theorem C4_full_response_restarts_witness :
    resumeOffset (existingFileSize staleWorld.fs (plannedPath movie "out" plainOpts))
      ⟨200, 5, "", "", none, fullBody⟩ = 0 ∧
    (∃ evs, opens (downloadItem ignoreRangeEnv movie "out" none plainOpts tickClock
          staleWorld).2.1.trace = opens staleWorld.trace ++ evs ∧
      ∀ e ∈ evs, e = .openFile (finalPath plainOpts (plannedPath movie "out" plainOpts)
        ⟨200, 5, "", "", none, fullBody⟩) 0 false) ∧
    ((downloadItem ignoreRangeEnv movie "out" none plainOpts tickClock staleWorld).2.2 = none →
      opens (downloadItem ignoreRangeEnv movie "out" none plainOpts tickClock staleWorld).2.1.trace
        = opens staleWorld.trace ++ [.openFile
            (finalPath plainOpts (plannedPath movie "out" plainOpts)
              ⟨200, 5, "", "", none, fullBody⟩) 0 false] ∧
      readFile (downloadItem ignoreRangeEnv movie "out" none plainOpts tickClock staleWorld).2.1.fs
          (finalPath plainOpts (plannedPath movie "out" plainOpts) ⟨200, 5, "", "", none, fullBody⟩)
        = some fullBody.bytes) :=
  C4_full_response_restarts ignoreRangeEnv movie "out" none plainOpts tickClock staleWorld
    ⟨200, 5, "", "", none, fullBody⟩ rfl (by decide) rfl rfl

/-- A resume that keeps the planned path (an override path, or no file name in the
response): when the server honours the range and the run succeeds, the file holds its
old content followed by the body, so its size is the old size plus the body length. -/
theorem resume_appends_to_planned_file (env : Env) (item : Item) (outputDir : String)
    (limiter : Option Limiter) (opts : downloadOptions) (c : Clock) (w : World) (resp : Response)
    (old : List Byte)
    (hdry : opts.DryRun = false)
    (hold : readFile w.fs (plannedPath item outputDir opts) = some old)
    (hlen : 0 < old.length)
    (hresp : OpenDownload env item.Id (old.length : Int) = .ok resp)
    (hpart : resp.StatusCode ≠ 200)
    (hname : renamed opts resp = false)
    (hok : (downloadItem env item outputDir limiter opts c w).2.2 = none) :
    readFile (downloadItem env item outputDir limiter opts c w).2.1.fs
        (plannedPath item outputDir opts)
      = some (old ++ resp.Body.bytes) := by
  have hsz : existingFileSize w.fs (plannedPath item outputDir opts) = (old.length : Int) := by
    simp [existingFileSize, hold]
  have hfp : finalPath opts (plannedPath item outputDir opts) resp
      = plannedPath item outputDir opts := by
    simp [finalPath, hname]
  have hoff : resumeOffset (old.length : Int) resp = (old.length : Int) := by
    simp [resumeOffset, hpart]
  have h := (downloadItem_content env item outputDir limiter opts c w resp hdry
    (by rw [hsz]; exact hresp) hok).2
  rw [hfp, hsz, hoff, hold] at h
  rw [h]
  have : (0 : Int) < (old.length : Int) := by exact_mod_cast hlen
  simp [this]

/-- C3 at its failing input: three bytes of the movie are on disk at the planned path,
the server honours the range (206, total 5, the two remaining bytes) and suggests the
name `real.mkv`; the run succeeds, but the file it wrote, opened in append mode under
the suggested name, holds two bytes and not the five of the total. -/
theorem C3_hint_breaks_resume :
    existingFileSize staleWorld.fs (plannedPath movie "out" plainOpts) = 3 ∧
    OpenDownload hintEnv movie.Id 3 = .ok rangeResponse ∧
    totalBytesFromResponse rangeResponse 3 = 5 ∧
    (downloadItem hintEnv movie "out" none plainOpts tickClock staleWorld).2.2 = none ∧
    opens (downloadItem hintEnv movie "out" none plainOpts tickClock staleWorld).2.1.trace
      = [.openFile "out/real.mkv" 3 true] ∧
    existingFileSize (downloadItem hintEnv movie "out" none plainOpts tickClock staleWorld).2.1.fs
      "out/real.mkv" = 2 :=
  ⟨by decide, rfl, by decide, by decide, by decide, by decide⟩


/-! ## Progress values -/

/-- C7 at its failing input: a 200 response without a length (total 0) whose body has
five bytes, on a slow connection; the run succeeds and the values of `bytes_done` it
writes are 0, then 5 from the progress callback, then 0 from the final write. -/
theorem C7_bytes_done_drops :
    totalBytesFromResponse ⟨200, -1, "", "", none, ⟨[], [1, 2, 3, 4, 5], .eof⟩⟩ 0 = 0 ∧
    (downloadItem chunkedEnv movie "out" none plainOpts slowClock emptyWorld).2.2 = none ∧
    bytesDoneWrites
      (downloadItem chunkedEnv movie "out" none plainOpts slowClock emptyWorld).2.1.trace
      = [0, 5, 5, 0] := by
  decide


/-! ## Status changes of a record -/

theorem find?_map_keep {α : Type} (p : α → Bool) (f : α → α) (hf : ∀ r, p (f r) = p r)
    (l : List α) : (l.map f).find? p = (l.find? p).map f := by
  induction l with
  | nil => rfl
  | cons a t ih =>
    simp only [List.map, List.find?, hf]
    cases p a <;> simp [ih]

theorem keyMatch_updateOnConflict (itemID path : String) (d : Download) (r : DownloadRow) :
    keyMatch itemID path (updateOnConflict d r) = keyMatch itemID path r := rfl

/-- The row with a key after a `SetDownloadStatus`. -/
theorem find?_SetDownloadStatus (s : Store) (now : Time) (id : Int) (st e : String)
    (itemID path : String) :
    (s.SetDownloadStatus now id st e).downloads.find? (keyMatch itemID path)
      = (s.downloads.find? (keyMatch itemID path)).map (fun r =>
          if r.id = id then
            { r with status := st, error := nullStringOfString e, updated_at := now }
          else r) := by
  unfold Store.SetDownloadStatus
  apply find?_map_keep
  intro r
  split <;> rfl

/-- The row with a key after an `UpdateDownloadProgress`. -/
theorem find?_UpdateDownloadProgress (s : Store) (now : Time) (id : Int) (bd bt : Int)
    (itemID path : String) :
    (s.UpdateDownloadProgress now id bd bt).downloads.find? (keyMatch itemID path)
      = (s.downloads.find? (keyMatch itemID path)).map (fun r =>
          if r.id = id then
            { r with bytes_done := some bd, bytes_total := some bt, updated_at := now }
          else r) := by
  unfold Store.UpdateDownloadProgress
  apply find?_map_keep
  intro r
  split <;> rfl

theorem statusOf_UpdateDownloadProgress (s : Store) (now : Time) (id : Int) (bd bt : Int)
    (itemID path : String) :
    statusOf (s.UpdateDownloadProgress now id bd bt) itemID path = statusOf s itemID path := by
  unfold statusOf
  rw [find?_UpdateDownloadProgress]
  cases s.downloads.find? (keyMatch itemID path) with
  | none => rfl
  | some r =>
    simp only [Option.map_some']
    split <;> rfl

theorem keyMatch_other (itemID path path2 : String) (r : DownloadRow) (hp : path2 ≠ path)
    (h : keyMatch itemID path r = true) : keyMatch itemID path2 r = false := by
  simp only [keyMatch, Bool.and_eq_true, beq_iff_eq] at h
  simp only [keyMatch, Bool.and_eq_false_imp, beq_iff_eq, beq_eq_false_iff_ne]
  intro _
  rw [h.2]
  exact fun hh => hp hh.symm

/-- An upsert under another path leaves the row of this path alone. -/
theorem find?_execUpsert_other (s : Store) (d : Download) (itemID path : String)
    (hp : d.Path ≠ path) :
    (execUpsert s d).downloads.find? (keyMatch itemID path)
      = s.downloads.find? (keyMatch itemID path) := by
  unfold execUpsert
  split
  · simp only []
    rw [find?_map_keep]
    · cases hr : s.downloads.find? (keyMatch itemID path) with
      | none => rfl
      | some r =>
        have hk := List.find?_some hr
        by_cases hi : d.ItemID = itemID
        · rw [hi]
          simp [keyMatch_other itemID path d.Path r hp hk]
        · have : keyMatch d.ItemID d.Path r = false := by
            simp only [keyMatch, Bool.and_eq_true, beq_iff_eq] at hk
            simp only [keyMatch, Bool.and_eq_false_imp, beq_iff_eq]
            intro h1
            exact absurd (h1.symm.trans hk.1) hi
          simp [this]
    · intro r
      split <;> rfl
  · simp only [List.find?_append]
    have : keyMatch itemID path (insertedRow (max s.seq (maxDownloadId s.downloads) + 1) d)
        = false := by
      simp only [keyMatch, insertedRow, Bool.and_eq_false_imp, beq_iff_eq, beq_eq_false_iff_ne]
      exact fun _ => hp
    simp [List.find?, this]

/-- After an upsert of a record, the row with its key has its status. -/
theorem statusOf_execUpsert_same (s : Store) (d : Download) :
    statusOf (execUpsert s d) d.ItemID d.Path = some d.Status := by
  unfold statusOf execUpsert
  split
  · next h =>
    simp only []
    rw [find?_map_keep]
    · cases hr : s.downloads.find? (keyMatch d.ItemID d.Path) with
      | none =>
        rw [List.find?_eq_none] at hr
        simp only [List.any_eq_true] at h
        obtain ⟨r, hr1, hr2⟩ := h
        exact absurd hr2 (hr r hr1)
      | some r =>
        have hk := List.find?_some hr
        simp [hk, updateOnConflict]
    · intro r
      split <;> rfl
  · next h =>
    have hn : s.downloads.find? (keyMatch d.ItemID d.Path) = none := by
      rw [List.find?_eq_none]
      intro r hr hk
      exact h (List.any_eq_true.mpr ⟨r, hr, hk⟩)
    have hk : keyMatch d.ItemID d.Path
        (insertedRow (max s.seq (maxDownloadId s.downloads) + 1) d) = true := by
      simp [keyMatch, insertedRow]
    rw [List.find?_append, hn, Option.none_or, List.find?_cons_of_pos _ hk]
    rfl

theorem tailOk_append (base : List Event) (e0 : Event) (itemID path : String)
    (tr : List Event) (e : Event) (h : tailOk base e0 itemID path tr)
    (he : statusStepOk itemID path e) : tailOk base e0 itemID path (tr ++ [e]) := by
  obtain ⟨rest, h1, h2⟩ := h
  refine ⟨rest ++ [e], by rw [h1]; simp, ?_⟩
  intro x hx
  rcases List.mem_append.mp hx with hx | hx
  · exact h2 x hx
  · simp only [List.mem_singleton] at hx
    rw [hx]; exact he

theorem statusStepOk_same (itemID path : String) (op : LedgerOp) (before after : Store)
    (h : statusOf after itemID path = statusOf before itemID path) :
    statusStepOk itemID path (.ledger op before after) := by
  intro x y hx hy
  rw [h, hx] at hy
  exact Or.inl (Option.some.inj hy)

/-- Ending the attempt as failed or done is a step of the specification. -/
theorem runTracked_setStatus_final (base : List Event) (e0 : Event) (itemID path : String)
    (id : Int) (w : World) (c : Clock) (st e : String)
    (hst : st = "failed" ∨ st = "done")
    (h : runTracked base e0 itemID path id w) :
    tailOk base e0 itemID path (setStatus c w id st e).2.trace := by
  obtain ⟨⟨r, hr, hrs⟩, ht⟩ := h
  simp only [setStatus, World.ledger]
  apply tailOk_append _ _ _ _ _ _ ht
  intro x y hx hy
  simp only [statusOf, find?_SetDownloadStatus, hr, Option.map_some', Option.some.injEq] at hx hy
  rcases hrs with ⟨hid, hs⟩ | ⟨hid, hs⟩
  · simp only [hid, if_true] at hy
    right
    rw [← hx, ← hy, hs]
    rcases hst with h1 | h1 <;> simp [forwardStep, h1]
  · simp only [hid, if_false] at hy
    left
    rw [← hx, ← hy]

theorem runTracked_updateProgress (base : List Event) (e0 : Event) (itemID path : String)
    (id : Int) (w : World) (c : Clock) (bd bt : Int)
    (h : runTracked base e0 itemID path id w) :
    runTracked base e0 itemID path id (updateProgress c w id bd bt).2 := by
  obtain ⟨⟨r, hr, hrs⟩, ht⟩ := h
  simp only [updateProgress, World.ledger, runTracked]
  refine ⟨?_, tailOk_append _ _ _ _ _ _ ht
    (statusStepOk_same _ _ _ _ _ (statusOf_UpdateDownloadProgress _ _ _ _ _ _ _))⟩
  refine ⟨_, by rw [find?_UpdateDownloadProgress, hr]; rfl, ?_⟩
  simp only []
  by_cases hid : r.id = id
  · simp only [hid, if_true]
    simpa [hid] using hrs
  · simp only [hid, if_false]
    simpa [hid] using hrs

theorem runTracked_upsert_other (base : List Event) (e0 : Event) (itemID path : String)
    (id : Int) (w : World) (c : Clock) (d : Download) (hp : d.Path ≠ path)
    (h : runTracked base e0 itemID path id w) :
    runTracked base e0 itemID path id (upsert c w d).2.1 := by
  obtain ⟨⟨r, hr, hrs⟩, ht⟩ := h
  have hf : (w.store.UpsertDownload c.now.1 d).1.downloads.find? (keyMatch itemID path)
      = w.store.downloads.find? (keyMatch itemID path) := by
    unfold Store.UpsertDownload
    have := find?_execUpsert_other w.store (stampDownload c.now.1 d) itemID path hp
    simp only []
    split
    · split <;> exact this
    · exact this
  simp only [upsert, World.ledger, runTracked]
  refine ⟨⟨r, by rw [hf, hr], hrs⟩, tailOk_append _ _ _ _ _ _ ht
    (statusStepOk_same _ _ _ _ _ ?_)⟩
  unfold statusOf
  rw [hf]

theorem runTracked_log (base : List Event) (e0 : Event) (itemID path : String)
    (id : Int) (w : World) (e : Event) (he : statusStepOk itemID path e)
    (h : runTracked base e0 itemID path id w) :
    runTracked base e0 itemID path id (w.log e) :=
  ⟨h.1, tailOk_append _ _ _ _ _ _ h.2 he⟩

theorem runTracked_progressFn (base : List Event) (e0 : Event) (itemID path : String)
    (id offset : Int) (wr t : Int) (c : Clock) (s : World × Time)
    (h : runTracked base e0 itemID path id s.1) :
    runTracked base e0 itemID path id
      (callProgress (some (progressFn id offset)) wr t c s).2.1 := by
  simp only [callProgress, progressFn]
  split
  · exact runTracked_updateProgress base e0 itemID path id s.1 c.now.2 _ _ h
  · exact h

theorem runTracked_finish (base : List Event) (e0 : Event) (itemID path : String)
    (id : Int) (item : Item) (opts : downloadOptions) (bt : Int)
    (res : CopyResult (World × Time))
    (h : runTracked base e0 itemID path id res.state.1) :
    tailOk base e0 itemID path (finish item opts id bt res).2.1.trace := by
  unfold finish
  split
  · exact runTracked_setStatus_final _ _ _ _ _ _ _ _ _ (Or.inl rfl) h
  · simp only []
    have h1 := runTracked_updateProgress base e0 itemID path id _ res.clock bt bt h
    have h2 := runTracked_setStatus_final base e0 itemID path id _
      (updateProgress res.clock res.state.1 id bt bt).1 "done" "" (Or.inr rfl) h1
    split
    · simp only [World.ledger]
      apply tailOk_append _ _ _ _ _ _ h2
      apply statusStepOk_same
      unfold Store.UpdateSeriesProgress execSeriesUpsert statusOf
      split
      · rfl
      · split <;> rfl
    · exact h2

theorem runTracked_copyToFile (base : List Event) (e0 : Event) (itemID path : String)
    (id : Int) (env : Env) (item : Item) (limiter : Option Limiter) (opts : downloadOptions)
    (path1 : String) (offset : Int) (resp : Response) (c : Clock) (w : World)
    (h : runTracked base e0 itemID path id w) :
    tailOk base e0 itemID path
      (copyToFile env item limiter opts id path1 offset resp c w).2.1.trace := by
  unfold copyToFile openDownloadFile
  cases env.openFile path1 with
  | some e =>
    exact runTracked_setStatus_final _ _ _ _ _ _ _ _ _ (Or.inl rfl) h
  | none =>
    simp only []
    apply runTracked_finish
    unfold CopyWithProgress
    apply copyLoop_invariant ctx (fileWrite path1) _ limiter (some (progressFn id offset))
      (fun s => runTracked base e0 itemID path id s.1)
    · intro data s hs
      obtain ⟨h1, h2⟩ := fileWrite_store path1 data s
      simp only [runTracked] at hs ⊢
      rw [h1, h2]
      exact hs
    · intro wr t c s hs
      exact runTracked_progressFn _ _ _ _ _ _ _ _ _ _ hs
    · apply runTracked_updateProgress
      exact runTracked_log base e0 itemID path id _ (.openFile path1 offset (decide (offset > 0)))
        trivial h

theorem UpsertDownload_fst (s : Store) (now : Time) (d : Download) :
    (s.UpsertDownload now d).1 = execUpsert s (stampDownload now d) ∧
    (s.UpsertDownload now d).2.1 = stampDownload now d := by
  unfold Store.UpsertDownload
  simp only []
  split
  · split <;> exact ⟨rfl, rfl⟩
  · exact ⟨rfl, rfl⟩

/-- After the first upsert of a run the record with the planned key is queued. -/
theorem statusOf_first_upsert (s : Store) (now : Time) (item : Item) (opts : downloadOptions)
    (path : String) :
    statusOf (s.UpsertDownload now (newRecord item opts path)).1 item.Id path = some "queued" := by
  rw [(UpsertDownload_fst _ _ _).1]
  exact statusOf_execUpsert_same s (stampDownload now (newRecord item opts path))

theorem runTracked_start (base : List Event) (e0 : Event) (itemID path : String)
    (id : Int) (w : World) (c : Clock)
    (hq : statusOf w.store itemID path = some "queued")
    (ht : tailOk base e0 itemID path w.trace) :
    runTracked base e0 itemID path id (setStatus c w id "downloading" "").2 := by
  unfold statusOf at hq
  cases hr : w.store.downloads.find? (keyMatch itemID path) with
  | none => simp [hr] at hq
  | some r =>
    simp only [hr, Option.map_some', Option.some.injEq] at hq
    simp only [setStatus, World.ledger, runTracked]
    constructor
    · refine ⟨_, by rw [find?_SetDownloadStatus, hr]; rfl, ?_⟩
      simp only []
      by_cases hid : r.id = id
      · simp [hid]
      · simp [hid, hq]
    · apply tailOk_append _ _ _ _ _ _ ht
      intro x y hx hy
      simp only [statusOf, find?_SetDownloadStatus, hr, Option.map_some',
        Option.some.injEq] at hx hy
      by_cases hid : r.id = id
      · simp only [hid, if_true] at hy
        right
        rw [← hx, ← hy, hq]
        simp [forwardStep]
      · simp only [hid, if_false] at hy
        left
        rw [← hx, ← hy]

theorem newEvents_of_tailOk (w w2 : World) (e0 : Event) (itemID path : String)
    (h : tailOk w.trace e0 itemID path w2.trace) :
    ∃ rest, newEvents w w2 = e0 :: rest ∧ ∀ e ∈ rest, statusStepOk itemID path e := by
  obtain ⟨rest, h1, h2⟩ := h
  exact ⟨rest, by simp [newEvents, h1], h2⟩

/-- C8 as amended: a run of `downloadItem` (dry or real) first upserts the record of the
item and the planned path, which sets its status to queued whatever it was; every later
ledger call of the run leaves that status as it is or changes it by queued to
downloading, downloading to done or downloading to failed (all among the steps of the
specification).  This is for runs in which a file name taken from the response, if any,
gives a path other than the planned one. -/
theorem C8_status_steps (env : Env) (item : Item) (outputDir : String)
    (limiter : Option Limiter) (opts : downloadOptions) (c : Clock) (w : World)
    (hhint : ∀ resp,
      OpenDownload env item.Id (existingFileSize w.fs (plannedPath item outputDir opts))
        = .ok resp →
      renamed opts resp = true →
      finalPath opts (plannedPath item outputDir opts) resp ≠ plannedPath item outputDir opts) :
    ∃ s1 rest,
      newEvents w (downloadItem env item outputDir limiter opts c w).2.1
        = .ledger (.upsert (newRecord item opts (plannedPath item outputDir opts))) w.store s1
          :: rest ∧
      statusOf s1 item.Id (plannedPath item outputDir opts) = some "queued" ∧
      ∀ e ∈ rest, statusStepOk item.Id (plannedPath item outputDir opts) e := by
  have hq := statusOf_first_upsert w.store c.now.1 item opts (plannedPath item outputDir opts)
  refine ⟨(w.store.UpsertDownload c.now.1 (newRecord item opts (plannedPath item outputDir opts))).1,
    ?_⟩
  suffices h : tailOk w.trace
      (.ledger (.upsert (newRecord item opts (plannedPath item outputDir opts))) w.store
        (w.store.UpsertDownload c.now.1 (newRecord item opts (plannedPath item outputDir opts))).1)
      item.Id (plannedPath item outputDir opts)
      (downloadItem env item outputDir limiter opts c w).2.1.trace by
    obtain ⟨rest, h1, h2⟩ := newEvents_of_tailOk _ _ _ _ _ h
    exact ⟨rest, h1, hq, h2⟩
  have h0 : tailOk w.trace
      (.ledger (.upsert (newRecord item opts (plannedPath item outputDir opts))) w.store
        (w.store.UpsertDownload c.now.1 (newRecord item opts (plannedPath item outputDir opts))).1)
      item.Id (plannedPath item outputDir opts)
      (upsert c w (newRecord item opts (plannedPath item outputDir opts))).2.1.trace :=
    ⟨[], by simp [upsert, World.ledger], by simp⟩
  unfold downloadItem
  simp only []
  cases hu : (upsert c w (newRecord item opts (plannedPath item outputDir opts))).2.2.2 with
  | error e => exact h0
  | ok id =>
    simp only []
    split
    · exact h0
    · have h1 := runTracked_start _ _ item.Id (plannedPath item outputDir opts) id
        (upsert c w (newRecord item opts (plannedPath item outputDir opts))).2.1
        (upsert c w (newRecord item opts (plannedPath item outputDir opts))).1
        (by simpa [upsert, World.ledger] using hq) h0
      cases env.mkdirAll (Dir (plannedPath item outputDir opts)) with
      | some e => exact h1.2
      | none =>
        simp only [(setStatus_fs _ _ _ _ _).1, (upsert_fs _ _ _).1]
        have h2 := runTracked_log _ _ _ _ _ _
          (.request item.Id (existingFileSize w.fs (plannedPath item outputDir opts))) trivial h1
        cases ho : OpenDownload env item.Id
            (existingFileSize w.fs (plannedPath item outputDir opts)) with
        | error e =>
          exact runTracked_setStatus_final _ _ _ _ _ _ _ _ _ (Or.inl rfl) h2
        | ok resp =>
          simp only []
          unfold transfer
          apply runTracked_copyToFile
          unfold renameRecord
          split
          · next hr =>
            exact runTracked_upsert_other _ _ _ _ _ _ _ _ (hhint resp ho hr) h2
          · exact h2

/-- C8 at a concrete input: the resume of a failed record with its path as override path,
answered by a server that ignores the range. -/
theorem C8_status_steps_witness :
    ∃ s1 rest,
      newEvents failedWorld
          (downloadItem ignoreRangeEnv movie "out" none resumeOpts tickClock failedWorld).2.1
        = .ledger (.upsert (newRecord movie resumeOpts (plannedPath movie "out" resumeOpts)))
            failedWorld.store s1 :: rest ∧
      statusOf s1 movie.Id (plannedPath movie "out" resumeOpts) = some "queued" ∧
      ∀ e ∈ rest, statusStepOk movie.Id (plannedPath movie "out" resumeOpts) e :=
  C8_status_steps ignoreRangeEnv movie "out" none resumeOpts tickClock failedWorld
    (fun _ _ hr => by simp [renamed, resumeOpts] at hr)

/-- The runs the amended C8 leaves out: when the file name of the response gives the
planned path itself, the second upsert sets the record back from downloading to queued,
and the run ends with queued to done. -/
theorem same_path_hint_requeues :
    finalPath plainOpts (plannedPath movie "out" plainOpts) sameNameResponse
      = plannedPath movie "out" plainOpts ∧
    (downloadItem sameNameEnv movie "out" none plainOpts tickClock emptyWorld).2.2 = none ∧
    (newEvents emptyWorld
        (downloadItem sameNameEnv movie "out" none plainOpts tickClock emptyWorld).2.1).filterMap
      (fun e =>
        match e with
        | .ledger _ _ after => statusOf after "m1" "out/Movie.mkv"
        | _ => none)
      = ["queued", "downloading", "queued", "queued", "queued", "done"] := by
  decide

/-- C8 as stated fails: a dry run for a movie whose record is done sets the record back
to queued, which is no step of the specification. -/
theorem C8_done_record_requeued :
    statusOf doneWorld.store "m1" "out/Movie.mkv" = some "done" ∧
    plannedPath movie "out" dryOpts = "out/Movie.mkv" ∧
    statusOf (downloadItem ignoreRangeEnv movie "out" none dryOpts tickClock doneWorld).2.1.store
      "m1" "out/Movie.mkv" = some "queued" ∧
    ¬ forwardStep "done" "queued" := by
  decide

/-! ## The upsert of a record -/

theorem keyMatch_iff (itemID path : String) (r : DownloadRow) :
    keyMatch itemID path r = true ↔ rowKey r = (itemID, path) := by
  simp [keyMatch, rowKey, Prod.ext_iff]

theorem filter_keyMatch_nil (itemID path : String) (l : List DownloadRow)
    (h : (itemID, path) ∉ l.map rowKey) : l.filter (keyMatch itemID path) = [] := by
  rw [List.filter_eq_nil_iff]
  intro r hr hk
  exact h (List.mem_map.mpr ⟨r, hr, (keyMatch_iff _ _ _).mp hk⟩)

theorem filter_keyMatch_one (itemID path : String) (l : List DownloadRow)
    (hn : (l.map rowKey).Nodup) (r1 : DownloadRow) (hr1 : r1 ∈ l)
    (hk1 : keyMatch itemID path r1 = true) :
    (l.filter (keyMatch itemID path)).length = 1 := by
  induction l with
  | nil => simp at hr1
  | cons a t ih =>
    simp only [List.map_cons, List.nodup_cons] at hn
    by_cases ha : keyMatch itemID path a = true
    · have hka := (keyMatch_iff _ _ _).mp ha
      rw [hka] at hn
      simp [List.filter, ha, filter_keyMatch_nil itemID path t hn.1]
    · have ha2 : keyMatch itemID path a = false := by simpa using ha
      have hmem : r1 ∈ t := by
        rcases List.mem_cons.mp hr1 with h | h
        · rw [h] at hk1; exact absurd hk1 ha
        · exact h
      simp only [List.filter, ha2]
      exact ih hn.2 hmem

theorem map_rowKey_update (d : Download) (l : List DownloadRow) :
    (l.map (fun r => if keyMatch d.ItemID d.Path r then updateOnConflict d r else r)).map rowKey
      = l.map rowKey := by
  rw [List.map_map]
  apply List.map_congr_left
  intro r _
  simp only [Function.comp]
  split <;> rfl

/-- C9: on a ledger whose (item id, path) pairs are unique, after `UpsertDownload` of a
record the pairs are still unique, exactly one row carries the pair of the record, and
its status is the status of the record (queued when that is empty); when the pair was
present, the number of rows is unchanged and the row keeps its id and its creation
instant, otherwise the number of rows grows by one. -/
theorem C9_upsert_keeps_keys_unique (s : Store) (now : Time) (d : Download)
    (huniq : keysUnique s) :
    keysUnique (s.UpsertDownload now d).1 ∧
    ((s.UpsertDownload now d).1.downloads.filter (keyMatch d.ItemID d.Path)).length = 1 ∧
    (∀ r ∈ (s.UpsertDownload now d).1.downloads, keyMatch d.ItemID d.Path r = true →
      r.status = storedStatus d) ∧
    (∀ r0 ∈ s.downloads, keyMatch d.ItemID d.Path r0 = true →
      (s.UpsertDownload now d).1.downloads.length = s.downloads.length ∧
      ∃ r ∈ (s.UpsertDownload now d).1.downloads, keyMatch d.ItemID d.Path r = true ∧
        r.id = r0.id ∧ r.created_at = r0.created_at) ∧
    ((∀ r0 ∈ s.downloads, keyMatch d.ItemID d.Path r0 = false) →
      (s.UpsertDownload now d).1.downloads.length = s.downloads.length + 1) := by
  rw [(UpsertDownload_fst s now d).1]
  have hI : (stampDownload now d).ItemID = d.ItemID := rfl
  have hP : (stampDownload now d).Path = d.Path := rfl
  have hS : (stampDownload now d).Status = storedStatus d := rfl
  unfold keysUnique at *
  unfold execUpsert
  rw [hI, hP]
  by_cases hany : s.downloads.any (keyMatch d.ItemID d.Path) = true
  · rw [if_pos hany]
    obtain ⟨r1, hr1, hk1⟩ := List.any_eq_true.mp hany
    have hmk := map_rowKey_update (stampDownload now d) s.downloads
    rw [hI, hP] at hmk
    refine ⟨by rw [hmk]; exact huniq, ?_, ?_, ?_, ?_⟩
    · apply filter_keyMatch_one d.ItemID d.Path _ (by rw [hmk]; exact huniq)
        (updateOnConflict (stampDownload now d) r1)
      · exact List.mem_map.mpr ⟨r1, hr1, by simp [hk1]⟩
      · exact hk1
    · intro r hr hk
      obtain ⟨r0, _, hr0⟩ := List.mem_map.mp hr
      by_cases h0 : keyMatch d.ItemID d.Path r0 = true
      · simp only [h0, if_true] at hr0
        rw [← hr0]
        exact hS
      · simp only [h0] at hr0
        rw [← hr0] at hk
        exact absurd hk h0
    · intro r0 hr0 hk0
      refine ⟨by simp, updateOnConflict (stampDownload now d) r0, ?_, hk0, rfl, rfl⟩
      apply List.mem_map.mpr
      exact ⟨r0, hr0, by simp [hk0]⟩
    · intro hnone
      rw [hnone r1 hr1] at hk1
      exact absurd hk1 (by simp)
  · rw [if_neg hany]
    have hno : ∀ r ∈ s.downloads, keyMatch d.ItemID d.Path r = false := by
      intro r hr
      by_contra hk
      exact hany (List.any_eq_true.mpr ⟨r, hr, by simpa using hk⟩)
    have hnew : keyMatch d.ItemID d.Path
        (insertedRow (max s.seq (maxDownloadId s.downloads) + 1) (stampDownload now d)) = true := by
      simp [keyMatch, insertedRow, stampDownload]
    have hnotin : (d.ItemID, d.Path) ∉ s.downloads.map rowKey := by
      intro hin
      obtain ⟨r, hr, hk⟩ := List.mem_map.mp hin
      have := hno r hr
      rw [(keyMatch_iff _ _ _).mpr hk] at this
      exact absurd this (by simp)
    refine ⟨?_, ?_, ?_, ?_, ?_⟩
    · simp only [List.map_append, List.map_cons, List.map_nil]
      rw [List.nodup_append]
      refine ⟨huniq, List.nodup_singleton _, ?_⟩
      intro k hk1 hk2
      simp only [List.mem_singleton] at hk2
      rw [hk2] at hk1
      exact hnotin hk1
    · rw [List.filter_append, filter_keyMatch_nil d.ItemID d.Path s.downloads hnotin]
      simp [List.filter, hnew]
    · intro r hr hk
      rcases List.mem_append.mp hr with h1 | h1
      · rw [hno r h1] at hk
        exact absurd hk (by simp)
      · simp only [List.mem_singleton] at h1
        rw [h1]
        exact hS
    · intro r0 hr0 hk0
      rw [hno r0 hr0] at hk0
      exact absurd hk0 (by simp)
    · intro _
      simp

/-- C9 at a concrete input, the one of `TestStoreDownloadLifecycle`: the record is
upserted a second time, now with status done. -/
theorem C9_upsert_keeps_keys_unique_witness :
    keysUnique lifecycleStore ∧
    (keysUnique (lifecycleStore.UpsertDownload 2 { testRecord with Status := "done" }).1 ∧
    ((lifecycleStore.UpsertDownload 2 { testRecord with Status := "done" }).1.downloads.filter
      (keyMatch "item-1" "tmp/downloads/test.mkv")).length = 1 ∧
    (∀ r ∈ (lifecycleStore.UpsertDownload 2 { testRecord with Status := "done" }).1.downloads,
      keyMatch "item-1" "tmp/downloads/test.mkv" r = true →
      r.status = storedStatus { testRecord with Status := "done" }) ∧
    (∀ r0 ∈ lifecycleStore.downloads, keyMatch "item-1" "tmp/downloads/test.mkv" r0 = true →
      (lifecycleStore.UpsertDownload 2 { testRecord with Status := "done" }).1.downloads.length
        = lifecycleStore.downloads.length ∧
      ∃ r ∈ (lifecycleStore.UpsertDownload 2 { testRecord with Status := "done" }).1.downloads,
        keyMatch "item-1" "tmp/downloads/test.mkv" r = true ∧
        r.id = r0.id ∧ r.created_at = r0.created_at) ∧
    ((∀ r0 ∈ lifecycleStore.downloads, keyMatch "item-1" "tmp/downloads/test.mkv" r0 = false) →
      (lifecycleStore.UpsertDownload 2 { testRecord with Status := "done" }).1.downloads.length
        = lifecycleStore.downloads.length + 1)) :=
  ⟨by decide, C9_upsert_keeps_keys_unique lifecycleStore 2 { testRecord with Status := "done" }
    (by decide)⟩

/-- C10 at its failing input: on one connection, upsert movie a (new, id 1), upsert
movie b (new, id 2), upsert movie a again: the call returns 2, the id of b, while the
record of a has id 1.  In a batch of a new movie and a known one, the known one is
downloaded but its record stays queued: its status went to the other record. -/
theorem C10_stale_insert_id :
    (emptyStore.UpsertDownload 1 recA).2.2 = .ok 1 ∧
    ((emptyStore.UpsertDownload 1 recA).1.UpsertDownload 2 recB).2.2 = .ok 2 ∧
    ((((emptyStore.UpsertDownload 1 recA).1.UpsertDownload 2 recB).1).UpsertDownload 3 recA).2.2
      = .ok 2 ∧
    selectId ((((emptyStore.UpsertDownload 1 recA).1.UpsertDownload 2 recB).1).UpsertDownload 3
      recA).1 "a" "out/A.mkv" = some 1 ∧
    (runDownloadItems oneByteEnv "store" [itemA, itemB] plainOpts tickClock secondKnownWorld).2.2
      = none ∧
    statusOf (runDownloadItems oneByteEnv "store" [itemA, itemB] plainOpts tickClock
      secondKnownWorld).2.1.store "b" "out/B.mkv" = some "queued" :=
  ⟨rfl, rfl, rfl, by decide, by decide, by decide⟩

/-! ## Reading the ledger -/

theorem find?_id_UpdateDownloadProgress (s : Store) (now : Time) (id : Int) (bd bt : Int)
    (id2 : Int) :
    (s.UpdateDownloadProgress now id bd bt).downloads.find? (fun r => r.id == id2)
      = (s.downloads.find? (fun r => r.id == id2)).map (fun r =>
          if r.id = id then
            { r with bytes_done := some bd, bytes_total := some bt, updated_at := now }
          else r) := by
  unfold Store.UpdateDownloadProgress
  apply find?_map_keep
  intro r
  split <;> rfl

theorem find?_id_SetDownloadStatus (s : Store) (now : Time) (id : Int) (st e : String)
    (id2 : Int) :
    (s.SetDownloadStatus now id st e).downloads.find? (fun r => r.id == id2)
      = (s.downloads.find? (fun r => r.id == id2)).map (fun r =>
          if r.id = id then
            { r with status := st, error := nullStringOfString e, updated_at := now }
          else r) := by
  unfold Store.SetDownloadStatus
  apply find?_map_keep
  intro r
  split <;> rfl

/-- C11: for a stored record id and integers done and total, after
`UpdateDownloadProgress(id, done, total)` the record `GetDownload(id)` returns has
`bytes_done = done` and `bytes_total = total`, both present, a new `updated_at`, and
every other field (status, error, path, item fields, `created_at`) as `GetDownload(id)`
returned it before the call. -/
theorem C11_progress_then_get (s : Store) (now : Time) (id done total : Int) (d : Download)
    (hget : s.GetDownload id = some d) :
    (s.UpdateDownloadProgress now id done total).GetDownload id
      = some { d with
          BytesDone := ⟨done, true⟩
          BytesTotal := ⟨total, true⟩
          UpdatedAt := parseTime now } := by
  unfold Store.GetDownload at *
  rw [find?_id_UpdateDownloadProgress]
  cases hr : s.downloads.find? (fun r => r.id == id) with
  | none => simp [hr] at hget
  | some r =>
    have hid : r.id = id := by simpa using List.find?_some hr
    simp only [hr, Option.map_some', Option.some.injEq] at hget ⊢
    rw [← hget]
    simp [hid, scanRow, scanNullInt]

/-- C11 at a concrete input, the values of the store test. -/
theorem C11_progress_then_get_witness :
    (lifecycleStore.UpdateDownloadProgress 7 1 100 1000).GetDownload 1
      = some { scanRow (insertedRow 1 (stampDownload 1 testRecord)) with
          BytesDone := ⟨100, true⟩
          BytesTotal := ⟨1000, true⟩
          UpdatedAt := parseTime 7 } :=
  C11_progress_then_get lifecycleStore 7 1 100 1000
    (scanRow (insertedRow 1 (stampDownload 1 testRecord))) (by decide)

/-- C12: for a stored record id, after `SetDownloadStatus(id, s, m)` the record
`GetDownload(id)` returns has status `s`, an error that is absent when `m` is empty and
`m` otherwise, a new `updated_at`, and every other field (the byte counts among them)
as before; the records with another id are returned as before, their rows are
untouched, and no row is added or removed in either table. -/
theorem C12_status_then_get (s : Store) (now : Time) (id : Int) (st msg : String)
    (d : Download) (hget : s.GetDownload id = some d) :
    (s.SetDownloadStatus now id st msg).GetDownload id
      = some { d with
          Status := st
          Error := if msg = "" then ⟨"", false⟩ else ⟨msg, true⟩
          UpdatedAt := parseTime now } ∧
    (∀ id2, id2 ≠ id →
      (s.SetDownloadStatus now id st msg).GetDownload id2 = s.GetDownload id2) ∧
    (s.SetDownloadStatus now id st msg).downloads.filter (fun r => r.id != id)
      = s.downloads.filter (fun r => r.id != id) ∧
    (s.SetDownloadStatus now id st msg).downloads.length = s.downloads.length ∧
    (s.SetDownloadStatus now id st msg).series = s.series := by
  refine ⟨?_, ?_, ?_, ?_, rfl⟩
  · unfold Store.GetDownload at *
    rw [find?_id_SetDownloadStatus]
    cases hr : s.downloads.find? (fun r => r.id == id) with
    | none => simp [hr] at hget
    | some r =>
      have hid : r.id = id := by simpa using List.find?_some hr
      simp only [hr, Option.map_some', Option.some.injEq] at hget ⊢
      rw [← hget]
      by_cases hm : msg = ""
      · simp [hid, scanRow, scanNullString, nullStringOfString, hm]
      · simp [hid, scanRow, scanNullString, nullStringOfString, hm]
  · intro id2 hne
    unfold Store.GetDownload
    rw [find?_id_SetDownloadStatus]
    cases hr : s.downloads.find? (fun r => r.id == id2) with
    | none => rfl
    | some r =>
      have hid : r.id = id2 := by simpa using List.find?_some hr
      have : r.id ≠ id := by rw [hid]; exact hne
      simp [this]
  · unfold Store.SetDownloadStatus
    simp only []
    induction s.downloads with
    | nil => rfl
    | cons r t ih =>
      by_cases hr : r.id = id
      · have hb : (r.id != id) = false := by simp [hr]
        simp only [List.map_cons, List.filter_cons, if_pos hr, hb, Bool.false_eq_true, if_false]
        exact ih
      · have hb : (r.id != id) = true := by simp [hr]
        simp only [List.map_cons, List.filter_cons, if_neg hr, hb, if_true]
        rw [ih]
  · simp [Store.SetDownloadStatus]

/-- C12 at a concrete input: the record of the store test is marked failed. -/
theorem C12_status_then_get_witness :
    (lifecycleStore.SetDownloadStatus 7 1 "failed" "disk full").GetDownload 1
      = some { scanRow (insertedRow 1 (stampDownload 1 testRecord)) with
          Status := "failed"
          Error := if "disk full" = "" then ⟨"", false⟩ else ⟨"disk full", true⟩
          UpdatedAt := parseTime 7 } ∧
    (∀ id2, id2 ≠ 1 →
      (lifecycleStore.SetDownloadStatus 7 1 "failed" "disk full").GetDownload id2
        = lifecycleStore.GetDownload id2) ∧
    (lifecycleStore.SetDownloadStatus 7 1 "failed" "disk full").downloads.filter
        (fun r => r.id != 1)
      = lifecycleStore.downloads.filter (fun r => r.id != 1) ∧
    (lifecycleStore.SetDownloadStatus 7 1 "failed" "disk full").downloads.length
      = lifecycleStore.downloads.length ∧
    (lifecycleStore.SetDownloadStatus 7 1 "failed" "disk full").series = lifecycleStore.series :=
  C12_status_then_get lifecycleStore 7 1 "failed" "disk full"
    (scanRow (insertedRow 1 (stampDownload 1 testRecord))) (by decide)

/-- The records `ListDownloads` returns are the stored records, those with the given
status when one is given, each once, in some order. -/
theorem listRows_perm (s : Store) (status : String) :
    (listRows s status).Perm
      (if status ≠ "" then s.downloads.filter (fun r => r.status == status) else s.downloads) :=
  List.perm_insertionSort _ _

/-- C13 at its failing input: record 1 was last updated at 00:00:00.12 and record 2 five
milliseconds later, at 00:00:00.125.  Their stored texts end in `.12Z` and `.125Z`, the
first is the greater one as text, and `ListDownloads` returns record 1 before record 2,
the older update first. -/
theorem C13_older_update_listed_first :
    formatRFC3339Nano (newYear2024 + 120000000) = "2024-01-01T00:00:00.12Z".data ∧
    formatRFC3339Nano (newYear2024 + 125000000) = "2024-01-01T00:00:00.125Z".data ∧
    newYear2024 + 120000000 < newYear2024 + 125000000 ∧
    (twoUpdatesStore.ListDownloads "").map (fun d => (d.ID, d.UpdatedAt))
      = [(1, newYear2024 + 120000000), (2, newYear2024 + 125000000)] ∧
    (twoUpdatesStore.ListDownloads "done").map (fun d => d.ID) = [1, 2] := by
  decide

/-! ## The series watermark -/

theorem seriesFilter_nil (sid : String) (l : List SeriesRow)
    (h : sid ∉ l.map (fun r => r.series_id)) :
    l.filter (fun r => r.series_id == sid) = [] := by
  rw [List.filter_eq_nil_iff]
  intro r hr hk
  exact h (List.mem_map.mpr ⟨r, hr, by simpa using hk⟩)

theorem map_seriesId_update (now : Time) (sid : String) (se ep : Int) (l : List SeriesRow) :
    (l.map (fun r => if r.series_id == sid then
        { r with last_season := some se, last_episode := some ep, updated_at := now }
      else r)).map (fun r => r.series_id) = l.map (fun r => r.series_id) := by
  rw [List.map_map]
  apply List.map_congr_left
  intro r _
  simp only [Function.comp]
  split <;> rfl

/-- Rewriting the rows of a series leaves one row for it, with the new pair, when the
series ids are unique and the series has a row. -/
theorem seriesFilter_update (now : Time) (sid : String) (se ep : Int) (l : List SeriesRow)
    (hn : (l.map (fun r => r.series_id)).Nodup) (hin : sid ∈ l.map (fun r => r.series_id)) :
    ∃ r, (l.map (fun r => if r.series_id == sid then
          { r with last_season := some se, last_episode := some ep, updated_at := now }
        else r)).filter (fun r => r.series_id == sid) = [r] ∧
      r.last_season = some se ∧ r.last_episode = some ep := by
  induction l with
  | nil => simp at hin
  | cons a t ih =>
    simp only [List.map_cons, List.nodup_cons] at hn
    by_cases ha : a.series_id = sid
    · have hnot : sid ∉ t.map (fun r => r.series_id) := by rw [← ha]; exact hn.1
      have hnot2 : sid ∉ (t.map (fun r => if r.series_id == sid then
          { r with last_season := some se, last_episode := some ep, updated_at := now }
          else r)).map (fun r => r.series_id) := by
        rw [map_seriesId_update]; exact hnot
      refine ⟨{ a with last_season := some se, last_episode := some ep, updated_at := now },
        ?_, rfl, rfl⟩
      simp only [List.map_cons, ha, beq_self_eq_true, if_true, List.filter_cons]
      rw [seriesFilter_nil sid _ hnot2]
    · have hin2 : sid ∈ t.map (fun r => r.series_id) := by
        simp only [List.map_cons, List.mem_cons] at hin
        rcases hin with h | h
        · exact absurd h.symm ha
        · exact h
      obtain ⟨r, hr, h1, h2⟩ := ih hn.2 hin2
      refine ⟨r, ?_, h1, h2⟩
      have hb : (a.series_id == sid) = false := by simpa using ha
      simp only [List.map_cons, hb, Bool.false_eq_true, if_false, List.filter_cons]
      exact hr

/-- One call for a series with a non-empty id: the ids stay unique and the series has
exactly one row, which holds the pair of the call. -/
theorem execSeriesUpsert_same (s : Store) (now : Time) (sid : String) (se ep : Int)
    (hu : seriesUnique s) :
    seriesUnique (execSeriesUpsert s now sid se ep) ∧
    ∃ r, seriesRows (execSeriesUpsert s now sid se ep) sid = [r] ∧
      r.last_season = some se ∧ r.last_episode = some ep := by
  unfold seriesUnique seriesRows at *
  unfold execSeriesUpsert
  by_cases hany : s.series.any (fun r => r.series_id == sid) = true
  · rw [if_pos hany]
    have hin : sid ∈ s.series.map (fun r => r.series_id) := by
      obtain ⟨r, hr, hk⟩ := List.any_eq_true.mp hany
      exact List.mem_map.mpr ⟨r, hr, by simpa using hk⟩
    exact ⟨by simp only []; rw [map_seriesId_update]; exact hu,
      seriesFilter_update now sid se ep s.series hu hin⟩
  · rw [if_neg hany]
    have hnot : sid ∉ s.series.map (fun r => r.series_id) := by
      intro hin
      obtain ⟨r, hr, hk⟩ := List.mem_map.mp hin
      exact hany (List.any_eq_true.mpr ⟨r, hr, by simpa using hk⟩)
    constructor
    · simp only [List.map_append, List.map_cons, List.map_nil]
      rw [List.nodup_append]
      refine ⟨hu, List.nodup_singleton _, ?_⟩
      intro k hk1 hk2
      simp only [List.mem_singleton] at hk2
      rw [hk2] at hk1
      exact hnot hk1
    · refine ⟨⟨maxSeriesRowid s.series + 1, sid, some se, some ep, now⟩, ?_, rfl, rfl⟩
      simp only [List.filter_append, seriesFilter_nil sid s.series hnot, List.nil_append]
      simp [List.filter]

/-- A call for another series leaves the rows of this one alone. -/
theorem execSeriesUpsert_other (s : Store) (now : Time) (sid sid2 : String) (se ep : Int)
    (hne : sid2 ≠ sid) :
    seriesRows (execSeriesUpsert s now sid2 se ep) sid = seriesRows s sid := by
  unfold seriesRows execSeriesUpsert
  have hb : (sid2 == sid) = false := by simpa using hne
  split
  · simp only []
    induction s.series with
    | nil => rfl
    | cons a t ih =>
      by_cases ha : a.series_id = sid2
      · have h1 : (a.series_id == sid) = false := by rw [ha]; exact hb
        simp only [List.map_cons, ha, beq_self_eq_true, if_true, List.filter_cons, hb,
          Bool.false_eq_true, if_false, h1]
        exact ih
      · have h2 : (a.series_id == sid2) = false := by simpa using ha
        simp only [List.map_cons, h2, Bool.false_eq_true, if_false, List.filter_cons]
        rw [ih]
  · simp [List.filter_append, List.filter, hb]

theorem UpdateSeriesProgress_unique (s : Store) (c : Clock) (sid : String) (se ep : Int)
    (hu : seriesUnique s) : seriesUnique (s.UpdateSeriesProgress c sid se ep).2 := by
  unfold Store.UpdateSeriesProgress
  split
  · exact hu
  · exact (execSeriesUpsert_same s c.now.1 sid se ep hu).1

theorem runSeriesCalls_unique (calls : List (String × Int × Int)) :
    ∀ (c : Clock) (s : Store), seriesUnique s → seriesUnique (runSeriesCalls calls c s).2 := by
  induction calls with
  | nil => intro c s hu; exact hu
  | cons call rest ih =>
    intro c s hu
    unfold runSeriesCalls
    exact ih _ _ (UpdateSeriesProgress_unique s c _ _ _ hu)

theorem runSeriesCalls_other (sid : String) (calls : List (String × Int × Int))
    (hother : ∀ x ∈ calls, x.1 ≠ sid) :
    ∀ (c : Clock) (s : Store), seriesRows (runSeriesCalls calls c s).2 sid = seriesRows s sid := by
  induction calls with
  | nil => intro c s; rfl
  | cons call rest ih =>
    intro c s
    unfold runSeriesCalls
    rw [ih (fun x hx => hother x (List.mem_cons_of_mem _ hx))]
    unfold Store.UpdateSeriesProgress
    split
    · rfl
    · exact execSeriesUpsert_other s c.now.1 sid call.1 _ _ (hother call (List.mem_cons_self _ _))

theorem runSeriesCalls_append (pre post : List (String × Int × Int)) :
    ∀ (c : Clock) (s : Store),
      runSeriesCalls (pre ++ post) c s
        = runSeriesCalls post (runSeriesCalls pre c s).1 (runSeriesCalls pre c s).2 := by
  induction pre with
  | nil => intro c s; rfl
  | cons call rest ih =>
    intro c s
    simp only [List.cons_append, runSeriesCalls]
    exact ih _ _

/-- C14 as amended: on a ledger with unique series ids, after any sequence of
`UpdateSeriesProgress` calls (for this and for other series) the ledger holds exactly
one row for a series with a non-empty id that was passed at least once, and that row
records the pair of the most recent call for the series. -/
theorem C14_series_row_is_last_call (s : Store) (c : Clock) (sid : String) (se ep : Int)
    (pre post : List (String × Int × Int))
    (hu : seriesUnique s) (hsid : sid ≠ "")
    (hpost : ∀ x ∈ post, x.1 ≠ sid) :
    ∃ r, seriesRows (runSeriesCalls (pre ++ (sid, se, ep) :: post) c s).2 sid = [r] ∧
      r.last_season = some se ∧ r.last_episode = some ep := by
  rw [runSeriesCalls_append]
  unfold runSeriesCalls
  rw [runSeriesCalls_other sid post hpost]
  have hu1 := runSeriesCalls_unique pre c s hu
  unfold Store.UpdateSeriesProgress
  simp only [hsid, if_false]
  exact (execSeriesUpsert_same _ _ sid se ep hu1).2

/-- C14 at a concrete input: season 2 episode 5, another series, then season 1
episode 3. -/
theorem C14_series_row_is_last_call_witness :
    ∃ r, seriesRows (runSeriesCalls ([("series-1", 2, 5)] ++ ("series-1", 1, 3) ::
        [("series-2", 4, 4)]) tickClock emptyStore).2 "series-1" = [r] ∧
      r.last_season = some 1 ∧ r.last_episode = some 3 :=
  C14_series_row_is_last_call emptyStore tickClock "series-1" 1 3 [("series-1", 2, 5)]
    [("series-2", 4, 4)] (by decide) (by decide) (by decide)

/-- C14 as stated fails: after the calls (2, 5) and then (1, 3) for one series, its row
records (1, 3), not the highest pair (2, 5): the later, lower pair lowered it. -/
theorem C14_lower_pair_overwrites :
    (seriesRows (runSeriesCalls [("series-1", 2, 5), ("series-1", 1, 3)] tickClock
        emptyStore).2 "series-1").map (fun r => (r.last_season, r.last_episode))
      = [(some 1, some 3)] := by
  decide

/-! ## The expected total -/

theorem splitSlash_ne_nil (l : List Char) : splitSlash l ≠ [] := by
  cases l with
  | nil => simp [splitSlash]
  | cons c rest =>
    unfold splitSlash
    split
    · simp
    · split <;> simp

/-- The parts of a text split at its slashes hold no slash, and joined by slashes they
give the text back. -/
theorem splitSlash_spec (l : List Char) :
    (∀ p ∈ splitSlash l, '/' ∉ p) ∧ List.intercalate ['/'] (splitSlash l) = l := by
  induction l with
  | nil => simp [splitSlash, List.intercalate]
  | cons c rest ih =>
    unfold splitSlash
    cases hs : splitSlash rest with
    | nil => exact absurd hs (splitSlash_ne_nil rest)
    | cons w ws =>
      rw [hs] at ih
      obtain ⟨h1, h2⟩ := ih
      simp only []
      by_cases hc : c = '/'
      · simp only [hc, if_true]
        constructor
        · intro p hp
          simp only [List.mem_cons] at hp
          rcases hp with h | h
          · rw [h]; simp
          · exact h1 p (by simpa using h)
        · rw [← h2]
          simp [List.intercalate]
      · simp only [hc, if_false]
        constructor
        · intro p hp
          simp only [List.mem_cons] at hp
          rcases hp with h | h
          · rw [h]
            intro hm
            simp only [List.mem_cons] at hm
            rcases hm with h3 | h3
            · exact hc h3.symm
            · exact h1 w (List.mem_cons_self _ _) h3
          · exact h1 p (List.mem_cons_of_mem _ h)
        · rw [← h2]
          cases ws <;> simp [List.intercalate]

theorem splitSlash_of_no_slash (a : List Char) (h : '/' ∉ a) : splitSlash a = [a] := by
  induction a with
  | nil => rfl
  | cons c rest ih =>
    have hc : c ≠ '/' := fun hh => h (by simp [hh])
    have hr : '/' ∉ rest := fun hh => h (List.mem_cons_of_mem _ hh)
    unfold splitSlash
    rw [ih hr]
    simp [hc]

theorem splitSlash_append (a b : List Char) (h : '/' ∉ a) :
    splitSlash (a ++ '/' :: b) = a :: splitSlash b := by
  induction a with
  | nil =>
    simp only [List.nil_append, splitSlash]
    cases hs : splitSlash b with
    | nil => exact absurd hs (splitSlash_ne_nil b)
    | cons w ws => simp
  | cons c rest ih =>
    have hc : c ≠ '/' := fun hh => h (by simp [hh])
    have hr : '/' ∉ rest := fun hh => h (List.mem_cons_of_mem _ hh)
    have ih2 := ih hr
    simp only [List.cons_append, splitSlash, List.append_eq, ih2]
    simp [hc]

/-- A text splits into exactly two parts when it has exactly one slash. -/
theorem splitSlash_two (l a b : List Char) :
    splitSlash l = [a, b] ↔ l = a ++ '/' :: b ∧ '/' ∉ a ∧ '/' ∉ b := by
  constructor
  · intro h
    obtain ⟨h1, h2⟩ := splitSlash_spec l
    rw [h] at h1 h2
    refine ⟨?_, h1 a (by simp), h1 b (by simp)⟩
    rw [← h2]
    simp [List.intercalate]
  · rintro ⟨h1, h2, h3⟩
    rw [h1, splitSlash_append a b h2, splitSlash_of_no_slash b h3]

theorem wrap64_of_range (x : Int) (h1 : -(2 ^ 63) ≤ x) (h2 : x < 2 ^ 63) : wrap64 x = x := by
  unfold wrap64
  have : (x + 2 ^ 63) % 2 ^ 64 = x + 2 ^ 63 := Int.emod_eq_of_lt (by omega) (by omega)
  omega

/-- C15 as amended: `totalBytesFromResponse` returns the total written after the slash
when the range hint has exactly one slash and the text after it, trimmed, parses as an
int64; otherwise the content-length plus the resume offset, as an int64 sum, when the
content-length is positive (the plain sum when that does not overflow); otherwise, for
an unknown content-length and for a known length of 0 alike, 0. -/
theorem C15_expected_total (resp : Response) (offset : Int) :
    (∀ a b t, resp.ContentRange.data = a ++ '/' :: b → '/' ∉ a → '/' ∉ b →
      parseInt64 (trimSpaceChars b) = some t → totalBytesFromResponse resp offset = t) ∧
    ((¬ ∃ a b t, resp.ContentRange.data = a ++ '/' :: b ∧ '/' ∉ a ∧ '/' ∉ b ∧
        parseInt64 (trimSpaceChars b) = some t) →
      (0 < resp.ContentLength →
        totalBytesFromResponse resp offset = wrap64 (resp.ContentLength + offset) ∧
        (-(2 ^ 63) ≤ resp.ContentLength + offset → resp.ContentLength + offset < 2 ^ 63 →
          totalBytesFromResponse resp offset = resp.ContentLength + offset)) ∧
      (resp.ContentLength ≤ 0 → totalBytesFromResponse resp offset = 0)) := by
  constructor
  · intro a b t hcr ha hb hp
    have hne : resp.ContentRange ≠ "" := by
      intro h
      rw [h] at hcr
      cases a <;> simp at hcr
    unfold totalBytesFromResponse
    simp only [hne, ne_eq, not_false_eq_true, if_true]
    rw [(splitSlash_two _ a b).mpr ⟨hcr, ha, hb⟩]
    simp only [hp]
  · intro hno
    have hcode : totalBytesFromResponse resp offset
        = if resp.ContentLength > 0 then wrap64 (resp.ContentLength + offset) else 0 := by
      unfold totalBytesFromResponse
      simp only []
      split
      · next total heq =>
        exfalso
        split at heq
        · split at heq
          · next x b hs =>
            obtain ⟨h1, h2, h3⟩ := (splitSlash_two _ x b).mp hs
            exact hno ⟨x, b, total, h1, h2, h3, heq⟩
          · simp at heq
        · simp at heq
      · rfl
    rw [hcode]
    constructor
    · intro hpos
      have hp : resp.ContentLength > 0 := hpos
      simp only [hp, if_true, true_and]
      intro h1 h2
      exact wrap64_of_range _ h1 h2
    · intro hle
      have : ¬ resp.ContentLength > 0 := by omega
      simp only [this, if_false]

/-- C15 as stated fails: for a response with a known content-length of 0, no range
hint and the resume offset 500, `totalBytesFromResponse` returns 0, not the
content-length plus the offset. -/
theorem C15_known_zero_length_gives_zero :
    zeroLengthResponse.ContentRange = "" ∧ zeroLengthResponse.ContentLength = 0 ∧
    totalBytesFromResponse zeroLengthResponse 500 = 0 ∧
    zeroLengthResponse.ContentLength + 500 ≠ totalBytesFromResponse zeroLengthResponse 500 := by
  decide

/-! ## The invocations of the progress callback -/

theorem callsOk_mono (total w w2 : Int) (calls : List (Int × Int)) (h : callsOk total w calls)
    (hle : w ≤ w2) : callsOk total w2 calls :=
  ⟨fun x hx => ⟨le_trans (h.1 x hx).1 hle, (h.1 x hx).2⟩, h.2⟩

theorem callsOk_append (total w : Int) (calls : List (Int × Int)) (h : callsOk total w calls) :
    callsOk total w (calls ++ [(w, total)]) := by
  constructor
  · intro x hx
    rcases List.mem_append.mp hx with h1 | h1
    · exact h.1 x h1
    · simp only [List.mem_singleton] at h1
      rw [h1]
      exact ⟨le_refl _, rfl⟩
  · rw [List.map_append, List.pairwise_append]
    refine ⟨h.2, by simp, ?_⟩
    intro a ha b hb
    simp only [List.map_cons, List.map_nil, List.mem_singleton] at hb
    obtain ⟨x, hx, hxa⟩ := List.mem_map.mp ha
    rw [hb, ← hxa]
    exact (h.1 x hx).1

/-- One pass of the loop keeps the record of the callback in order; a pass that
returns without error ends with an invocation for the bytes written. -/
theorem copyIteration_calls {σ : Type} (cx : Context) (dst : Writer σ) (total : Int)
    (limiter : Option Limiter) (f : ProgressFn σ) (calls : σ → List (Int × Int))
    (hdst : ∀ data s, calls (dst data s).2 = calls s)
    (hcb : ∀ w t c s, calls (f w t c s).2 = calls s ++ [(w, t)])
    (data : List Byte) (readErr : Option ReadErr) (written : Int) (lu : Time) (c : Clock) (s : σ)
    (h : callsOk total written (calls s)) :
    (∀ w l c1 s1, copyIteration cx dst total limiter (some f) data readErr written lu c s
        = .next w l c1 s1 → callsOk total w (calls s1)) ∧
    (∀ res, copyIteration cx dst total limiter (some f) data readErr written lu c s = .ret res →
      callsOk total res.written (calls res.state) ∧
      (res.err = none → (calls res.state).getLast? = some (res.written, total))) := by
  have hwc : calls (writeChunk dst data s).2 = calls s := by
    unfold writeChunk
    split
    · exact hdst data s
    · rfl
  have hle : written ≤ written + ((writeChunk dst data s).1.n : Int) := by omega
  have h1 : callsOk total (written + ((writeChunk dst data s).1.n : Int))
      (calls (writeChunk dst data s).2) := by
    rw [hwc]
    exact callsOk_mono total _ _ _ h hle
  have h2 : callsOk total (written + ((writeChunk dst data s).1.n : Int))
      (calls (tickProgress (some f) (written + ((writeChunk dst data s).1.n : Int)) total lu c
        (writeChunk dst data s).2).2.2) := by
    unfold tickProgress
    split
    · simp only [callProgress, hcb]
      exact callsOk_append _ _ _ h1
    · exact h1
  unfold copyIteration endOfRead
  split
  · refine ⟨fun _ _ _ _ hh => by simp at hh, fun res hres => ?_⟩
    simp only [Iter.ret.injEq] at hres
    rw [← hres]
    exact ⟨h, fun he => by simp at he⟩
  · split
    · refine ⟨fun _ _ _ _ hh => by simp at hh, fun res hres => ?_⟩
      simp only [Iter.ret.injEq] at hres
      rw [← hres]
      exact ⟨h1, fun he => by simp at he⟩
    · split
      · refine ⟨fun w l c1 s1 hh => ?_, fun _ hh => by simp at hh⟩
        simp only [Iter.next.injEq] at hh
        rw [← hh.1, ← hh.2.2.2]
        exact h2
      · refine ⟨fun _ _ _ _ hh => by simp at hh, fun res hres => ?_⟩
        simp only [Iter.ret.injEq] at hres
        rw [← hres]
        simp only [callProgress, hcb]
        exact ⟨callsOk_append _ _ _ h2, fun _ => by simp⟩
      · refine ⟨fun _ _ _ _ hh => by simp at hh, fun res hres => ?_⟩
        simp only [Iter.ret.injEq] at hres
        rw [← hres]
        exact ⟨h2, fun he => by simp at he⟩

theorem copyLoop_calls {σ : Type} (cx : Context) (dst : Writer σ) (total : Int)
    (limiter : Option Limiter) (f : ProgressFn σ) (calls : σ → List (Int × Int))
    (hdst : ∀ data s, calls (dst data s).2 = calls s)
    (hcb : ∀ w t c s, calls (f w t c s).2 = calls s ++ [(w, t)])
    (lastData : List Byte) (lastErr : ReadErr) (reads : List (List Byte)) :
    ∀ (written : Int) (lu : Time) (c : Clock) (s : σ), callsOk total written (calls s) →
      callsOk total
        (copyLoop cx dst total limiter (some f) lastData lastErr reads written lu c s).written
        (calls (copyLoop cx dst total limiter (some f) lastData lastErr reads written lu c s).state) ∧
      ((copyLoop cx dst total limiter (some f) lastData lastErr reads written lu c s).err = none →
        (calls (copyLoop cx dst total limiter (some f) lastData lastErr reads written lu c
          s).state).getLast?
          = some ((copyLoop cx dst total limiter (some f) lastData lastErr reads written lu c
            s).written, total)) := by
  induction reads with
  | nil =>
    intro written lu c s h
    have hit := copyIteration_calls cx dst total limiter f calls hdst hcb lastData
      (some lastErr) written lu c s h
    unfold copyLoop
    cases hi : copyIteration cx dst total limiter (some f) lastData (some lastErr) written lu c s with
    | ret res => exact hit.2 res hi
    | next w l c1 s1 =>
      exfalso
      unfold copyIteration endOfRead at hi
      split at hi
      · simp at hi
      · split at hi
        · simp at hi
        · cases lastErr <;> simp at hi
  | cons d rest ih =>
    intro written lu c s h
    have hit := copyIteration_calls cx dst total limiter f calls hdst hcb d none written lu c s h
    unfold copyLoop
    cases hi : copyIteration cx dst total limiter (some f) d none written lu c s with
    | ret res => exact hit.2 res hi
    | next w l c1 s1 => exact ih w l c1 s1 (hit.1 w l c1 s1 hi)

/-- C16: a run of `CopyWithProgress` with a progress callback that returns without
error has invoked the callback at least once; its last invocation carries the returned
byte count and the expected total; every invocation carries the expected total, and
the byte counts do not decrease from one invocation to a later one.  The source may be
empty.  `calls` reads off the state the record of the invocations, empty at the start,
which the callback extends and the sink leaves alone. -/
theorem C16_progress_invocations {σ : Type} (cx : Context) (dst : Writer σ) (src : Reader)
    (total : Int) (limiter : Option Limiter) (f : ProgressFn σ) (c : Clock) (s : σ)
    (calls : σ → List (Int × Int))
    (hstart : calls s = [])
    (hdst : ∀ data s, calls (dst data s).2 = calls s)
    (hcb : ∀ w t c s, calls (f w t c s).2 = calls s ++ [(w, t)])
    (hok : (CopyWithProgress cx dst src total limiter (some f) c s).err = none) :
    calls (CopyWithProgress cx dst src total limiter (some f) c s).state ≠ [] ∧
    (calls (CopyWithProgress cx dst src total limiter (some f) c s).state).getLast?
      = some ((CopyWithProgress cx dst src total limiter (some f) c s).written, total) ∧
    (∀ x ∈ calls (CopyWithProgress cx dst src total limiter (some f) c s).state, x.2 = total) ∧
    ((calls (CopyWithProgress cx dst src total limiter (some f) c s).state).map
      Prod.fst).Pairwise (· ≤ ·) := by
  unfold CopyWithProgress at *
  have h0 : callsOk total 0 (calls s) := by
    rw [hstart]
    exact ⟨by simp, by simp⟩
  obtain ⟨h1, h2⟩ := copyLoop_calls cx dst total limiter f calls hdst hcb src.lastData
    src.lastErr src.reads 0 c.now.1 c.now.2 s h0
  have h3 := h2 hok
  refine ⟨?_, h3, fun x hx => (h1.1 x hx).2, h1.2⟩
  intro hnil
  rw [hnil] at h3
  simp at h3

/-- C16 at a concrete input: an empty source, a callback that records its arguments. -/
theorem C16_progress_invocations_witness :
    (CopyWithProgress ctx discardSink ⟨[], [], .eof⟩ 0 none (some recordingCallback) tickClock
      []).state ≠ [] ∧
    (CopyWithProgress ctx discardSink ⟨[], [], .eof⟩ 0 none (some recordingCallback) tickClock
      []).state.getLast?
      = some ((CopyWithProgress ctx discardSink ⟨[], [], .eof⟩ 0 none (some recordingCallback)
        tickClock []).written, 0) ∧
    (∀ x ∈ (CopyWithProgress ctx discardSink ⟨[], [], .eof⟩ 0 none (some recordingCallback)
      tickClock []).state, x.2 = 0) ∧
    ((CopyWithProgress ctx discardSink ⟨[], [], .eof⟩ 0 none (some recordingCallback) tickClock
      []).state.map Prod.fst).Pairwise (· ≤ ·) :=
  C16_progress_invocations ctx discardSink ⟨[], [], .eof⟩ 0 none recordingCallback tickClock []
    id rfl (fun _ _ => rfl) (fun _ _ _ _ => rfl) (by decide)

/-! ## Rate strings -/

theorem unitSpellings_ok :
    ∀ p ∈ unitSpellings, unitMultiplier p.1 = some p.2 ∧ p.1.data.all isUnitChar = true ∧
      p.2 ∈ [1, 1024, 1024 ^ 2, 1024 ^ 3] := by
  decide

theorem isSpace_of_isDigit (c : Char) (h : isDigit c = true) : isSpace c = false := by
  unfold isDigit at h
  unfold isSpace
  simp only [Bool.and_eq_true, decide_eq_true_eq] at h
  simp only [Bool.or_eq_false_iff, Bool.and_eq_false_iff, decide_eq_false_iff_not,
    beq_eq_false_iff_ne, ne_eq]
  omega

theorem trimSpaceChars_of_no_space (l : List Char) (h : ∀ c ∈ l, isSpace c = false) :
    trimSpaceChars l = l := by
  unfold trimSpaceChars
  have h1 : l.dropWhile isSpace = l := by
    cases l with
    | nil => rfl
    | cons a t => simp [List.dropWhile, h a (List.mem_cons_self a t)]
  rw [h1]
  show List.rdropWhile isSpace l = l
  rw [List.rdropWhile_eq_self_iff]
  intro hl
  simp [h _ (List.getLast_mem hl)]

theorem digitsValue_append_nil (ds : List Char) : digitsValue (ds ++ []) = digitsValue ds := by
  rw [List.append_nil]

set_option exponentiation.threshold 1100 in
theorem parseFloatDigits_digits (ds : List Char) (hds : ∀ c ∈ ds, isDigit c = true)
    (hne : ds ≠ []) (hlt : digitsValue ds < 2 ^ 53) :
    parseFloatDigits ds = .ok ⟨digitsValue ds, 1⟩ := by
  have h1 : ds.takeWhile isDigit = ds := List.takeWhile_eq_self_iff.mpr hds
  have h2 : ds.dropWhile isDigit = [] := List.dropWhile_eq_nil_iff.mpr hds
  have h3 : ¬ (ds.length + ([] : List Char).length = 0) := by
    intro h
    exact hne (List.length_eq_zero.mp (by simpa using h))
  have h5 : (2 : Nat) ^ 53 ≤ (2 ^ 1024 - 2 ^ 970) * 10 ^ ([] : List Char).length := by decide
  have h4 : ¬ ((2 ^ 1024 - 2 ^ 970) * 10 ^ ([] : List Char).length ≤ digitsValue (ds ++ [])) := by
    rw [List.append_nil]
    exact fun h => absurd (Nat.lt_of_lt_of_le hlt (Nat.le_trans h5 h)) (Nat.lt_irrefl _)
  unfold parseFloatDigits
  simp only [h1, h2]
  rw [if_neg h3, if_neg h4]
  simp only [List.append_nil, List.length_nil, pow_zero]

theorem takeWhile_of_all_false (p : Char → Bool) (l : List Char) (h : ∀ c ∈ l, p c = false) :
    l.takeWhile p = [] := by
  cases l with
  | nil => rfl
  | cons a t => simp [List.takeWhile, h a (List.mem_cons_self a t)]

theorem dropWhile_of_all_false (p : Char → Bool) (l : List Char) (h : ∀ c ∈ l, p c = false) :
    l.dropWhile p = l := by
  cases l with
  | nil => rfl
  | cons a t => simp [List.dropWhile, h a (List.mem_cons_self a t)]

theorem splitNumberUnit_digits_unit (ds ud : List Char) (hds : ∀ c ∈ ds, isDigit c = true)
    (hne : ds ≠ []) (hlt : digitsValue ds < 2 ^ 53) (hud : ud.all isUnitChar = true) :
    splitNumberUnit (String.mk (ds ++ ud)) = .ok (⟨digitsValue ds, 1⟩, String.mk ud) := by
  have hud2 : ∀ c ∈ ud, isSpace c = false ∧ (isDigit c || c == '.') = false := by
    intro c hc
    have := List.all_eq_true.mp hud c hc
    unfold isUnitChar at this
    simpa using this
  have hsp : ∀ c ∈ ds ++ ud, isSpace c = false := by
    intro c hc
    rcases List.mem_append.mp hc with h | h
    · exact isSpace_of_isDigit c (hds c h)
    · exact (hud2 c h).1
  have hnum : ∀ c ∈ ds, (fun ch => isDigit ch || ch == '.') c = true := by
    intro c hc
    simp [hds c hc]
  have htake : (ds ++ ud).takeWhile (fun ch => isDigit ch || ch == '.') = ds := by
    rw [List.takeWhile_append_of_pos hnum,
      takeWhile_of_all_false _ ud (fun c hc => (hud2 c hc).2), List.append_nil]
  have hdrop : (ds ++ ud).dropWhile (fun ch => isDigit ch || ch == '.') = ud := by
    rw [List.dropWhile_append_of_pos hnum,
      dropWhile_of_all_false _ ud (fun c hc => (hud2 c hc).2)]
  have hne2 : ds ++ ud ≠ [] := by
    intro h
    exact hne (List.append_eq_nil.mp h).1
  unfold splitNumberUnit
  simp only [trimSpaceChars_of_no_space _ hsp, htake, hdrop]
  rw [if_neg hne2,
    trimSpaceChars_of_no_space ds (fun c hc => isSpace_of_isDigit c (hds c hc)),
    trimSpaceChars_of_no_space ud (fun c hc => (hud2 c hc).1), if_neg hne,
    parseFloatDigits_digits ds hds hne hlt]

set_option exponentiation.threshold 1100 in
/-- C17, amended: for every string of decimal digits whose value `n` is positive and
below `2^53` (an integer a float64 holds exactly), and every unit of the specification
(none, B, K, KB, KiB, M, MB, MiB, G, GB, GiB) written in any letter case, with
multiplier `m`, `ParseRateLimit` accepts the digits followed by the unit and returns a
finite limiter whose limit is `n * m` bytes per second, `m` being 1, 1024, 1024^2 or
1024^3. -/
theorem C17_integer_rate (ds : List Char) (u : String) (m : Nat)
    (hds : ∀ c ∈ ds, isDigit c = true) (hpos : 0 < digitsValue ds)
    (hlt : digitsValue ds < 2 ^ 53) (hu : (u, m) ∈ unitSpellings) :
    ∃ lim, ParseRateLimit (String.mk (ds ++ u.data)) = .ok (some lim) ∧
      lim.limit = ⟨digitsValue ds * m, 1⟩ ∧ lim.isInf = false ∧
      m ∈ [1, 1024, 1024 ^ 2, 1024 ^ 3] := by
  obtain ⟨hum, hchars, hm⟩ := unitSpellings_ok (u, m) hu
  have hne : ds ≠ [] := by
    intro h
    rw [h] at hpos
    exact absurd hpos (by decide)
  have hsp : ∀ c ∈ ds ++ u.data, isSpace c = false := by
    intro c hc
    rcases List.mem_append.mp hc with h | h
    · exact isSpace_of_isDigit c (hds c h)
    · have := List.all_eq_true.mp hchars c h
      unfold isUnitChar at this
      simp only [Bool.and_eq_true, Bool.not_eq_true'] at this
      exact this.1
  have hrs : ¬ (String.mk (ds ++ u.data) = "") := by
    intro h
    have h2 : ds ++ u.data = [] := congrArg String.data h
    exact hne (List.append_eq_nil.mp h2).1
  have hzero : ¬ (digitsValue ds * 2 ^ 1075 ≤ 1) := by
    have h1 : 1 < 1 * 2 ^ 1075 := by decide
    have h2 : 1 * 2 ^ 1075 ≤ digitsValue ds * 2 ^ 1075 := Nat.mul_le_mul_right _ hpos
    omega
  have hm2 : m ≤ 2 ^ 30 := by
    simp only [List.mem_cons, List.mem_singleton, List.mem_nil_iff, or_false] at hm
    rcases hm with h | h | h | h <;> rw [h] <;> decide
  have hinf : ¬ (digitsValue ds * m = (2 ^ 1024 - 2 ^ 971) * 1) := by
    have h1 : digitsValue ds * m ≤ 2 ^ 53 * 2 ^ 30 :=
      Nat.mul_le_mul (Nat.le_of_lt hlt) hm2
    have h2 : 2 ^ 53 * 2 ^ 30 < (2 ^ 1024 - 2 ^ 971) * 1 := by decide
    omega
  have hsplit := splitNumberUnit_digits_unit ds u.data hds hne hlt hchars
  refine ⟨⟨⟨digitsValue ds * m, 1⟩, false,
    if digitsValue ds * m / 1 < 2 ^ 63 then ((digitsValue ds * m / 1 : Nat) : Int)
    else -(2 ^ 63)⟩, ?_, rfl, rfl, hm⟩
  unfold ParseRateLimit TrimSpace
  simp only [trimSpaceChars_of_no_space _ hsp]
  rw [if_neg hrs, hsplit]
  simp only [hum]
  rw [if_neg hzero]
  simp only [decide_eq_false hinf]

set_option exponentiation.threshold 1100 in
/-- C17 at concrete inputs: "5M" gives 5,242,880 and "500k" gives 512,000 bytes per
second. -/
theorem C17_integer_rate_witness :
    (String.mk (['5'] ++ "M".data) = "5M" ∧ digitsValue ['5'] * 1024 ^ 2 = 5242880 ∧
      ∃ lim, ParseRateLimit (String.mk (['5'] ++ "M".data)) = .ok (some lim) ∧
        lim.limit = ⟨digitsValue ['5'] * 1024 ^ 2, 1⟩ ∧ lim.isInf = false ∧
        1024 ^ 2 ∈ [1, 1024, 1024 ^ 2, 1024 ^ 3]) ∧
    (String.mk (['5', '0', '0'] ++ "k".data) = "500k" ∧
      digitsValue ['5', '0', '0'] * 1024 = 512000 ∧
      ∃ lim, ParseRateLimit (String.mk (['5', '0', '0'] ++ "k".data)) = .ok (some lim) ∧
        lim.limit = ⟨digitsValue ['5', '0', '0'] * 1024, 1⟩ ∧ lim.isInf = false ∧
        1024 ∈ [1, 1024, 1024 ^ 2, 1024 ^ 3]) :=
  ⟨⟨by decide, by decide,
    C17_integer_rate ['5'] "M" (1024 ^ 2) (by decide) (by decide) (by decide) (by decide)⟩,
   ⟨by decide, by decide,
    C17_integer_rate ['5', '0', '0'] "k" 1024 (by decide) (by decide) (by decide)
      (by decide)⟩⟩

set_option exponentiation.threshold 1100 in
set_option maxRecDepth 100000 in
/-- C17 does not hold for every positive integer: for the integer written as 1 followed
by 309 zeros, which is beyond the float64 range, `ParseRateLimit` returns the range
error of `strconv.ParseFloat`, with or without a unit. -/
theorem C17_huge_integer_rejected :
    (∀ c ∈ tenToThe309.data, isDigit c = true) ∧ 0 < digitsValue tenToThe309.data ∧
    ParseRateLimit tenToThe309
      = .error ("invalid rate value: " ++ numError tenToThe309.data "value out of range") ∧
    ParseRateLimit (tenToThe309 ++ "K")
      = .error ("invalid rate value: " ++ numError tenToThe309.data "value out of range") :=
  ⟨by decide, by decide, rfl, rfl⟩

/-! ## Trimming -/

theorem dropWhile_head_false (p : Char → Bool) :
    ∀ (l : List Char) (a : Char) (m : List Char), l.dropWhile p = a :: m → p a = false := by
  intro l
  induction l with
  | nil => intro a m h; simp at h
  | cons x xs ih =>
    intro a m h
    by_cases hx : p x = true
    · rw [List.dropWhile_cons_of_pos hx] at h
      exact ih a m h
    · rw [List.dropWhile_cons_of_neg hx] at h
      simp only [List.cons.injEq] at h
      rw [← h.1]
      simpa using hx

theorem dropRightWhile_cons (p : Char → Bool) (a : Char) (m : List Char) :
    dropRightWhile p (a :: m)
      = if dropRightWhile p m = [] ∧ p a = true then [] else a :: dropRightWhile p m := by
  unfold dropRightWhile
  rw [List.reverse_cons, List.dropWhile_append]
  by_cases h : List.dropWhile p m.reverse = []
  · by_cases ha : p a = true
    · simp [h, ha]
    · simp [h, ha]
  · have h2 : ¬ ((List.dropWhile p m.reverse).reverse = []) := by simpa using h
    have h3 : (List.dropWhile p m.reverse).isEmpty = false := by
      cases hd : List.dropWhile p m.reverse with
      | nil => exact absurd hd h
      | cons _ _ => rfl
    rw [h3]
    simp [h]

theorem dropRightWhile_idem (p : Char → Bool) (l : List Char) :
    dropRightWhile p (dropRightWhile p l) = dropRightWhile p l :=
  List.rdropWhile_idempotent p l

theorem dropRightWhile_eq_nil (p : Char → Bool) (l : List Char) :
    dropRightWhile p l = [] ↔ ∀ c ∈ l, p c = true :=
  List.rdropWhile_eq_nil_iff

/-- Trimming on both sides leaves a text that trimming on the left does not change. -/
theorem trimmed_left_fixed (p : Char → Bool) (l : List Char) :
    (dropRightWhile p (l.dropWhile p)).dropWhile p = dropRightWhile p (l.dropWhile p) := by
  cases hm : l.dropWhile p with
  | nil => rfl
  | cons a m =>
    have ha := dropWhile_head_false p l a m hm
    rw [dropRightWhile_cons]
    simp only [ha, Bool.false_eq_true, and_false, if_false]
    exact List.dropWhile_cons_of_neg (by simp [ha])

theorem trimSpaceChars_idem (l : List Char) :
    trimSpaceChars (trimSpaceChars l) = trimSpaceChars l := by
  unfold trimSpaceChars
  rw [trimmed_left_fixed, dropRightWhile_idem]

/-! ## The errors of `ParseRateLimit` -/

theorem isDigit_ne_dot (c : Char) (h : isDigit c = true) : c ≠ '.' := by
  intro hc
  rw [hc] at h
  exact absurd h (by decide)

theorem filter_isDigit_of_all (l : List Char) (h : ∀ c ∈ l, isDigit c = true) :
    l.filter isDigit = l :=
  List.filter_eq_self.mpr h

theorem count_dot_of_digits (l : List Char) (h : ∀ c ∈ l, isDigit c = true) :
    l.count '.' = 0 :=
  List.count_eq_zero.mpr (fun hm => isDigit_ne_dot '.' (h '.' hm) rfl)

set_option exponentiation.threshold 1100 in
theorem parseFloatDigits_no_dot (l : List Char) (h : ∀ c ∈ l, isDigit c = true) :
    parseFloatDigits l
      = if l.length + ([] : List Char).length = 0 then .error (numError l "invalid syntax")
        else if (2 ^ 1024 - 2 ^ 970) * 10 ^ ([] : List Char).length ≤ digitsValue (l ++ [])
        then .error (numError l "value out of range")
        else .ok ⟨digitsValue (l ++ []), 10 ^ ([] : List Char).length⟩ := by
  have h1 : l.takeWhile isDigit = l := List.takeWhile_eq_self_iff.mpr h
  have h2 : l.dropWhile isDigit = [] := List.dropWhile_eq_nil_iff.mpr h
  unfold parseFloatDigits
  simp only [h1, h2]

set_option exponentiation.threshold 1100 in
theorem parseFloatDigits_dot (a fr : List Char) (h : ∀ c ∈ a, isDigit c = true) :
    parseFloatDigits (a ++ '.' :: fr)
      = if fr.all isDigit = true then
          if a.length + fr.length = 0 then .error (numError (a ++ '.' :: fr) "invalid syntax")
          else if (2 ^ 1024 - 2 ^ 970) * 10 ^ fr.length ≤ digitsValue (a ++ fr)
          then .error (numError (a ++ '.' :: fr) "value out of range")
          else .ok ⟨digitsValue (a ++ fr), 10 ^ fr.length⟩
        else .error (numError (a ++ '.' :: fr) "invalid syntax") := by
  have hdot : isDigit '.' = false := by decide
  have h1 : (a ++ '.' :: fr).takeWhile isDigit = a := by
    rw [List.takeWhile_append_of_pos h, List.takeWhile_cons_of_neg (by simp [hdot]),
      List.append_nil]
  have h2 : (a ++ '.' :: fr).dropWhile isDigit = '.' :: fr := by
    rw [List.dropWhile_append_of_pos h, List.dropWhile_cons_of_neg (by simp [hdot])]
  unfold parseFloatDigits
  simp only [h1, h2, true_and]
  by_cases hfr : fr.all isDigit = true
  · rw [if_pos hfr, if_pos hfr]
  · rw [if_neg hfr, if_neg hfr]

set_option exponentiation.threshold 1100 in
/-- On a text of digits and dots `strconv.ParseFloat` succeeds exactly on the decimal
numbers below the overflow threshold, with the value of the decimal. -/
theorem parseFloatDigits_spec (l : List Char)
    (hnum : ∀ c ∈ l, (isDigit c || c == '.') = true) :
    (parseableNumber l → parseFloatDigits l = .ok (decimalOf l)) ∧
    (¬ parseableNumber l → ∃ e, parseFloatDigits l = .error e) := by
  have hl := List.takeWhile_append_dropWhile isDigit l
  have ha : ∀ c ∈ l.takeWhile isDigit, isDigit c = true :=
    fun c hc => List.mem_takeWhile_imp hc
  cases hr : l.dropWhile isDigit with
  | nil =>
    have hall := List.dropWhile_eq_nil_iff.mp hr
    have hdec : decimalOf l = ⟨digitsValue (l ++ []), 10 ^ ([] : List Char).length⟩ := by
      unfold decimalOf
      rw [hr, filter_isDigit_of_all l hall, List.append_nil]
      rfl
    have hwf : wellFormedDecimal l ↔ ¬ (l.length + ([] : List Char).length = 0) := by
      unfold wellFormedDecimal
      rw [count_dot_of_digits l hall]
      constructor
      · rintro ⟨_, c, hc, _⟩ h0
        have : l = [] := List.length_eq_zero.mp (by simpa using h0)
        rw [this] at hc
        simp at hc
      · intro h0
        refine ⟨Nat.zero_le _, ?_⟩
        cases l with
        | nil => exact absurd rfl h0
        | cons c t => exact ⟨c, List.mem_cons_self c t, hall c (List.mem_cons_self c t)⟩
    rw [parseFloatDigits_no_dot l hall]
    unfold parseableNumber belowFloatMax
    rw [hwf, hdec]
    constructor
    · rintro ⟨h0, hlt⟩
      rw [if_neg h0, if_neg (Nat.not_le.mpr hlt)]
    · intro hn
      by_cases h0 : l.length + ([] : List Char).length = 0
      · rw [if_pos h0]
        exact ⟨_, rfl⟩
      · rw [if_neg h0]
        have hge : ¬ (digitsValue (l ++ []) < (2 ^ 1024 - 2 ^ 970) * 10 ^ ([] : List Char).length) :=
          fun hlt => hn ⟨h0, hlt⟩
        rw [if_pos (Nat.not_lt.mp hge)]
        exact ⟨_, rfl⟩
  | cons c fr =>
    have hc : isDigit c = false := dropWhile_head_false isDigit l c fr hr
    have hcl : c ∈ l := by
      rw [← hl, hr]
      simp
    have hcdot : c = '.' := by
      have := hnum c hcl
      simpa [hc] using this
    rw [hcdot] at hr
    rw [hr] at hl
    have hfrnum : ∀ d ∈ fr, (isDigit d || d == '.') = true := by
      intro d hd
      apply hnum
      rw [← hl]
      simp [hd]
    have hcount : l.count '.' = 1 + fr.count '.' := by
      rw [← hl, List.count_append, count_dot_of_digits _ ha, List.count_cons_self]
      omega
    have hpf := parseFloatDigits_dot (l.takeWhile isDigit) fr ha
    rw [hl] at hpf
    rw [hpf]
    by_cases hfr : fr.all isDigit = true
    · have hfrall : ∀ d ∈ fr, isDigit d = true := List.all_eq_true.mp hfr
      have hdec : decimalOf l
          = ⟨digitsValue (l.takeWhile isDigit ++ fr), 10 ^ fr.length⟩ := by
        unfold decimalOf
        rw [hr]
        conv_lhs => rw [← hl]
        have hdot : isDigit '.' = false := by decide
        rw [List.filter_append, filter_isDigit_of_all _ ha,
          List.filter_cons_of_neg (by simp [hdot]), filter_isDigit_of_all _ hfrall]
        rfl
      have hwf : wellFormedDecimal l
          ↔ ¬ ((l.takeWhile isDigit).length + fr.length = 0) := by
        unfold wellFormedDecimal
        rw [hcount, count_dot_of_digits fr hfrall]
        constructor
        · rintro ⟨_, d, hd, hdd⟩ h0
          have h1 : l.takeWhile isDigit = [] := List.length_eq_zero.mp (by omega)
          have h2 : fr = [] := List.length_eq_zero.mp (by omega)
          rw [← hl, h1, h2] at hd
          simp only [List.nil_append, List.mem_singleton] at hd
          rw [hd] at hdd
          exact absurd hdd (by decide)
        · intro h0
          refine ⟨Nat.le_refl _, ?_⟩
          cases ht : l.takeWhile isDigit with
          | nil =>
            cases fr with
            | nil =>
              rw [ht] at h0
              exact absurd rfl h0
            | cons d t =>
              refine ⟨d, ?_, hfrall d (List.mem_cons_self d t)⟩
              rw [← hl]
              simp
          | cons d t =>
            refine ⟨d, ?_, ha d (by rw [ht]; exact List.mem_cons_self d t)⟩
            rw [← hl, ht]
            simp
      rw [if_pos hfr]
      unfold parseableNumber belowFloatMax
      rw [hwf, hdec]
      constructor
      · rintro ⟨h0, hlt⟩
        rw [if_neg h0, if_neg (Nat.not_le.mpr hlt)]
      · intro hn
        by_cases h0 : (l.takeWhile isDigit).length + fr.length = 0
        · rw [if_pos h0]
          exact ⟨_, rfl⟩
        · rw [if_neg h0]
          have hge : ¬ (digitsValue (l.takeWhile isDigit ++ fr)
              < (2 ^ 1024 - 2 ^ 970) * 10 ^ fr.length) :=
            fun hlt => hn ⟨h0, hlt⟩
          rw [if_pos (Nat.not_lt.mp hge)]
          exact ⟨_, rfl⟩
    · rw [if_neg hfr]
      refine ⟨fun hp => ?_, fun _ => ⟨_, rfl⟩⟩
      exfalso
      apply hfr
      rw [List.all_eq_true]
      intro d hd
      by_contra hdd
      have hddot : d = '.' := by
        have := hfrnum d hd
        simpa [hdd] using this
      rw [hddot] at hd
      have h1 : 0 < fr.count '.' := List.count_pos_iff.mpr hd
      have h2 := hp.1.1
      omega

theorem takeWhile_all (p : Char → Bool) (l : List Char) :
    ∀ c ∈ l.takeWhile p, p c = true :=
  fun _ hc => List.mem_takeWhile_imp hc

theorem isSpace_of_isNum (c : Char) (h : (isDigit c || c == '.') = true) : isSpace c = false := by
  rcases Bool.or_eq_true _ _ ▸ h with hd | hd
  · exact isSpace_of_isDigit c hd
  · have hc : c = '.' := by simpa using hd
    rw [hc]
    decide

theorem unitMultiplier_eq_none (u : String) : unitMultiplier u = none ↔ ¬ recognisedUnit u := by
  unfold unitMultiplier recognisedUnit
  simp only [List.mem_cons, List.mem_singleton, List.mem_nil_iff, or_false]
  split_ifs with h1 h2 h3 h4
  · simp only [reduceCtorEq, false_iff, not_not]
    tauto
  · simp only [reduceCtorEq, false_iff, not_not]
    tauto
  · simp only [reduceCtorEq, false_iff, not_not]
    tauto
  · simp only [reduceCtorEq, false_iff, not_not]
    tauto
  · simp only [true_iff]
    tauto

theorem splitNumberUnit_trimmed (s : String) (ht : trimSpaceChars s.data ≠ []) :
    splitNumberUnit (String.mk (trimSpaceChars s.data))
      = if numericPortion s = [] then .error "missing rate value"
        else
          match parseFloatDigits (numericPortion s) with
          | .error e => .error ("invalid rate value: " ++ e)
          | .ok val => .ok (val, unitPortion s) := by
  have hnum : ∀ c ∈ numericPortion s, (isDigit c || c == '.') = true := by
    intro c hc
    exact takeWhile_all (fun ch => isDigit ch || ch == '.') (trimSpaceChars s.data) c hc
  have htrim : trimSpaceChars (numericPortion s) = numericPortion s :=
    trimSpaceChars_of_no_space _ (fun c hc => isSpace_of_isNum c (hnum c hc))
  unfold splitNumberUnit
  simp only [trimSpaceChars_idem]
  rw [if_neg ht]
  unfold numericPortion at htrim
  rw [htrim]
  rfl

set_option exponentiation.threshold 1100 in
/-- The errors of `ParseRateLimit`, with the units as its switch reads them: an error
exactly when the trimmed input is non-empty and its leading digits-and-dots portion is
missing, or is not a parseable number, or what follows it, trimmed and put in upper case
by `strings.ToUpper`, is no case of the switch, or the rate is zero as a float64.  On an
empty or all-whitespace input it returns no limiter and no error; it returns no limiter
on no other input. -/
theorem ParseRateLimit_errors_by_switch (s : String) :
    (trimSpaceChars s.data = [] → ParseRateLimit s = .ok none) ∧
    (trimSpaceChars s.data ≠ [] → ParseRateLimit s ≠ .ok none) ∧
    ((∃ e, ParseRateLimit s = .error e) ↔
      trimSpaceChars s.data ≠ [] ∧
        (numericPortion s = [] ∨ ¬ parseableNumber (numericPortion s) ∨
          ¬ recognisedUnit (unitPortion s) ∨
          roundsToZero (decimalOf (numericPortion s)))) := by
  by_cases ht : trimSpaceChars s.data = []
  · have h0 : ParseRateLimit s = .ok none := by
      unfold ParseRateLimit TrimSpace
      rw [ht]
      rfl
    refine ⟨fun _ => h0, fun h => absurd ht h, ?_⟩
    rw [h0]
    constructor
    · rintro ⟨e, he⟩
      simp at he
    · rintro ⟨h, _⟩
      exact absurd ht h
  · have hrs : ¬ (String.mk (trimSpaceChars s.data) = "") := by
      intro h
      exact ht (congrArg String.data h)
    have hsplit := splitNumberUnit_trimmed s ht
    have hnum : ∀ c ∈ numericPortion s, (isDigit c || c == '.') = true :=
      takeWhile_all (fun ch => isDigit ch || ch == '.') (trimSpaceChars s.data)
    obtain ⟨hpok, hperr⟩ := parseFloatDigits_spec (numericPortion s) hnum
    have hform : ParseRateLimit s
        = match splitNumberUnit (String.mk (trimSpaceChars s.data)) with
          | .error e => .error e
          | .ok (value, unit) =>
            match unitMultiplier unit with
            | none => .error ("unknown rate unit: " ++ unit)
            | some multiplier =>
              if value.num * 2 ^ 1075 ≤ value.den then .error "rate must be > 0"
              else
                .ok (some ⟨⟨value.num * multiplier, value.den⟩,
                  decide (value.num * multiplier = (2 ^ 1024 - 2 ^ 971) * value.den),
                  if value.num * multiplier / value.den < 2 ^ 63
                  then ((value.num * multiplier / value.den : Nat) : Int) else -(2 ^ 63)⟩) := by
      unfold ParseRateLimit TrimSpace
      simp only []
      rw [if_neg hrs]
    rw [hform, hsplit]
    by_cases hn : numericPortion s = []
    · rw [if_pos hn]
      exact ⟨fun h => absurd h ht, fun _ => by simp, ⟨fun _ => ⟨ht, Or.inl hn⟩, fun _ => ⟨_, rfl⟩⟩⟩
    · rw [if_neg hn]
      by_cases hp : parseableNumber (numericPortion s)
      · rw [hpok hp]
        simp only []
        cases hm : unitMultiplier (unitPortion s) with
        | none =>
          have hu := (unitMultiplier_eq_none _).mp hm
          exact ⟨fun h => absurd h ht, fun _ => by simp,
            ⟨fun _ => ⟨ht, Or.inr (Or.inr (Or.inl hu))⟩, fun _ => ⟨_, rfl⟩⟩⟩
        | some m =>
          have hu : ¬ ¬ recognisedUnit (unitPortion s) := by
            intro h
            rw [(unitMultiplier_eq_none _).mpr h] at hm
            simp at hm
          simp only []
          by_cases hz : (decimalOf (numericPortion s)).num * 2 ^ 1075
              ≤ (decimalOf (numericPortion s)).den
          · rw [if_pos hz]
            exact ⟨fun h => absurd h ht, fun _ => by simp,
              ⟨fun _ => ⟨ht, Or.inr (Or.inr (Or.inr hz))⟩, fun _ => ⟨_, rfl⟩⟩⟩
          · rw [if_neg hz]
            refine ⟨fun h => absurd h ht, fun _ => by simp, ⟨?_, ?_⟩⟩
            · rintro ⟨e, he⟩
              simp at he
            · rintro ⟨_, h | h | h | h⟩
              · exact absurd h hn
              · exact absurd hp h
              · exact absurd h hu
              · exact absurd h hz
      · obtain ⟨e, he⟩ := hperr hp
        rw [he]
        exact ⟨fun h => absurd h ht, fun _ => by simp,
          ⟨fun _ => ⟨ht, Or.inr (Or.inl hp)⟩, fun _ => ⟨_, rfl⟩⟩⟩

/-! ### The units the switch accepts -/

theorem toUpperChar_preimage (c x : Char) (hx : x ∈ ['B', 'K', 'I', 'M', 'G'])
    (h : toUpperChar c = x) : dotlessToI c = x ∨ dotlessToI c = x.toLower := by
  have hc : c = Char.ofNat c.toNat := (Char.ofNat_toNat c).symm
  unfold toUpperChar at h
  unfold dotlessToI
  generalize c.toNat = n at hc h
  subst hc
  by_cases h1 : 97 ≤ n ∧ n ≤ 122
  · rw [if_pos h1] at h
    have hn : ¬ (n = 0x131) := by omega
    rw [if_neg hn]
    obtain ⟨h2, h3⟩ := h1
    subst h
    interval_cases n <;> revert hx <;> decide
  · rw [if_neg h1] at h
    by_cases h2 : n = 0x131
    · rw [if_pos h2] at h
      rw [if_pos h2, ← h]
      right
      decide
    · rw [if_neg h2] at h
      rw [if_neg h2]
      by_cases h3 : n = 0x17F
      · rw [if_pos h3] at h
        rw [← h] at hx
        exact absurd hx (by decide)
      · rw [if_neg h3] at h
        exact Or.inl h

theorem toUpperChar_dotlessToI (c : Char) : toUpperChar (dotlessToI c) = toUpperChar c := by
  unfold dotlessToI
  by_cases h : c.toNat = 0x131
  · rw [if_pos h]
    have hl : toUpperChar 'i' = 'I' := by decide
    rw [hl]
    unfold toUpperChar
    rw [if_neg (by omega), if_pos h]
  · rw [if_neg h]

theorem mem_caseVariants_of_upper (s : List Char) :
    ∀ l : List Char, (∀ x ∈ s, x ∈ ['B', 'K', 'i', 'M', 'G']) →
      l.map toUpperChar = s.map Char.toUpper → l.map dotlessToI ∈ caseVariants s := by
  induction s with
  | nil =>
    intro l _ h
    have : l = [] := by simpa using h
    rw [this]
    decide
  | cons x rest ih =>
    intro l hs h
    cases l with
    | nil => simp at h
    | cons a t =>
      simp only [List.map_cons, List.cons.injEq] at h
      have hrest := ih t (fun y hy => hs y (List.mem_cons_of_mem x hy)) h.2
      have hxm := hs x (List.mem_cons_self x rest)
      have hup : x.toUpper ∈ ['B', 'K', 'I', 'M', 'G'] := by
        revert hxm
        simp only [List.mem_cons, List.mem_singleton, List.mem_nil_iff, or_false]
        rintro (hh | hh | hh | hh | hh) <;> rw [hh] <;> decide
      have hlow : x.toUpper.toLower = x.toLower := by
        revert hxm
        simp only [List.mem_cons, List.mem_singleton, List.mem_nil_iff, or_false]
        rintro (hh | hh | hh | hh | hh) <;> rw [hh] <;> decide
      have ha := toUpperChar_preimage a x.toUpper hup h.1
      rw [hlow] at ha
      rw [List.map_cons]
      unfold caseVariants
      rw [List.mem_flatMap]
      refine ⟨t.map dotlessToI, hrest, ?_⟩
      rcases ha with ha | ha
      · rw [ha]; simp
      · rw [ha]; simp

/-- The units the switch of `ParseRateLimit` accepts are the units of the specification
in any letter case, the dotless i counting as a case of the letter i. -/
theorem recognisedUnit_iff (u : String) : recognisedUnit u ↔ unitOfSpec u := by
  constructor
  · intro h
    unfold recognisedUnit at h
    have htab : ["", "B", "K", "KB", "KIB", "M", "MB", "MIB", "G", "GB", "GIB"]
        = unitTable.map (fun p => String.mk (p.1.data.map Char.toUpper)) := by decide
    rw [htab] at h
    obtain ⟨p, hp, hpu⟩ := List.mem_map.mp h
    have hchars : ∀ q ∈ unitTable, ∀ x ∈ q.1.data, x ∈ ['B', 'K', 'i', 'M', 'G'] := by decide
    have hmap : u.data.map toUpperChar = p.1.data.map Char.toUpper := by
      have := congrArg String.data hpu
      exact this.symm
    have hmem := mem_caseVariants_of_upper p.1.data u.data (hchars p hp) hmap
    unfold unitOfSpec unitSpellings
    rw [List.mem_map]
    refine ⟨(String.mk (u.data.map dotlessToI), p.2), ?_, rfl⟩
    rw [List.mem_flatMap]
    exact ⟨p, hp, List.mem_map.mpr ⟨_, hmem, rfl⟩⟩
  · intro h
    have hall : ∀ v ∈ unitSpellings.map Prod.fst, recognisedUnit v := by decide
    have h2 := hall _ h
    unfold recognisedUnit ToUpper at h2 ⊢
    simp only [List.map_map] at h2
    have hfun : (toUpperChar ∘ dotlessToI) = toUpperChar := by
      funext c
      exact toUpperChar_dotlessToI c
    rw [hfun] at h2
    exact h2

/-- C18, amended: `ParseRateLimit` returns an error exactly when the trimmed input is
non-empty and its leading digits-and-dots portion is missing, or is not a parseable
number (more than one dot, no digit, or a value beyond the float64 range), or what
follows it, trimmed, is not one of the units none, B, K, KB, KiB, M, MB, MiB, G, GB,
GiB written in any letter case, the dotless i (U+0131) counting as a case of the letter
i, or the rate is zero as a float64.  On an empty or all-whitespace input it returns no
limiter and no error; it returns no limiter on no other input. -/
theorem C18_rate_errors (s : String) :
    (trimSpaceChars s.data = [] → ParseRateLimit s = .ok none) ∧
    (trimSpaceChars s.data ≠ [] → ParseRateLimit s ≠ .ok none) ∧
    ((∃ e, ParseRateLimit s = .error e) ↔
      trimSpaceChars s.data ≠ [] ∧
        (numericPortion s = [] ∨ ¬ parseableNumber (numericPortion s) ∨
          ¬ unitOfSpec (unitPortion s) ∨
          roundsToZero (decimalOf (numericPortion s)))) := by
  obtain ⟨h1, h2, h3⟩ := ParseRateLimit_errors_by_switch s
  refine ⟨h1, h2, ?_⟩
  rw [h3, recognisedUnit_iff]

set_option exponentiation.threshold 1100 in
/-- C18 as stated fails with the units read as the eleven spellings in upper and lower
case letters: `strings.ToUpper` turns the dotless i (U+0131) into `I`, so the rate
"1k\u0131b" is accepted as one KiB per second, though its unit is none of those
spellings; its number is parseable and its rate is not zero. -/
theorem C18_dotless_i_accepted :
    numericPortion "1k\u0131b" = ['1'] ∧ unitPortion "1k\u0131b" = "k\u0131b" ∧
    "k\u0131b" ∉ unitSpellings.map Prod.fst ∧
    parseableNumber (numericPortion "1k\u0131b") ∧
    ¬ roundsToZero (decimalOf (numericPortion "1k\u0131b")) ∧
    ParseRateLimit "1k\u0131b" = .ok (some ⟨⟨1024, 1⟩, false, 1024⟩) :=
  ⟨by decide, by decide, by decide, by decide, by decide, rfl⟩

set_option exponentiation.threshold 1100 in
/-- The cases of `TestParseRateLimit` that expect an error, and blank input. -/
theorem ParseRateLimit_test_errors :
    ParseRateLimit "0" = .error "rate must be > 0" ∧
    ParseRateLimit "abc" = .error "missing rate value" ∧
    ParseRateLimit "10Z" = .error "unknown rate unit: Z" ∧
    ParseRateLimit "1.2.3" = .error ("invalid rate value: " ++ numError "1.2.3".data "invalid syntax") ∧
    ParseRateLimit "  " = .ok none :=
  ⟨rfl, rfl, rfl, rfl, rfl⟩

/-! ## `SanitizeFileName` -/

theorem replaceUnsafe_of_safe (b : Bool) (l : List Char) (h : ∀ c ∈ l, isSafeChar c = true) :
    replaceUnsafe b l = l := by
  induction l generalizing b with
  | nil => rfl
  | cons c t ih =>
    have hc := h c (List.mem_cons_self c t)
    simp only [replaceUnsafe, hc, if_true]
    rw [ih false (fun d hd => h d (List.mem_cons_of_mem c hd))]

theorem replaceUnsafe_all_safe (b : Bool) (l : List Char) :
    ∀ c ∈ replaceUnsafe b l, isSafeChar c = true := by
  induction l generalizing b with
  | nil => intro c hc; simp [replaceUnsafe] at hc
  | cons a t ih =>
    intro c hc
    by_cases ha : isSafeChar a = true
    · simp only [replaceUnsafe, ha, if_true, List.mem_cons] at hc
      rcases hc with h | h
      · rw [h]; exact ha
      · exact ih false c h
    · cases b with
      | true =>
        simp only [replaceUnsafe, ha, if_false, if_true] at hc
        exact ih true c hc
      | false =>
        simp only [replaceUnsafe, ha, if_false, Bool.false_eq_true, List.mem_cons] at hc
        rcases hc with h | h
        · rw [h]; decide
        · exact ih true c h

/-- The model of the regular-expression replacement replaces run by run. -/
theorem replaceUnsafe_eq_runs (l : List Char) (before : Option Char) :
    (l.zip (before :: l.map some)).filterMap (fun p => runImage p.1 p.2)
      = replaceUnsafe (match before with | none => false | some p => !isSafeChar p) l := by
  induction l generalizing before with
  | nil => rfl
  | cons c t ih =>
    simp only [List.map_cons, List.zip_cons_cons, List.filterMap_cons]
    rw [ih (some c)]
    by_cases hc : isSafeChar c = true
    · simp [runImage, replaceUnsafe, hc]
    · have hc2 : isSafeChar c = false := by simpa using hc
      cases before with
      | none => simp [runImage, replaceUnsafe, hc2]
      | some p =>
        by_cases hp : isSafeChar p = true
        · simp [runImage, replaceUnsafe, hc2, hp]
        · have hp2 : isSafeChar p = false := by simpa using hp
          simp [runImage, replaceUnsafe, hc2, hp2]

theorem replaceRuns_eq (l : List Char) : replaceRuns l = replaceUnsafe false l :=
  replaceUnsafe_eq_runs l none

theorem replaceEach_eq_of_noUnsafePair (l : List Char) (b : Bool)
    (h : noUnsafePair l = true)
    (hb : b = true → ∀ c, l.head? = some c → isSafeChar c = true) :
    replaceUnsafe b l = replaceEach l := by
  induction l generalizing b with
  | nil => rfl
  | cons c t ih =>
    have ht : noUnsafePair t = true ∧
        (isSafeChar c = false → ∀ d, t.head? = some d → isSafeChar d = true) := by
      cases t with
      | nil => exact ⟨rfl, fun _ d hd => by simp at hd⟩
      | cons e t2 =>
        unfold noUnsafePair at h ⊢
        simp only [List.tail_cons, List.zip_cons_cons, List.all_cons, Bool.and_eq_true,
          Bool.or_eq_true] at h
        refine ⟨h.2, fun hc d hd => ?_⟩
        simp only [List.head?_cons, Option.some.injEq] at hd
        rcases h.1 with h1 | h1
        · rw [hc] at h1
          exact absurd h1 (by decide)
        · rw [← hd]
          exact h1
    by_cases hc : isSafeChar c = true
    · simp only [replaceUnsafe, hc, if_true, replaceEach, List.map_cons]
      have := ih false ht.1 (fun hf => by simp at hf)
      unfold replaceEach at this
      rw [this]
    · have hc2 : isSafeChar c = false := by simpa using hc
      have hb2 : b = false := by
        cases b with
        | false => rfl
        | true => exact absurd (hb rfl c rfl) hc
      simp only [replaceUnsafe, hc2, hb2, if_false, Bool.false_eq_true, replaceEach,
        List.map_cons]
      have := ih true ht.1 (fun _ => ht.2 hc2)
      unfold replaceEach at this
      rw [this]

theorem isTrimChar_of_safe_space (c : Char) (hs : isSafeChar c = true) (hsp : isSpace c = true) :
    isTrimChar c = true := by
  unfold isTrimChar
  by_cases h1 : c = '.'
  · simp [h1]
  by_cases h2 : c = '_'
  · simp [h2]
  by_cases h3 : c = ' '
  · simp [h3]
  by_cases h4 : c = '-'
  · rw [h4] at hsp
    exact absurd hsp (by decide)
  exfalso
  unfold isSafeChar at hs
  unfold isSpace at hsp
  simp only [Bool.or_eq_true, Bool.and_eq_true, decide_eq_true_eq, beq_iff_eq, h1, h2, h3, h4,
    or_false] at hs hsp
  omega

theorem isTrimChar_of_unsafe_image (c : Char) (hsp : isSpace c = true) :
    isTrimChar (if isSafeChar c then c else '_') = true := by
  by_cases hs : isSafeChar c = true
  · rw [if_pos hs]
    exact isTrimChar_of_safe_space c hs hsp
  · rw [if_neg hs]
    decide

/-- Leading white space does not show in what is left after trimming on the left. -/
theorem dropWhile_replaceUnsafe_space (ws y : List Char) (hws : ∀ c ∈ ws, isSpace c = true) :
    ∀ b b2 : Bool, (replaceUnsafe b (ws ++ y)).dropWhile isTrimChar
      = (replaceUnsafe b2 y).dropWhile isTrimChar := by
  induction ws with
  | nil =>
    intro b b2
    cases y with
    | nil => rfl
    | cons c t =>
      by_cases hc : isSafeChar c = true
      · simp only [List.nil_append, replaceUnsafe, hc, if_true]
      · have hu : isTrimChar '_' = true := by decide
        cases b <;> cases b2 <;>
          simp [replaceUnsafe, hc, List.dropWhile, hu]
  | cons w ws ih =>
    intro b b2
    have hw := hws w (List.mem_cons_self w ws)
    have hws2 : ∀ c ∈ ws, isSpace c = true := fun c hc => hws c (List.mem_cons_of_mem w hc)
    by_cases hc : isSafeChar w = true
    · have ht := isTrimChar_of_safe_space w hc hw
      simp only [List.cons_append, replaceUnsafe, hc, if_true]
      rw [List.dropWhile_cons_of_pos ht]
      exact ih hws2 false b2
    · have hu : isTrimChar '_' = true := by decide
      cases b with
      | true =>
        simp only [List.cons_append, replaceUnsafe, hc, if_false, if_true]
        exact ih hws2 true b2
      | false =>
        simp only [List.cons_append, replaceUnsafe, hc, if_false, Bool.false_eq_true]
        rw [List.dropWhile_cons_of_pos hu]
        exact ih hws2 true b2

theorem replaceUnsafe_space_trim (ws : List Char) (hws : ∀ c ∈ ws, isSpace c = true) :
    ∀ b : Bool, ∀ c ∈ replaceUnsafe b ws, isTrimChar c = true := by
  induction ws with
  | nil => intro b c hc; simp [replaceUnsafe] at hc
  | cons w ws ih =>
    intro b c hc
    have hw := hws w (List.mem_cons_self w ws)
    have hws2 : ∀ c ∈ ws, isSpace c = true := fun c hc => hws c (List.mem_cons_of_mem w hc)
    by_cases hs : isSafeChar w = true
    · simp only [replaceUnsafe, hs, if_true, List.mem_cons] at hc
      rcases hc with h | h
      · rw [h]; exact isTrimChar_of_safe_space w hs hw
      · exact ih hws2 false c h
    · cases b with
      | true =>
        simp only [replaceUnsafe, hs, if_false, if_true] at hc
        exact ih hws2 true c hc
      | false =>
        simp only [replaceUnsafe, hs, if_false, Bool.false_eq_true, List.mem_cons] at hc
        rcases hc with h | h
        · rw [h]; decide
        · exact ih hws2 true c h

theorem replaceUnsafe_append (y z : List Char) :
    ∀ b : Bool, ∃ b2 : Bool, replaceUnsafe b (y ++ z) = replaceUnsafe b y ++ replaceUnsafe b2 z := by
  induction y with
  | nil => intro b; exact ⟨b, rfl⟩
  | cons c t ih =>
    intro b
    by_cases hs : isSafeChar c = true
    · obtain ⟨b2, h2⟩ := ih false
      refine ⟨b2, ?_⟩
      rw [List.cons_append]
      simp only [replaceUnsafe, hs, if_true]
      rw [h2, List.cons_append]
    · have hs2 : isSafeChar c = false := by simpa using hs
      obtain ⟨b2, h2⟩ := ih true
      refine ⟨b2, ?_⟩
      rw [List.cons_append]
      cases b with
      | true =>
        simp only [replaceUnsafe, hs2, if_true, Bool.false_eq_true, if_false]
        exact h2
      | false =>
        simp only [replaceUnsafe, hs2, Bool.false_eq_true, if_false]
        rw [h2, List.cons_append]

theorem dropRightWhile_append_of_pos (p : Char → Bool) (a t : List Char)
    (ht : ∀ c ∈ t, p c = true) : dropRightWhile p (a ++ t) = dropRightWhile p a := by
  unfold dropRightWhile
  rw [List.reverse_append, List.dropWhile_append_of_pos]
  intro c hc
  exact ht c (List.mem_reverse.mp hc)

theorem dropRightWhile_decomp (p : Char → Bool) (m : List Char) :
    ∃ t, m = dropRightWhile p m ++ t ∧ ∀ c ∈ t, p c = true := by
  refine ⟨(m.reverse.takeWhile p).reverse, ?_, ?_⟩
  · unfold dropRightWhile
    rw [← List.reverse_append, List.takeWhile_append_dropWhile, List.reverse_reverse]
  · intro c hc
    exact takeWhile_all p m.reverse c (List.mem_reverse.mp hc)

/-- Trailing white space does not show in what is left after trimming on the right. -/
theorem dropRightWhile_replaceUnsafe_space (y ws : List Char)
    (hws : ∀ c ∈ ws, isSpace c = true) (b : Bool) :
    dropRightWhile isTrimChar (replaceUnsafe b (y ++ ws))
      = dropRightWhile isTrimChar (replaceUnsafe b y) := by
  obtain ⟨b2, h2⟩ := replaceUnsafe_append y ws b
  rw [h2]
  exact dropRightWhile_append_of_pos _ _ _ (replaceUnsafe_space_trim ws hws b2)

theorem dropWhile_dropRightWhile_comm (p : Char → Bool) (l : List Char) :
    dropRightWhile p (l.dropWhile p) = (dropRightWhile p l).dropWhile p := by
  induction l with
  | nil => rfl
  | cons c t ih =>
    rw [dropRightWhile_cons]
    by_cases hc : p c = true
    · rw [List.dropWhile_cons_of_pos hc]
      by_cases hn : dropRightWhile p t = []
      · rw [if_pos ⟨hn, hc⟩]
        have hall := (dropRightWhile_eq_nil p t).mp hn
        rw [List.dropWhile_eq_nil_iff.mpr hall]
        rfl
      · rw [if_neg (fun h => hn h.1), List.dropWhile_cons_of_pos hc]
        exact ih
    · rw [List.dropWhile_cons_of_neg hc, if_neg (fun h => hc h.2),
        List.dropWhile_cons_of_neg hc, dropRightWhile_cons, if_neg (fun h => hc h.2)]

/-- The call to `strings.TrimSpace` in `SanitizeFileName` does not change the result. -/
theorem sanitize_trimSpace_redundant (l : List Char) :
    dropRightWhile isTrimChar ((replaceUnsafe false (trimSpaceChars l)).dropWhile isTrimChar)
      = dropRightWhile isTrimChar ((replaceUnsafe false l).dropWhile isTrimChar) := by
  have h1 := List.takeWhile_append_dropWhile isSpace l
  obtain ⟨ws2, h2, hws2⟩ := dropRightWhile_decomp isSpace (l.dropWhile isSpace)
  have hcore : trimSpaceChars l = dropRightWhile isSpace (l.dropWhile isSpace) := rfl
  rw [← hcore] at h2
  have hl : l = l.takeWhile isSpace ++ (trimSpaceChars l ++ ws2) := by
    rw [← h2, h1]
  conv_rhs => rw [hl]
  rw [dropWhile_replaceUnsafe_space _ _ (takeWhile_all isSpace l) false false,
    dropWhile_dropRightWhile_comm, dropWhile_dropRightWhile_comm,
    dropRightWhile_replaceUnsafe_space _ _ hws2]

theorem SanitizeFileName_eq_finishName (x : String) :
    SanitizeFileName x = finishName (replaceUnsafe false x.data) := by
  unfold SanitizeFileName sanitizeChars finishName
  simp only [sanitize_trimSpace_redundant]

/-- C19, amended: `SanitizeFileName` replaces every maximal run of characters outside
`[A-Za-z0-9._- ]` by one underscore (not every character of the run), then trims
leading and trailing dots, underscores and spaces, then puts "download" for an empty
result; the white space it trims first does not change the result.  Where no two
neighbouring characters of the input are both outside the class, this is the
character by character replacement. -/
theorem C19_sanitize_by_runs (x : String) :
    SanitizeFileName x = sanitizeByRuns x ∧
    (noUnsafePair x.data = true → SanitizeFileName x = sanitizePerChar x) := by
  refine ⟨?_, fun h => ?_⟩
  · rw [SanitizeFileName_eq_finishName]
    unfold sanitizeByRuns
    rw [replaceRuns_eq]
  · rw [SanitizeFileName_eq_finishName]
    unfold sanitizePerChar
    rw [replaceEach_eq_of_noUnsafePair x.data false h (fun hf => by simp at hf)]

/-- C19 at the inputs of `TestSanitizeFileName`. -/
theorem C19_sanitize_by_runs_witness :
    noUnsafePair "Movie: Title/Part 1".data = true ∧
    SanitizeFileName "Movie: Title/Part 1" = sanitizePerChar "Movie: Title/Part 1" ∧
    sanitizePerChar "Movie: Title/Part 1" = "Movie_ Title_Part 1" ∧
    SanitizeFileName "Good_Name-01.mkv" = sanitizeByRuns "Good_Name-01.mkv" ∧
    sanitizeByRuns "Good_Name-01.mkv" = "Good_Name-01.mkv" ∧
    SanitizeFileName "  ..  " = "download" :=
  ⟨by decide, (C19_sanitize_by_runs "Movie: Title/Part 1").2 (by decide), by decide,
    (C19_sanitize_by_runs "Good_Name-01.mkv").1, by decide, by decide⟩

/-- C19 as stated does not hold: two neighbouring characters outside the class give one
underscore, where a replacement character by character gives two. -/
theorem C19_run_gets_one_underscore :
    SanitizeFileName "a::b" = "a_b" ∧ sanitizePerChar "a::b" = "a__b" ∧
    SanitizeFileName "a::b" ≠ sanitizePerChar "a::b" := by
  decide

/-! ### Idempotence -/

theorem dropWhile_fixed_of_imp (p q : Char → Bool) (r : List Char) (h : r.dropWhile p = r)
    (himp : ∀ c ∈ r, q c = true → p c = true) : r.dropWhile q = r := by
  rw [List.dropWhile_eq_self_iff] at h ⊢
  intro hl hq
  exact h hl (himp _ (List.get_mem r 0 hl) hq)

theorem dropRightWhile_fixed_of_imp (p q : Char → Bool) (r : List Char)
    (h : dropRightWhile p r = r) (himp : ∀ c ∈ r, q c = true → p c = true) :
    dropRightWhile q r = r := by
  have h2 : List.rdropWhile p r = r := h
  show List.rdropWhile q r = r
  rw [List.rdropWhile_eq_self_iff] at h2 ⊢
  intro hl hq
  exact h2 hl (himp _ (List.getLast_mem hl) hq)

/-- A non-empty result of the trimming in `SanitizeFileName` is a text the function
returns as it is. -/
theorem sanitizeChars_fixed (l : List Char)
    (hne : dropRightWhile isTrimChar ((replaceUnsafe false (trimSpaceChars l)).dropWhile isTrimChar)
      ≠ []) :
    sanitizeChars
        (dropRightWhile isTrimChar ((replaceUnsafe false (trimSpaceChars l)).dropWhile isTrimChar))
      = dropRightWhile isTrimChar ((replaceUnsafe false (trimSpaceChars l)).dropWhile isTrimChar) := by
  have hsafe : ∀ c ∈ dropRightWhile isTrimChar
      ((replaceUnsafe false (trimSpaceChars l)).dropWhile isTrimChar), isSafeChar c = true := by
    intro c hc
    apply replaceUnsafe_all_safe false (trimSpaceChars l)
    exact (List.dropWhile_suffix isTrimChar).subset
      ((List.rdropWhile_prefix isTrimChar _).subset hc)
  have hleft := trimmed_left_fixed isTrimChar (replaceUnsafe false (trimSpaceChars l))
  have hright := dropRightWhile_idem isTrimChar
    ((replaceUnsafe false (trimSpaceChars l)).dropWhile isTrimChar)
  generalize dropRightWhile isTrimChar
    ((replaceUnsafe false (trimSpaceChars l)).dropWhile isTrimChar) = r at hne hsafe hleft hright
  have himp : ∀ c ∈ r, isSpace c = true → isTrimChar c = true :=
    fun c hc hsp => isTrimChar_of_safe_space c (hsafe c hc) hsp
  have h1 : r.dropWhile isSpace = r := dropWhile_fixed_of_imp isTrimChar isSpace r hleft himp
  have h2 : dropRightWhile isSpace r = r :=
    dropRightWhile_fixed_of_imp isTrimChar isSpace r hright himp
  unfold sanitizeChars trimSpaceChars
  simp only [h1, h2, replaceUnsafe_of_safe false r hsafe, hleft, hright]
  rw [if_neg hne]

theorem sanitizeChars_idem (l : List Char) :
    sanitizeChars (sanitizeChars l) = sanitizeChars l := by
  by_cases hne : dropRightWhile isTrimChar
      ((replaceUnsafe false (trimSpaceChars l)).dropWhile isTrimChar) = []
  · have h : sanitizeChars l = "download".data := by
      unfold sanitizeChars
      simp only [hne, if_true]
    rw [h]
    decide
  · have h : sanitizeChars l = dropRightWhile isTrimChar
        ((replaceUnsafe false (trimSpaceChars l)).dropWhile isTrimChar) := by
      unfold sanitizeChars
      simp only [hne, if_false]
    rw [h]
    exact sanitizeChars_fixed l hne

/-- C20: `SanitizeFileName` is idempotent. -/
theorem C20_sanitize_idempotent (x : String) :
    SanitizeFileName (SanitizeFileName x) = SanitizeFileName x := by
  unfold SanitizeFileName
  simp only [sanitizeChars_idem]

/-! ### The default name and the shape of the result -/

theorem trimmed_eq_nil_iff (p : Char → Bool) (l : List Char) :
    dropRightWhile p (l.dropWhile p) = [] ↔ ∀ c ∈ l, p c = true := by
  rw [dropWhile_dropRightWhile_comm, List.dropWhile_eq_nil_iff]
  constructor
  · intro h
    have h2 : dropRightWhile p l = [] := by
      cases hd : dropRightWhile p l with
      | nil => rfl
      | cons a t =>
        exfalso
        have hne : List.rdropWhile p l ≠ [] := by
          show dropRightWhile p l ≠ []
          rw [hd]
          simp
        have hlast := List.rdropWhile_last_not p l hne
        apply hlast
        apply h
        show (List.rdropWhile p l).getLast hne ∈ dropRightWhile p l
        exact List.getLast_mem hne
    exact (dropRightWhile_eq_nil p l).mp h2
  · intro h c hc
    exact h c ((List.rdropWhile_prefix p l).subset hc)

theorem replaceUnsafe_all_trim (b : Bool) (l : List Char) :
    (∀ c ∈ replaceUnsafe b l, isTrimChar c = true) ↔ ∀ c ∈ l, isKeptChar c = false := by
  induction l generalizing b with
  | nil => simp [replaceUnsafe]
  | cons a t ih =>
    have hu : isTrimChar '_' = true := by decide
    by_cases ha : isSafeChar a = true
    · simp only [replaceUnsafe, ha, if_true, List.forall_mem_cons, ih false, isKeptChar,
        Bool.true_and, Bool.not_eq_false']
    · have ha2 : isSafeChar a = false := by simpa using ha
      cases b with
      | true =>
        simp only [replaceUnsafe, ha2, Bool.false_eq_true, if_false, if_true, ih true,
          List.forall_mem_cons, isKeptChar, Bool.false_and, true_and]
      | false =>
        simp only [replaceUnsafe, ha2, Bool.false_eq_true, if_false, ih true,
          List.forall_mem_cons, isKeptChar, Bool.false_and, true_and, hu]

/-- C21, amended: `SanitizeFileName` returns "download" for every input without a
letter, a digit or a hyphen, that is one made of white space, dots, underscores and
characters outside the class only (the empty input among them); on an input with a
letter, a digit or a hyphen it returns the trimmed text, which is not empty. -/
theorem C21_default_name (x : String) :
    ((∀ c ∈ x.data, isKeptChar c = false) → SanitizeFileName x = "download") ∧
    ((∃ c ∈ x.data, isKeptChar c = true) →
      SanitizeFileName x
        = String.mk (dropRightWhile isTrimChar ((replaceUnsafe false x.data).dropWhile isTrimChar)) ∧
      dropRightWhile isTrimChar ((replaceUnsafe false x.data).dropWhile isTrimChar) ≠ []) := by
  have hiff := (trimmed_eq_nil_iff isTrimChar (replaceUnsafe false x.data)).trans
    (replaceUnsafe_all_trim false x.data)
  rw [SanitizeFileName_eq_finishName]
  unfold finishName
  constructor
  · intro h
    simp only [hiff.mpr h, if_true]
  · rintro ⟨c, hc, hk⟩
    have hne : dropRightWhile isTrimChar ((replaceUnsafe false x.data).dropWhile isTrimChar)
        ≠ [] := by
      intro h
      have := hiff.mp h c hc
      rw [hk] at this
      exact absurd this (by decide)
    simp only [hne, if_false]
    exact ⟨trivial, hne⟩

/-- C21 at concrete inputs: blank, dots between spaces, exclamation marks. -/
theorem C21_default_name_witness :
    SanitizeFileName "" = "download" ∧ SanitizeFileName "  ..  " = "download" ∧
    SanitizeFileName "!!!" = "download" ∧ SanitizeFileName " \t\n" = "download" :=
  ⟨(C21_default_name "").1 (by decide), (C21_default_name "  ..  ").1 (by decide),
    (C21_default_name "!!!").1 (by decide), (C21_default_name " \t\n").1 (by decide)⟩

/-- C21 as stated fails on hyphens: the hyphen belongs to the class and is not trimmed,
so "---" comes back as it is. -/
theorem C21_hyphens_kept :
    SanitizeFileName "---" = "---" ∧ SanitizeFileName "---" ≠ "download" ∧
    SanitizeFileName " - " = "-" := by
  decide

theorem head_not_of_dropWhile_fixed (p : Char → Bool) (a : Char) (t : List Char)
    (h : (a :: t).dropWhile p = a :: t) : p a = false :=
  dropWhile_head_false p (a :: t) a t h

theorem getLast_not_of_dropRightWhile_fixed (p : Char → Bool) (r : List Char) (hne : r ≠ [])
    (h : dropRightWhile p r = r) : p (r.getLast hne) = false := by
  have h2 : List.rdropWhile p r = r := h
  have := List.rdropWhile_eq_self_iff.mp h2 hne
  simpa using this

/-- The shape of what `SanitizeFileName` returns, on characters. -/
theorem sanitizeChars_shape (l : List Char) :
    sanitizeChars l ≠ [] ∧ (∀ c ∈ sanitizeChars l, isSafeChar c = true) ∧
    (∀ c, (sanitizeChars l).head? = some c → isTrimChar c = false) ∧
    (∀ c, (sanitizeChars l).getLast? = some c → isTrimChar c = false) := by
  by_cases hne : dropRightWhile isTrimChar
      ((replaceUnsafe false (trimSpaceChars l)).dropWhile isTrimChar) = []
  · have h : sanitizeChars l = "download".data := by
      unfold sanitizeChars
      simp only [hne, if_true]
    rw [h]
    decide
  · have h : sanitizeChars l = dropRightWhile isTrimChar
        ((replaceUnsafe false (trimSpaceChars l)).dropWhile isTrimChar) := by
      unfold sanitizeChars
      simp only [hne, if_false]
    rw [h]
    have hsafe : ∀ c ∈ dropRightWhile isTrimChar
        ((replaceUnsafe false (trimSpaceChars l)).dropWhile isTrimChar), isSafeChar c = true := by
      intro c hc
      apply replaceUnsafe_all_safe false (trimSpaceChars l)
      exact (List.dropWhile_suffix isTrimChar).subset
        ((List.rdropWhile_prefix isTrimChar _).subset hc)
    have hleft := trimmed_left_fixed isTrimChar (replaceUnsafe false (trimSpaceChars l))
    have hright := dropRightWhile_idem isTrimChar
      ((replaceUnsafe false (trimSpaceChars l)).dropWhile isTrimChar)
    generalize dropRightWhile isTrimChar
      ((replaceUnsafe false (trimSpaceChars l)).dropWhile isTrimChar) = r
      at hne hsafe hleft hright
    refine ⟨hne, hsafe, ?_, ?_⟩
    · intro c hc
      cases r with
      | nil => simp at hc
      | cons a t =>
        simp only [List.head?_cons, Option.some.injEq] at hc
        rw [← hc]
        exact head_not_of_dropWhile_fixed isTrimChar a t hleft
    · intro c hc
      rw [List.getLast?_eq_getLast r hne] at hc
      simp only [Option.some.injEq] at hc
      rw [← hc]
      exact getLast_not_of_dropRightWhile_fixed isTrimChar r hne hright

/-- C28: for every input `SanitizeFileName` returns a non-empty text made of letters,
digits, dots, underscores, hyphens and spaces that neither begins nor ends with a dot,
an underscore or a space; so it holds no slash and no backslash and is neither "." nor
"..". -/
theorem C28_sanitized_shape (x : String) :
    SanitizeFileName x ≠ "" ∧
    (∀ c ∈ (SanitizeFileName x).data, isSafeChar c = true) ∧
    (∀ c, (SanitizeFileName x).data.head? = some c → c ≠ '.' ∧ c ≠ '_' ∧ c ≠ ' ') ∧
    (∀ c, (SanitizeFileName x).data.getLast? = some c → c ≠ '.' ∧ c ≠ '_' ∧ c ≠ ' ') ∧
    '/' ∉ (SanitizeFileName x).data ∧ '\\' ∉ (SanitizeFileName x).data ∧
    SanitizeFileName x ≠ "." ∧ SanitizeFileName x ≠ ".." := by
  obtain ⟨hne, hsafe, hhead, hlast⟩ := sanitizeChars_shape x.data
  have htrim : ∀ c, isTrimChar c = false → c ≠ '.' ∧ c ≠ '_' ∧ c ≠ ' ' := by
    intro c hc
    refine ⟨?_, ?_, ?_⟩ <;> intro h <;> rw [h] at hc <;> exact absurd hc (by decide)
  have hdata : (SanitizeFileName x).data = sanitizeChars x.data := rfl
  rw [hdata]
  have hnodot : ∀ t, sanitizeChars x.data ≠ '.' :: t := by
    intro t h
    have := hhead '.' (by rw [h]; rfl)
    exact absurd this (by decide)
  refine ⟨?_, hsafe, fun c hc => htrim c (hhead c hc), fun c hc => htrim c (hlast c hc),
    ?_, ?_, ?_, ?_⟩
  · intro h
    exact hne (by rw [← hdata, h])
  · intro h
    exact absurd (hsafe _ h) (by decide)
  · intro h
    exact absurd (hsafe _ h) (by decide)
  · intro h
    exact hnodot [] (by rw [← hdata, h])
  · intro h
    exact hnodot ['.'] (by rw [← hdata, h])

/-! ## The file name of an item -/

theorem fmt02d_eq_twoDigits (n : Int) (h : 0 < n) : fmt02d n = twoDigits n := by
  unfold fmt02d twoDigits
  by_cases h10 : n < 10
  · rw [if_pos ⟨Int.le_of_lt h, h10⟩, if_pos h10]
  · rw [if_neg (fun hh => h10 hh.2), if_neg h10]

/-- C23, amended: `buildItemFilename` returns "<series> - S<season>E<episode> - <name>",
the numbers with at least two digits, for an Episode whose season and episode numbers
are both positive; "<series> - <name>" for another Episode; "<name> (<year>)" for an
item of another type with a positive production year; the name otherwise.  `<series>`
is the series name of the item when it has one and the word "Series" when it has none. -/
theorem C23_item_filename (item : Item) :
    buildItemFilename item
      = specItemFilename
          { item with SeriesName := if item.SeriesName = "" then "Series" else item.SeriesName } ∧
    (item.SeriesName ≠ "" ∨ item.Type_ ≠ "Episode" →
      buildItemFilename item = specItemFilename item) := by
  have h1 : buildItemFilename item
      = specItemFilename
          { item with SeriesName := if item.SeriesName = "" then "Series" else item.SeriesName } := by
    unfold buildItemFilename specItemFilename
    simp only []
    by_cases ht : item.Type_ = "Episode"
    · rw [if_pos ht, if_pos ht]
      by_cases hn : item.ParentIndexNumber > 0 ∧ item.IndexNumber > 0
      · rw [if_pos hn, if_pos hn, fmt02d_eq_twoDigits _ hn.1, fmt02d_eq_twoDigits _ hn.2]
      · rw [if_neg hn, if_neg hn]
    · rw [if_neg ht, if_neg ht]
  refine ⟨h1, fun h => ?_⟩
  rw [h1]
  rcases h with h | h
  · simp only [h, if_false]
  · unfold specItemFilename
    simp only [h, if_false]

/-- C23 at concrete inputs: an episode of a named series, and a film. -/
theorem C23_item_filename_witness :
    buildItemFilename namedEpisode = specItemFilename namedEpisode ∧
    specItemFilename namedEpisode = "Show - S01E12 - Finale" ∧
    buildItemFilename { movie with ProductionYear := 1999 } = "Movie (1999)" ∧
    buildItemFilename movie = "Movie" :=
  ⟨(C23_item_filename namedEpisode).2 (Or.inl (by decide)), by decide, by decide, by decide⟩

/-- C23 as stated fails for an episode without a series name: the file name starts with
the word "Series", not with the (empty) series name. -/
theorem C23_nameless_series :
    buildItemFilename namelessEpisode = "Series - S01E02 - Pilot" ∧
    specItemFilename namelessEpisode = " - S01E02 - Pilot" ∧
    buildItemFilename { namelessEpisode with IndexNumber := 0 } = "Series - Pilot" := by
  decide

/-! ## The record of the written file -/

/-- C27 at its failing input: nothing is on disk, the server sends the two bytes of the
movie and suggests the name `real.mkv`.  The run succeeds and writes `out/real.mkv`;
the record that ends as done with `bytes_done = bytes_total = 2` is the one of the
planned path `out/Movie.mkv`, where no file was written, and the record of the written
file `out/real.mkv` is left queued without byte counts. -/
theorem C27_written_file_left_queued :
    plannedPath movie "out" plainOpts = "out/Movie.mkv" ∧
    (downloadItem namedEnv movie "out" none plainOpts tickClock emptyWorld).2.2 = none ∧
    opens (downloadItem namedEnv movie "out" none plainOpts tickClock emptyWorld).2.1.trace
      = [.openFile "out/real.mkv" 0 false] ∧
    (downloadItem namedEnv movie "out" none plainOpts tickClock emptyWorld).2.1.fs
      = [("out/real.mkv", [4, 5])] ∧
    rowsOfItem (downloadItem namedEnv movie "out" none plainOpts tickClock emptyWorld).2.1.store
        "m1"
      = [("out/Movie.mkv", "done", some 2, some 2), ("out/real.mkv", "queued", none, none)] := by
  decide

/-- Without a file name from the server the record of the written file is the one that
ends as done. -/
theorem unnamed_download_record_done :
    (downloadItem oneByteEnv movie "out" none plainOpts tickClock emptyWorld).2.2 = none ∧
    (downloadItem oneByteEnv movie "out" none plainOpts tickClock emptyWorld).2.1.fs
      = [("out/Movie.mkv", [7])] ∧
    rowsOfItem (downloadItem oneByteEnv movie "out" none plainOpts tickClock emptyWorld).2.1.store
        "m1"
      = [("out/Movie.mkv", "done", some 1, some 1)] := by
  decide

/-! ## The directory of the destination -/

theorem splitSlash_append_any (a b : List Char) :
    splitSlash (a ++ '/' :: b) = splitSlash a ++ splitSlash b := by
  induction a with
  | nil =>
    rw [List.nil_append]
    have h := splitSlash_append [] b (by simp)
    rw [List.nil_append] at h
    rw [h]
    rfl
  | cons c rest ih =>
    rw [List.cons_append]
    cases hs : splitSlash rest with
    | nil => exact absurd hs (splitSlash_ne_nil rest)
    | cons w ws =>
      rw [hs] at ih
      simp only [splitSlash, ih, hs, List.cons_append]
      by_cases hc : c = '/'
      · simp [hc]
      · simp [hc]

theorem intercalate_cons_cons (x y : List Char) (rest : List (List Char)) :
    List.intercalate ['/'] (x :: y :: rest) = x ++ '/' :: List.intercalate ['/'] (y :: rest) := by
  simp [List.intercalate, List.intersperse]

theorem intercalate_singleton_slash (x : List Char) : List.intercalate ['/'] [x] = x := by
  simp [List.intercalate]

theorem splitSlash_intercalate (l : List (List Char)) (hne : l ≠ [])
    (h : ∀ c ∈ l, '/' ∉ c) : splitSlash (List.intercalate ['/'] l) = l := by
  induction l with
  | nil => exact absurd rfl hne
  | cons x t ih =>
    cases t with
    | nil =>
      rw [intercalate_singleton_slash]
      exact splitSlash_of_no_slash x (h x (List.mem_cons_self x []))
    | cons y rest =>
      rw [intercalate_cons_cons, splitSlash_append x _ (h x (List.mem_cons_self x _)),
        ih (by simp) (fun c hc => h c (List.mem_cons_of_mem x hc))]

theorem intercalate_concat (l : List (List Char)) (n : List Char) :
    List.intercalate ['/'] (l ++ [n])
      = if l = [] then n else List.intercalate ['/'] l ++ '/' :: n := by
  induction l with
  | nil => simp [List.intercalate]
  | cons x t ih =>
    cases t with
    | nil =>
      simp only [List.cons_append, List.nil_append, intercalate_cons_cons,
        intercalate_singleton_slash]
      simp
    | cons y rest =>
      rw [List.cons_append, List.cons_append, intercalate_cons_cons]
      rw [List.cons_append] at ih
      rw [ih, if_neg (by simp), if_neg (by simp), intercalate_cons_cons]
      simp

theorem intercalate_ne_nil (l : List (List Char)) (hne : l ≠ []) (h : ∀ c ∈ l, c ≠ []) :
    List.intercalate ['/'] l ≠ [] := by
  cases l with
  | nil => exact absurd rfl hne
  | cons x t =>
    have hx := h x (List.mem_cons_self x t)
    cases t with
    | nil => rw [intercalate_singleton_slash]; exact hx
    | cons y rest =>
      rw [intercalate_cons_cons]
      intro hh
      exact hx (List.append_eq_nil.mp hh).1

theorem intercalate_head (l : List (List Char)) (hne : l ≠ [])
    (h : ∀ c ∈ l, c ≠ [] ∧ '/' ∉ c) :
    (List.intercalate ['/'] l).head? ≠ some '/' := by
  cases l with
  | nil => exact absurd rfl hne
  | cons x t =>
    obtain ⟨hx1, hx2⟩ := h x (List.mem_cons_self x t)
    cases x with
    | nil => exact absurd rfl hx1
    | cons a xs =>
      have ha : a ≠ '/' := fun hh => hx2 (by simp [hh])
      cases t with
      | nil =>
        rw [intercalate_singleton_slash]
        simpa using ha
      | cons y rest =>
        rw [intercalate_cons_cons]
        simpa using ha

theorem okStack_comps (r : Bool) (s : List (List Char)) (h : okStack r s) :
    ∀ c ∈ s, okComp c := by
  induction s with
  | nil => intro c hc; simp at hc
  | cons a t ih =>
    intro c hc
    rcases List.mem_cons.mp hc with h1 | h1
    · rw [h1]; exact h.1
    · exact ih h.2.1 c h1

theorem cleanStep_ok (r : Bool) (s : List (List Char)) (comp : List Char)
    (hs : okStack r s) (hc : '/' ∉ comp) : okStack r (cleanStep r s comp) := by
  unfold cleanStep
  by_cases h1 : comp = [] ∨ comp = ['.']
  · rw [if_pos h1]; exact hs
  · rw [if_neg h1]
    have hcomp : okComp comp := ⟨fun h => h1 (Or.inl h), fun h => h1 (Or.inr h), hc⟩
    by_cases h2 : comp = ['.', '.']
    · rw [if_pos h2]
      cases s with
      | nil =>
        cases r with
        | true => exact trivial
        | false =>
          simp only [Bool.false_eq_true, if_false]
          exact ⟨hcomp, trivial, fun _ => ⟨rfl, Or.inl rfl⟩⟩
      | cons top below =>
        simp only []
        by_cases h3 : top = ['.', '.']
        · rw [if_pos h3]
          exact ⟨hcomp, hs, fun _ => ⟨(hs.2.2 h3).1, Or.inr (by rw [h3]; rfl)⟩⟩
        · rw [if_neg h3]
          exact hs.2.1
    · rw [if_neg h2]
      exact ⟨hcomp, hs, fun h => absurd h h2⟩

theorem foldl_cleanStep_ok (r : Bool) (comps : List (List Char)) :
    ∀ s, okStack r s → (∀ c ∈ comps, '/' ∉ c) → okStack r (comps.foldl (cleanStep r) s) := by
  induction comps with
  | nil => intro s hs _; exact hs
  | cons a t ih =>
    intro s hs hc
    rw [List.foldl_cons]
    exact ih _ (cleanStep_ok r s a hs (hc a (List.mem_cons_self a t)))
      (fun c hcm => hc c (List.mem_cons_of_mem a hcm))

/-- Cleaning the components of a cleaned path builds the same stack again. -/
theorem foldl_cleanStep_reverse (r : Bool) (s : List (List Char)) (hs : okStack r s) :
    s.reverse.foldl (cleanStep r) [] = s := by
  induction s with
  | nil => rfl
  | cons c below ih =>
    rw [List.reverse_cons, List.foldl_append, ih hs.2.1, List.foldl_cons, List.foldl_nil]
    obtain ⟨⟨h1, h2, _⟩, _, h3⟩ := hs
    unfold cleanStep
    rw [if_neg (fun h => h.elim h1 h2)]
    by_cases hd : c = ['.', '.']
    · rw [if_pos hd]
      obtain ⟨hr, hb⟩ := h3 hd
      rcases hb with hb | hb
      · rw [hb, hr, hd]
        rfl
      · cases below with
        | nil => simp at hb
        | cons top rest =>
          simp only [List.head?_cons, Option.some.injEq] at hb
          simp only [hb, if_true, hd]
    · rw [if_neg hd]

theorem foldl_cleanStep_skip (r : Bool) (pre : List (List Char)) (s : List (List Char))
    (h : ∀ c ∈ pre, c = [] ∨ c = ['.']) : pre.foldl (cleanStep r) s = s := by
  induction pre with
  | nil => rfl
  | cons a t ih =>
    rw [List.foldl_cons]
    have ha : cleanStep r s a = s := by
      unfold cleanStep
      rw [if_pos (h a (List.mem_cons_self a t))]
    rw [ha]
    exact ih (fun c hc => h c (List.mem_cons_of_mem a hc))

theorem cleanChars_eq_render (path : List Char) (hne : path ≠ []) :
    cleanChars path
      = renderPath (path.head? == some '/')
          ((splitSlash path).foldl (cleanStep (path.head? == some '/')) []) := by
  unfold cleanChars renderPath
  rw [if_neg hne]

theorem renderPath_ne_nil (r : Bool) (s : List (List Char)) : renderPath r s ≠ [] := by
  unfold renderPath
  cases r with
  | true => simp
  | false =>
    simp only [Bool.false_eq_true, if_false]
    split
    · simp
    · assumption

theorem renderPath_head (r : Bool) (s : List (List Char)) (hs : okStack r s) :
    ((renderPath r s).head? == some '/') = r := by
  unfold renderPath
  cases r with
  | true => simp
  | false =>
    simp only [Bool.false_eq_true, if_false]
    split
    · decide
    · next hb =>
      have hs2 : s.reverse ≠ [] := by
        intro h
        rw [h] at hb
        exact hb rfl
      have := intercalate_head s.reverse hs2 (fun c hc =>
        ⟨(okStack_comps false s hs c (List.mem_reverse.mp hc)).1,
          (okStack_comps false s hs c (List.mem_reverse.mp hc)).2.2⟩)
      simpa using this

/-- The components of a cleaned path are those of its stack, after an empty component
or a dot at most. -/
theorem splitSlash_renderPath (r : Bool) (s : List (List Char)) (hs : okStack r s) :
    ∃ pre, splitSlash (renderPath r s) = pre ++ s.reverse ∧ ∀ c ∈ pre, c = [] ∨ c = ['.'] := by
  have hcomps : ∀ c ∈ s.reverse, '/' ∉ c := fun c hc =>
    (okStack_comps r s hs c (List.mem_reverse.mp hc)).2.2
  have hnonempty : ∀ c ∈ s.reverse, c ≠ [] := fun c hc =>
    (okStack_comps r s hs c (List.mem_reverse.mp hc)).1
  unfold renderPath
  by_cases hnil : s.reverse = []
  · rw [hnil]
    cases r with
    | true => exact ⟨[[], []], by decide, by simp⟩
    | false => exact ⟨[['.']], by decide, by simp⟩
  · have hsplit := splitSlash_intercalate s.reverse hnil hcomps
    have hbody := intercalate_ne_nil s.reverse hnil hnonempty
    cases r with
    | true =>
      refine ⟨[[]], ?_, by simp⟩
      simp only [if_true]
      have := splitSlash_append_any [] (List.intercalate ['/'] s.reverse)
      rw [List.nil_append] at this
      rw [this, hsplit]
      rfl
    | false =>
      refine ⟨[], ?_, by simp⟩
      simp only [Bool.false_eq_true, if_false, hbody, List.nil_append]
      exact hsplit

/-- Cleaning a cleaned path followed by a slash and more: the stack of the cleaned path
is taken up where it was left. -/
theorem cleanChars_render_append (r : Bool) (s : List (List Char)) (hs : okStack r s)
    (t : List Char) :
    cleanChars (renderPath r s ++ '/' :: t)
      = renderPath r ((splitSlash t).foldl (cleanStep r) s) := by
  have hne : renderPath r s ++ '/' :: t ≠ [] := by simp
  have hhead : ((renderPath r s ++ '/' :: t).head? == some '/') = r := by
    have h1 := renderPath_head r s hs
    cases hd : renderPath r s with
    | nil => exact absurd hd (renderPath_ne_nil r s)
    | cons a rest =>
      rw [hd] at h1
      simpa using h1
  obtain ⟨pre, hpre, hskip⟩ := splitSlash_renderPath r s hs
  rw [cleanChars_eq_render _ hne, hhead, splitSlash_append_any, hpre, List.foldl_append,
    List.foldl_append, foldl_cleanStep_skip r pre [] hskip, foldl_cleanStep_reverse r s hs]

/-- What `filepath.Dir` and `filepath.Clean` return is the path of a stack. -/
theorem cleanChars_is_render (path : List Char) :
    ∃ r s, okStack r s ∧ cleanChars path = renderPath r s := by
  by_cases hne : path = []
  · exact ⟨false, [], trivial, by rw [hne]; decide⟩
  · refine ⟨path.head? == some '/', _, ?_, cleanChars_eq_render path hne⟩
    exact foldl_cleanStep_ok _ _ [] trivial (splitSlash_spec path).1

theorem dropRightWhile_not_slash (a n : List Char) (hn : '/' ∉ n) :
    dropRightWhile (fun c => c != '/') (a ++ '/' :: n) = a ++ ['/'] := by
  have h1 : a ++ '/' :: n = (a ++ ['/']) ++ n := by simp
  rw [h1, dropRightWhile_append_of_pos _ _ _ (fun c hc => by
    have : c ≠ '/' := fun h => hn (h ▸ hc)
    simpa using this)]
  show List.rdropWhile (fun c => c != '/') (a ++ ['/']) = a ++ ['/']
  rw [List.rdropWhile_concat]
  simp

theorem dropRightWhile_no_slash (n : List Char) (hn : '/' ∉ n) :
    dropRightWhile (fun c => c != '/') n = [] := by
  rw [dropRightWhile_eq_nil]
  intro c hc
  have : c ≠ '/' := fun h => hn (h ▸ hc)
  simpa using this

/-- The directory of a cleaned directory joined with a plain file name is that
directory. -/
theorem dirChars_joinChars_render (r : Bool) (s : List (List Char)) (hs : okStack r s)
    (n : List Char) (hn : plainName n) :
    dirChars (joinChars (renderPath r s) n) = renderPath r s := by
  obtain ⟨hn1, hn2, hn3, hn4⟩ := hn
  have hjoin : joinChars (renderPath r s) n = renderPath r (n :: s) := by
    unfold joinChars
    rw [if_pos (renderPath_ne_nil r s), cleanChars_render_append r s hs n,
      splitSlash_of_no_slash n hn4, List.foldl_cons, List.foldl_nil]
    unfold cleanStep
    rw [if_neg (fun h => h.elim hn1 hn2), if_neg hn3]
  rw [hjoin]
  unfold dirChars
  have hcomps : ∀ c ∈ s.reverse, c ≠ [] := fun c hc =>
    (okStack_comps r s hs c (List.mem_reverse.mp hc)).1
  by_cases hnil : s = []
  · rw [hnil]
    cases r with
    | true =>
      have hx : renderPath true [n] = [] ++ '/' :: n := by
        simp [renderPath, List.intercalate]
      rw [hx, dropRightWhile_not_slash [] n hn4]
      decide
    | false =>
      have hx : renderPath false [n] = n := by
        simp [renderPath, List.intercalate, hn1]
      rw [hx, dropRightWhile_no_slash n hn4]
      decide
  · have hrev : s.reverse ≠ [] := by simpa using hnil
    have hbody := intercalate_ne_nil s.reverse hrev hcomps
    have hx : renderPath r (n :: s) = renderPath r s ++ '/' :: n := by
      unfold renderPath
      rw [List.reverse_cons, intercalate_concat, if_neg hrev]
      cases r with
      | true => simp
      | false => simp [hbody]
    rw [hx, dropRightWhile_not_slash _ n hn4]
    have := cleanChars_render_append r s hs []
    rw [this]
    have hstep : (splitSlash []).foldl (cleanStep r) s = s := by
      show cleanStep r s [] = s
      unfold cleanStep
      rw [if_pos (Or.inl rfl)]
    rw [hstep]

theorem dirChars_joinChars_dirChars (p n : List Char) (hn : plainName n) :
    dirChars (joinChars (dirChars p) n) = dirChars p := by
  obtain ⟨r, s, hs, h⟩ := cleanChars_is_render (dropRightWhile (fun c => c != '/') p)
  have hd : dirChars p = renderPath r s := h
  rw [hd]
  exact dirChars_joinChars_render r s hs n hn

theorem sanitizeChars_plainName (l : List Char) : plainName (sanitizeChars l) := by
  obtain ⟨hne, hsafe, hhead, _⟩ := sanitizeChars_shape l
  have hnodot : ∀ t, sanitizeChars l ≠ '.' :: t := by
    intro t h
    have := hhead '.' (by rw [h]; rfl)
    exact absurd this (by decide)
  exact ⟨hne, hnodot [], hnodot ['.'], fun h => absurd (hsafe _ h) (by decide)⟩

/-- The directory of `Join(Dir(p), SanitizeFileName(h))` is the directory of `p`. -/
theorem Dir_Join_Dir_Sanitize (p h : String) :
    Dir (Join (Dir p) (SanitizeFileName h)) = Dir p := by
  unfold Dir Join SanitizeFileName
  simp only []
  rw [dirChars_joinChars_dirChars p.data _ (sanitizeChars_plainName h.data)]

/-- C22: with no override path, whatever file name the response suggests, the path
`downloadItem` writes to has the directory of the planned path `p`; when the response
suggests a (non-empty) name `h` that path is `Dir(p)` joined with `SanitizeFileName(h)`,
and it is `p` itself when the response suggests none.  Every file a run of
`downloadItem` opens is at that path. -/
theorem C22_hint_keeps_directory (opts : downloadOptions) (p : String) (resp : Response)
    (hov : opts.OverridePath = "") :
    Dir (finalPath opts p resp) = Dir p ∧
    (filenameFromResponse resp ≠ "" →
      finalPath opts p resp = Join (Dir p) (SanitizeFileName (filenameFromResponse resp))) ∧
    (filenameFromResponse resp = "" → finalPath opts p resp = p) ∧
    (∀ (env : Env) (item : Item) (outputDir : String) (limiter : Option Limiter) (c : Clock)
        (w : World),
      p = plannedPath item outputDir opts →
      OpenDownload env item.Id (existingFileSize w.fs p) = .ok resp →
      ∃ evs, opens (downloadItem env item outputDir limiter opts c w).2.1.trace
          = opens w.trace ++ evs ∧
        ∀ e ∈ evs, ∃ off app, e = .openFile (finalPath opts p resp) off app) := by
  have hfinal : filenameFromResponse resp ≠ "" →
      finalPath opts p resp = Join (Dir p) (SanitizeFileName (filenameFromResponse resp)) := by
    intro hh
    unfold finalPath renamed
    simp [hov, hh]
  have hsame : filenameFromResponse resp = "" → finalPath opts p resp = p := by
    intro hh
    unfold finalPath renamed
    simp [hh]
  refine ⟨?_, hfinal, hsame, ?_⟩
  · by_cases hh : filenameFromResponse resp = ""
    · rw [hsame hh]
    · rw [hfinal hh, Dir_Join_Dir_Sanitize]
  · intro env item outputDir limiter c w hp hresp
    rw [hp] at hresp ⊢
    obtain ⟨evs, h1, h2⟩ := downloadItem_opens env item outputDir limiter opts c w resp hresp
    exact ⟨evs, h1, fun e he => ⟨_, _, h2 e he⟩⟩

/-- C22 at a concrete input: the suggested name `../../etc/passwd` gives the file
`out/etc_passwd`, next to the planned `out/Movie.mkv`. -/
theorem C22_hint_keeps_directory_witness :
    plainOpts.OverridePath = "" ∧
    filenameFromResponse traversalResponse = "../../etc/passwd" ∧
    finalPath plainOpts "out/Movie.mkv" traversalResponse = "out/etc_passwd" ∧
    Dir (finalPath plainOpts "out/Movie.mkv" traversalResponse) = Dir "out/Movie.mkv" ∧
    Dir "out/Movie.mkv" = "out" :=
  ⟨rfl, by decide, by decide,
    (C22_hint_keeps_directory plainOpts "out/Movie.mkv" traversalResponse rfl).1, by decide⟩

/-! ## Counting loops -/

theorem wrap64_succ (i : Int) (h1 : -(2 ^ 63) ≤ i) (h2 : i < 2 ^ 63) :
    -(2 ^ 63) ≤ wrap64 (i + 1) ∧ wrap64 (i + 1) < 2 ^ 63 ∧
    (i + 1 < 2 ^ 63 → wrap64 (i + 1) = i + 1) := by
  refine ⟨?_, ?_, fun h => wrap64_of_range (i + 1) (by omega) h⟩
  · unfold wrap64
    have := Int.emod_nonneg (i + 1 + 2 ^ 63) (by decide : (2 : Int) ^ 64 ≠ 0)
    omega
  · unfold wrap64
    have := Int.emod_lt_of_pos (i + 1 + 2 ^ 63) (by decide : (0 : Int) < 2 ^ 64)
    omega

/-- A loop that counts up to the largest `int` does not end. -/
theorem forUpTo_max {α : Type} (body : Int → α → α) :
    ∀ (fuel : Nat) (i : Int) (acc : α), -(2 ^ 63) ≤ i → i < 2 ^ 63 →
      forUpTo body (2 ^ 63 - 1) fuel i acc = none := by
  intro fuel
  induction fuel with
  | zero => intro i acc _ _; rfl
  | succ n ih =>
    intro i acc h1 h2
    unfold forUpTo
    rw [if_pos (by omega)]
    obtain ⟨h3, h4, _⟩ := wrap64_succ i h1 h2
    exact ih _ _ h3 h4

/-- A loop that counts up to less than the largest `int` ends, given enough fuel, after
the body has run for `i`, `i + 1`, ..., `stop` in turn. -/
theorem forUpTo_run {α : Type} (body : Int → α → α) (stop : Int) (hstop : stop < 2 ^ 63 - 1) :
    ∀ (n fuel : Nat) (i : Int) (acc : α), -(2 ^ 63) ≤ i → i + n = stop + 1 → n < fuel →
      forUpTo body stop fuel i acc
        = some ((List.range n).foldl (fun a (k : Nat) => body (i + (k : Int)) a) acc) := by
  intro n
  induction n with
  | zero =>
    intro fuel i acc _ hn hf
    cases fuel with
    | zero => omega
    | succ f =>
      unfold forUpTo
      rw [if_neg (by omega)]
      rfl
  | succ m ih =>
    intro fuel i acc hi hn hf
    cases fuel with
    | zero => omega
    | succ f =>
      unfold forUpTo
      rw [if_pos (by omega), (wrap64_succ i hi (by omega)).2.2 (by omega),
        ih f (i + 1) (body i acc) (by omega) (by omega) (by omega)]
      congr 1
      rw [List.range_succ_eq_map, List.foldl_cons, List.foldl_map]
      simp only [Nat.cast_zero, add_zero, Nat.cast_succ]
      congr 1
      funext a k
      congr 1
      omega

/-- What holds of the result of a counting loop that ends: a property the body keeps
for every `i` from the start to `stop`. -/
theorem forUpTo_invariant {α : Type} (body : Int → α → α) (stop lo : Int) (P : α → Prop)
    (hstop : stop < 2 ^ 63)
    (hbody : ∀ i acc, lo ≤ i → i ≤ stop → P acc → P (body i acc)) :
    ∀ (fuel : Nat) (i : Int) (acc r : α), lo ≤ i → -(2 ^ 63) ≤ i → i < 2 ^ 63 → P acc →
      forUpTo body stop fuel i acc = some r → P r := by
  intro fuel
  induction fuel with
  | zero => intro i acc r _ _ _ _ h; simp [forUpTo] at h
  | succ n ih =>
    intro i acc r hlo h1 h2 hP h
    unfold forUpTo at h
    by_cases hle : i ≤ stop
    · rw [if_pos hle] at h
      by_cases hmax : i + 1 < 2 ^ 63
      · rw [(wrap64_succ i h1 h2).2.2 hmax] at h
        exact ih (i + 1) _ r (by omega) (by omega) hmax (hbody i acc hlo hle hP) h
      · have hs : stop = 2 ^ 63 - 1 := by omega
        rw [hs] at h
        obtain ⟨h3, h4, _⟩ := wrap64_succ i h1 h2
        rw [forUpTo_max body n _ _ h3 h4] at h
        simp at h
    · rw [if_neg hle] at h
      simp only [Option.some.injEq] at h
      rw [← h]
      exact hP

theorem parseInt64_range (s : List Char) (v : Int) (h : parseInt64 s = some v) :
    -(2 ^ 63) ≤ v ∧ v < 2 ^ 63 := by
  unfold parseInt64 at h
  cases s with
  | nil => simp at h
  | cons c r =>
    simp only [] at h
    split_ifs at h <;> simp only [Option.some.injEq, reduceCtorEq] at h <;> omega

theorem parseInt64_digits (ds : List Char) (hne : ds ≠ []) (hds : ∀ c ∈ ds, isDigit c = true)
    (hlt : digitsValue ds < 2 ^ 63) : parseInt64 ds = some (digitsValue ds : Int) := by
  cases ds with
  | nil => exact absurd rfl hne
  | cons c r =>
    have hc := hds c (List.mem_cons_self c r)
    have hc1 : c ≠ '-' := fun h => by rw [h] at hc; exact absurd hc (by decide)
    have hc2 : c ≠ '+' := fun h => by rw [h] at hc; exact absurd hc (by decide)
    have hall : (c :: r).all isDigit = true := List.all_eq_true.mpr hds
    unfold parseInt64
    simp only [hc1, hc2, or_self, if_false, hall]
    rw [if_neg (by simp)]
    have hv : ¬ (((digitsValue (c :: r) : Nat) : Int) < -(2 ^ 63) ∨
        ((digitsValue (c :: r) : Nat) : Int) > 2 ^ 63 - 1) := by
      omega
    rw [if_neg hv]

/-! ## `parseSelection` -/

theorem insertNew_fold (l : List Int) :
    ∀ out : List Int, out.Nodup →
      (l.foldl (fun out v => if v ∈ out then out else out ++ [v]) out).Nodup ∧
      ∀ x, x ∈ l.foldl (fun out v => if v ∈ out then out else out ++ [v]) out
        ↔ x ∈ out ∨ x ∈ l := by
  induction l with
  | nil => intro out h; exact ⟨h, fun x => by simp⟩
  | cons a t ih =>
    intro out h
    rw [List.foldl_cons]
    by_cases ha : a ∈ out
    · rw [if_pos ha]
      obtain ⟨h1, h2⟩ := ih out h
      refine ⟨h1, fun x => ?_⟩
      rw [h2 x, List.mem_cons]
      constructor
      · rintro (hx | hx)
        · exact Or.inl hx
        · exact Or.inr (Or.inr hx)
      · rintro (hx | hx | hx)
        · exact Or.inl hx
        · exact Or.inl (hx ▸ ha)
        · exact Or.inr hx
    · rw [if_neg ha]
      have hnd : (out ++ [a]).Nodup := by
        rw [List.nodup_append]
        refine ⟨h, List.nodup_singleton a, ?_⟩
        intro x hx hx2
        rw [List.mem_singleton] at hx2
        exact ha (hx2 ▸ hx)
      obtain ⟨h1, h2⟩ := ih (out ++ [a]) hnd
      refine ⟨h1, fun x => ?_⟩
      rw [h2 x, List.mem_append, List.mem_singleton, List.mem_cons]
      tauto

theorem dedupe_nodup (l : List Int) : (dedupe l).Nodup :=
  (insertNew_fold l [] List.nodup_nil).1

theorem mem_dedupe (l : List Int) (x : Int) : x ∈ dedupe l ↔ x ∈ l := by
  have := (insertNew_fold l [] List.nodup_nil).2 x
  simpa using this

theorem mem_toSet (l : List Int) (x : Int) : x ∈ toSet l ↔ x ∈ l := by
  have := (insertNew_fold l [] List.nodup_nil).2 x
  simpa using this

theorem toSet_length_pos (l : List Int) : (toSet l).length > 0 ↔ l ≠ [] := by
  constructor
  · intro h hl
    rw [hl] at h
    exact absurd h (by decide)
  · intro h
    cases l with
    | nil => exact absurd rfl h
    | cons a t =>
      have : a ∈ toSet (a :: t) := (mem_toSet _ a).mpr (List.mem_cons_self a t)
      exact List.length_pos_of_mem this

/-- One part of the selection keeps the indices within the options. -/
theorem selectionPart_bounds (fuel : Nat) (max : Int) (allowMulti : Bool)
    (result r : List Int) (part0 : List Char)
    (hres : ∀ i ∈ result, 0 ≤ i ∧ i < max)
    (h : selectionPart fuel max allowMulti result part0 = some (.ok r)) :
    ∀ i ∈ r, 0 ≤ i ∧ i < max := by
  unfold selectionPart at h
  simp only [] at h
  split at h
  · simp only [Option.some.injEq, Except.ok.injEq] at h
    rw [← h]; exact hres
  · split at h
    · split at h
      · simp at h
      · split at h
        · simp at h
        · next start hstart =>
          split at h
          · simp at h
          · next stop hstop =>
            split at h
            · simp at h
            · next hrange =>
              have hs := parseInt64_range _ _ hstart
              have he := parseInt64_range _ _ hstop
              split at h
              · simp at h
              · next r2 hloop =>
                simp only [Option.some.injEq, Except.ok.injEq] at h
                rw [← h]
                exact forUpTo_invariant (fun i r => r ++ [i - 1]) stop start
                  (fun l => ∀ i ∈ l, 0 ≤ i ∧ i < max) he.2
                  (fun i acc hlo hhi hacc j hj => by
                    rcases List.mem_append.mp hj with hj | hj
                    · exact hacc j hj
                    · rw [List.mem_singleton] at hj
                      omega)
                  fuel start result r2 (le_refl _) hs.1 hs.2 hres hloop
    · split at h
      · simp at h
      · next idx hidx =>
        split at h
        · simp at h
        · next hrange =>
          simp only [Option.some.injEq, Except.ok.injEq] at h
          rw [← h]
          intro j hj
          rcases List.mem_append.mp hj with hj | hj
          · exact hres j hj
          · rw [List.mem_singleton] at hj
            omega

theorem selectionParts_bounds (fuel : Nat) (max : Int) (allowMulti : Bool)
    (parts : List (List Char)) :
    ∀ (result r : List Int), (∀ i ∈ result, 0 ≤ i ∧ i < max) →
      selectionParts fuel max allowMulti parts result = some (.ok r) →
      ∀ i ∈ r, 0 ≤ i ∧ i < max := by
  induction parts with
  | nil =>
    intro result r hres h
    simp only [selectionParts, Option.some.injEq, Except.ok.injEq] at h
    rw [← h]; exact hres
  | cons p rest ih =>
    intro result r hres h
    unfold selectionParts at h
    split at h
    · simp at h
    · simp at h
    · next r1 h1 =>
      exact ih r1 r (selectionPart_bounds fuel max allowMulti result r1 p hres h1) h

/-- C30: when `parseSelection` returns without error, in as many steps as it takes, the
indices it returns are at least one, pairwise different, and each at least 0 and less
than the number of options; without `allowMulti` there is exactly one. -/
theorem C30_selection_in_range (fuel : Nat) (input : String) (max : Int) (allowMulti : Bool)
    (result : List Int)
    (h : parseSelection fuel input max allowMulti = some (.ok result)) :
    result ≠ [] ∧ result.Nodup ∧ (∀ i ∈ result, 0 ≤ i ∧ i < max) ∧
    (allowMulti = false → result.length = 1) := by
  unfold parseSelection at h
  split at h
  · simp at h
  · simp at h
  · next r hr =>
    have hb := selectionParts_bounds fuel max allowMulti _ [] r (by simp) hr
    split at h
    · simp at h
    · next hlen =>
      split at h
      · simp at h
      · next hmulti =>
        simp only [Option.some.injEq, Except.ok.injEq] at h
        rw [← h]
        have hne : r ≠ [] := fun hh => hlen (by rw [hh]; rfl)
        refine ⟨?_, dedupe_nodup r, fun i hi => hb i ((mem_dedupe r i).mp hi), ?_⟩
        · cases r with
          | nil => exact absurd rfl hne
          | cons a t =>
            intro hd
            have : a ∈ dedupe (a :: t) := (mem_dedupe _ a).mpr (List.mem_cons_self a t)
            rw [hd] at this
            simp at this
        · intro ham
          have hle : ¬ (r.length > 1) := fun hh => hmulti ⟨ham, hh⟩
          cases r with
          | nil => exact absurd rfl hne
          | cons a t =>
            cases t with
            | nil => rfl
            | cons b t2 =>
              exfalso
              apply hle
              simp

/-- C30 at a concrete input, five options: "1, 3-5, 3" gives the indices 0, 2, 3, 4. -/
theorem C30_selection_in_range_witness :
    parseSelection 10 "1, 3-5, 3" 5 true = some (.ok [0, 2, 3, 4]) ∧
    ([0, 2, 3, 4] : List Int) ≠ [] ∧ ([0, 2, 3, 4] : List Int).Nodup ∧
    (∀ i ∈ ([0, 2, 3, 4] : List Int), 0 ≤ i ∧ i < 5) ∧
    (true = false → ([0, 2, 3, 4] : List Int).length = 1) :=
  ⟨rfl, C30_selection_in_range 10 "1, 3-5, 3" 5 true [0, 2, 3, 4] rfl⟩

theorem selectionPart_returns (fuel : Nat) (max : Int) (allowMulti : Bool)
    (result : List Int) (part0 : List Char) (hmax : max < 2 ^ 63 - 1)
    (hfuel : max < (fuel : Int)) :
    selectionPart fuel max allowMulti result part0 ≠ none := by
  unfold selectionPart
  simp only []
  split
  · simp
  · split
    · split
      · simp
      · split
        · simp
        · next start hstart =>
          split
          · simp
          · next stop hstop =>
            split
            · simp
            · next hrange =>
              have hs := parseInt64_range _ _ hstart
              rw [forUpTo_run (fun i r => r ++ [i - 1]) stop (by omega)
                (stop + 1 - start).toNat fuel start result hs.1 (by omega) (by omega)]
              simp
    · split
      · simp
      · split <;> simp

theorem selectionParts_returns (fuel : Nat) (max : Int) (allowMulti : Bool)
    (hmax : max < 2 ^ 63 - 1) (hfuel : max < (fuel : Int)) (parts : List (List Char)) :
    ∀ result, selectionParts fuel max allowMulti parts result ≠ none := by
  induction parts with
  | nil => intro result; simp [selectionParts]
  | cons p rest ih =>
    intro result
    unfold selectionParts
    split
    · next h => exact absurd h (selectionPart_returns fuel max allowMulti result p hmax hfuel)
    · simp
    · exact ih _

/-- With fewer options than the largest `int`, `parseSelection` returns: the fuel of a
range loop does not run out when it is more than the number of options. -/
theorem parseSelection_returns (fuel : Nat) (input : String) (max : Int) (allowMulti : Bool)
    (hmax : max < 2 ^ 63 - 1) (hfuel : max < (fuel : Int)) :
    parseSelection fuel input max allowMulti ≠ none := by
  unfold parseSelection
  split
  · next h =>
    exact absurd h (selectionParts_returns fuel max allowMulti hmax hfuel _ _)
  · simp
  · split
    · simp
    · split <;> simp

/-! ## `parseNumberList` -/

theorem splitOn_ne_nil (sep : Char) (l : List Char) : splitOn sep l ≠ [] := by
  cases l with
  | nil => simp [splitOn]
  | cons c rest =>
    unfold splitOn
    split
    · simp
    · split <;> simp

theorem splitOn_of_no_sep (sep : Char) (a : List Char) (h : sep ∉ a) : splitOn sep a = [a] := by
  induction a with
  | nil => rfl
  | cons c rest ih =>
    have hc : c ≠ sep := fun hh => h (by simp [hh])
    have hr : sep ∉ rest := fun hh => h (List.mem_cons_of_mem _ hh)
    unfold splitOn
    rw [ih hr]
    simp [hc]

theorem splitOn_append (sep : Char) (a b : List Char) (h : sep ∉ a) :
    splitOn sep (a ++ sep :: b) = a :: splitOn sep b := by
  induction a with
  | nil =>
    rw [List.nil_append]
    cases hs : splitOn sep b with
    | nil => exact absurd hs (splitOn_ne_nil sep b)
    | cons w ws => simp [splitOn, hs]
  | cons c rest ih =>
    have hc : c ≠ sep := fun hh => h (by simp [hh])
    have hr : sep ∉ rest := fun hh => h (List.mem_cons_of_mem _ hh)
    have ih2 := ih hr
    rw [List.cons_append]
    simp only [splitOn, ih2]
    simp [hc]

/-- Text without the separator before a text joins its first part. -/
theorem splitOn_prepend (sep : Char) (w x : List Char) (h : sep ∉ w) :
    ∃ hd tl, splitOn sep x = hd :: tl ∧ splitOn sep (w ++ x) = (w ++ hd) :: tl := by
  induction w with
  | nil =>
    cases hs : splitOn sep x with
    | nil => exact absurd hs (splitOn_ne_nil sep x)
    | cons hd tl => exact ⟨hd, tl, rfl, by rw [List.nil_append, hs]; rfl⟩
  | cons c rest ih =>
    have hc : c ≠ sep := fun hh => h (by simp [hh])
    obtain ⟨hd, tl, h1, h2⟩ := ih (fun hh => h (List.mem_cons_of_mem _ hh))
    refine ⟨hd, tl, h1, ?_⟩
    rw [List.cons_append]
    simp only [splitOn, h2]
    simp [hc]

/-- Text without the separator after a text joins its last part. -/
theorem splitOn_extend (sep : Char) (x w : List Char) (h : sep ∉ w) :
    ∃ init last, splitOn sep x = init ++ [last] ∧
      splitOn sep (x ++ w) = init ++ [last ++ w] := by
  induction x with
  | nil => exact ⟨[], [], rfl, by simp [splitOn_of_no_sep sep w h]⟩
  | cons c rest ih =>
    obtain ⟨init, last, h1, h2⟩ := ih
    rw [List.cons_append]
    by_cases hc : c = sep
    · refine ⟨[] :: init, last, ?_, ?_⟩
      · cases init with
        | nil => simp only [splitOn, h1]; simp [hc]
        | cons a t => simp only [splitOn, h1]; simp [hc]
      · cases init with
        | nil => simp only [splitOn, h2]; simp [hc]
        | cons a t => simp only [splitOn, h2]; simp [hc]
    · cases init with
      | nil =>
        refine ⟨[], c :: last, ?_, ?_⟩
        · simp only [splitOn, h1]; simp [hc]
        · simp only [splitOn, h2]; simp [hc]
      | cons a t =>
        refine ⟨(c :: a) :: t, last, ?_, ?_⟩
        · simp only [splitOn, h1]; simp [hc]
        · simp only [splitOn, h2]; simp [hc]

theorem trimSpaceChars_space_append (ws h : List Char) (hws : ∀ c ∈ ws, isSpace c = true) :
    trimSpaceChars (ws ++ h) = trimSpaceChars h := by
  unfold trimSpaceChars
  rw [List.dropWhile_append_of_pos hws]

theorem trimSpaceChars_append_space (h ws : List Char) (hws : ∀ c ∈ ws, isSpace c = true) :
    trimSpaceChars (h ++ ws) = trimSpaceChars h := by
  unfold trimSpaceChars
  rw [dropWhile_dropRightWhile_comm, dropRightWhile_append_of_pos _ _ _ hws,
    ← dropWhile_dropRightWhile_comm]

theorem not_mem_of_space (sep : Char) (hsep : isSpace sep = false) (ws : List Char)
    (hws : ∀ c ∈ ws, isSpace c = true) : sep ∉ ws := by
  intro h
  have := hws sep h
  rw [hsep] at this
  exact absurd this (by decide)

/-- The parts of a text, each trimmed, are the trimmed parts of the trimmed text. -/
theorem map_trim_splitOn_trim (sep : Char) (hsep : isSpace sep = false) (l : List Char) :
    (splitOn sep (trimSpaceChars l)).map trimSpaceChars
      = (splitOn sep l).map trimSpaceChars := by
  have h1 := List.takeWhile_append_dropWhile isSpace l
  obtain ⟨ws2, h2, hws2⟩ := dropRightWhile_decomp isSpace (l.dropWhile isSpace)
  have hcore : trimSpaceChars l = dropRightWhile isSpace (l.dropWhile isSpace) := rfl
  rw [← hcore] at h2
  have hl : l = l.takeWhile isSpace ++ (trimSpaceChars l ++ ws2) := by
    rw [← h2, h1]
  have hws1 := takeWhile_all isSpace l
  generalize trimSpaceChars l = core at hl
  generalize l.takeWhile isSpace = ws1 at hl hws1
  rw [hl]
  obtain ⟨init, last, h3, h4⟩ := splitOn_extend sep core ws2 (not_mem_of_space sep hsep ws2 hws2)
  obtain ⟨hd, tl, h5, h6⟩ := splitOn_prepend sep ws1 (core ++ ws2)
    (not_mem_of_space sep hsep ws1 hws1)
  rw [h6, h3]
  rw [h4] at h5
  cases init with
  | nil =>
    simp only [List.nil_append, List.cons.injEq] at h5
    rw [← h5.1, ← h5.2]
    simp only [List.nil_append, List.map_cons, List.map_nil]
    rw [trimSpaceChars_space_append _ _ hws1, trimSpaceChars_append_space _ _ hws2]
  | cons a t =>
    simp only [List.cons_append, List.cons.injEq] at h5
    rw [← h5.1, ← h5.2]
    simp only [List.cons_append, List.map_cons, List.map_append, List.map_nil]
    rw [trimSpaceChars_space_append _ _ hws1, trimSpaceChars_append_space _ _ hws2]

theorem numberPart_trim (fuel : Nat) (out : List Int) (p : List Char) :
    numberPart fuel out (trimSpaceChars p) = numberPart fuel out p := by
  unfold numberPart
  simp only [trimSpaceChars_idem]

theorem numberParts_congr (fuel : Nat) (ps : List (List Char)) :
    ∀ (qs : List (List Char)) (out : List Int),
      ps.map trimSpaceChars = qs.map trimSpaceChars →
      numberParts fuel ps out = numberParts fuel qs out := by
  induction ps with
  | nil =>
    intro qs out h
    cases qs with
    | nil => rfl
    | cons q t => simp at h
  | cons p rest ih =>
    intro qs out h
    cases qs with
    | nil => simp at h
    | cons q t =>
      simp only [List.map_cons, List.cons.injEq] at h
      unfold numberParts
      rw [← numberPart_trim fuel out p, h.1, numberPart_trim fuel out q]
      cases numberPart fuel out q with
      | none => rfl
      | some out2 => exact ih t out2 h.2

/-- The call to `strings.TrimSpace` at the start of `parseNumberList` does not change
the result. -/
theorem parseNumberList_eq_parts (fuel : Nat) (value : String) :
    parseNumberList fuel value = numberParts fuel (splitOn ',' value.data) [] := by
  unfold parseNumberList
  have hm := map_trim_splitOn_trim ',' (by decide) value.data
  by_cases ht : trimSpaceChars value.data = []
  · rw [if_pos ht]
    rw [ht] at hm
    rw [← numberParts_congr fuel _ _ [] hm]
    rfl
  · rw [if_neg ht]
    exact numberParts_congr fuel _ _ [] hm

theorem intercalate_comma_cons_cons (x y : List Char) (rest : List (List Char)) :
    List.intercalate [','] (x :: y :: rest) = x ++ ',' :: List.intercalate [','] (y :: rest) := by
  simp [List.intercalate, List.intersperse]

theorem splitOn_intercalate_comma (l : List (List Char)) (hne : l ≠ [])
    (h : ∀ c ∈ l, ',' ∉ c) : splitOn ',' (List.intercalate [','] l) = l := by
  induction l with
  | nil => exact absurd rfl hne
  | cons x t ih =>
    cases t with
    | nil =>
      have : List.intercalate [','] [x] = x := by simp [List.intercalate]
      rw [this]
      exact splitOn_of_no_sep ',' x (h x (List.mem_cons_self x []))
    | cons y rest =>
      rw [intercalate_comma_cons_cons, splitOn_append ',' x _ (h x (List.mem_cons_self x _)),
        ih (by simp) (fun c hc => h c (List.mem_cons_of_mem x hc))]

theorem isNumeral_no_space (bound : Nat) (ds : List Char) (h : isNumeral bound ds) :
    ∀ c ∈ ds, isSpace c = false :=
  fun c hc => isSpace_of_isDigit c (h.2.1 c hc)

theorem isNumeral_not_mem (bound : Nat) (ds : List Char) (h : isNumeral bound ds) (x : Char)
    (hx : isDigit x = false) : x ∉ ds := by
  intro hm
  have := h.2.1 x hm
  rw [hx] at this
  exact absurd this (by decide)

theorem atoi_numeral (ds : List Char) (h : isNumeral (2 ^ 63) ds) :
    atoi ds = some (digitsValue ds : Int) :=
  parseInt64_digits ds h.1 h.2.1 h.2.2

theorem isNumeral_mono (a b : Nat) (hab : a ≤ b) (ds : List Char) (h : isNumeral a ds) :
    isNumeral b ds :=
  ⟨h.1, h.2.1, Nat.lt_of_lt_of_le h.2.2 hab⟩

theorem entry_text_no_space (e : Entry) (h : e.valid) : ∀ c ∈ e.text, isSpace c = false := by
  cases e with
  | single ds => exact isNumeral_no_space _ ds h
  | range lo hi =>
    intro c hc
    simp only [Entry.text, List.mem_append, List.mem_cons] at hc
    rcases hc with hc | hc | hc
    · exact isNumeral_no_space _ lo h.1 c hc
    · rw [hc]; decide
    · exact isNumeral_no_space _ hi h.2.1 c hc

theorem entry_text_no_comma (e : Entry) (h : e.valid) : ',' ∉ e.text := by
  cases e with
  | single ds => exact isNumeral_not_mem _ ds h ',' (by decide)
  | range lo hi =>
    intro hc
    simp only [Entry.text, List.mem_append, List.mem_cons] at hc
    rcases hc with hc | hc | hc
    · exact isNumeral_not_mem _ lo h.1 ',' (by decide) hc
    · exact absurd hc (by decide)
    · exact isNumeral_not_mem _ hi h.2.1 ',' (by decide) hc

theorem replicate_space (n : Nat) : ∀ c ∈ List.replicate n ' ', isSpace c = true := by
  intro c hc
  rw [(List.mem_replicate.mp hc).2]
  decide

theorem spaced_trim_text (e : SpacedEntry) (h : e.entry.valid) :
    trimSpaceChars e.text = e.entry.text := by
  unfold SpacedEntry.text
  rw [trimSpaceChars_append_space _ _ (replicate_space e.after),
    trimSpaceChars_space_append _ _ (replicate_space e.before),
    trimSpaceChars_of_no_space _ (entry_text_no_space e.entry h)]

theorem spaced_text_no_comma (e : SpacedEntry) (h : e.entry.valid) : ',' ∉ e.text := by
  unfold SpacedEntry.text
  intro hc
  simp only [List.mem_append] at hc
  rcases hc with (hc | hc) | hc
  · exact absurd (replicate_space e.before ',' hc) (by decide)
  · exact entry_text_no_comma e.entry h hc
  · exact absurd (replicate_space e.after ',' hc) (by decide)

theorem foldl_append_singleton (f : Nat → Int) (l : List Nat) (out : List Int) :
    l.foldl (fun a (k : Nat) => a ++ [f k]) out = out ++ l.map f := by
  induction l generalizing out with
  | nil => simp
  | cons a t ih => rw [List.foldl_cons, ih]; simp

/-- What the loop body of `parseNumberList` makes of a valid entry, given fuel for its
range. -/
theorem numberPart_entry (fuel : Nat) (out : List Int) (e : SpacedEntry) (h : e.entry.valid)
    (hfuel : e.entry.numbers.length < fuel) :
    numberPart fuel out e.text = some (out ++ e.entry.numbers) := by
  have htrim := spaced_trim_text e h
  unfold numberPart
  simp only [htrim]
  cases he : e.entry with
  | single ds =>
    rw [he] at h
    have hne : ¬ (Entry.text (.single ds) = []) := h.1
    have hdash : '-' ∉ Entry.text (.single ds) := isNumeral_not_mem _ ds h '-' (by decide)
    rw [if_neg hne, if_neg hdash]
    have : atoi (Entry.text (.single ds)) = some (digitsValue ds : Int) := atoi_numeral ds h
    rw [this]
    rfl
  | range lo hi =>
    rw [he] at h hfuel
    obtain ⟨hlo, hhi, hle⟩ := h
    have hne : ¬ (Entry.text (.range lo hi) = []) := by simp [Entry.text]
    have hdash : '-' ∈ Entry.text (.range lo hi) := by simp [Entry.text]
    have hlodash : ∀ c ∈ lo, (fun c => c != '-') c = true := by
      intro c hc
      have : c ≠ '-' := fun hh => isNumeral_not_mem _ lo hlo '-' (by decide) (hh ▸ hc)
      simpa using this
    have hcut : cutFirst '-' (Entry.text (.range lo hi)) = (lo, hi) := by
      unfold cutFirst Entry.text
      rw [List.takeWhile_append_of_pos hlodash, List.dropWhile_append_of_pos hlodash,
        List.takeWhile_cons_of_neg (by simp), List.dropWhile_cons_of_neg (by simp)]
      simp
    rw [if_neg hne, if_pos hdash, hcut]
    simp only []
    rw [trimSpaceChars_of_no_space lo (isNumeral_no_space _ lo hlo),
      trimSpaceChars_of_no_space hi (isNumeral_no_space _ hi hhi),
      atoi_numeral lo hlo, atoi_numeral hi (isNumeral_mono _ _ (by omega) hi hhi)]
    simp only []
    have hgt : ¬ ((digitsValue lo : Int) > (digitsValue hi : Int)) := by omega
    rw [if_neg hgt]
    have hlen : (Entry.range lo hi).numbers.length = digitsValue hi + 1 - digitsValue lo := by
      simp [Entry.numbers]
    rw [hlen] at hfuel
    have hhi2 := hhi.2.2
    rw [forUpTo_run (fun i o => o ++ [i]) (digitsValue hi : Int) (by omega)
      (digitsValue hi + 1 - digitsValue lo) fuel (digitsValue lo : Int) out (by omega)
      (by omega) hfuel]
    rw [foldl_append_singleton (fun k => (digitsValue lo : Int) + (k : Int))]
    simp [Entry.numbers]

theorem numberParts_entries (fuel : Nat) (es : List SpacedEntry) :
    ∀ out : List Int, (∀ e ∈ es, e.entry.valid) →
      (∀ e ∈ es, e.entry.numbers.length < fuel) →
      numberParts fuel (es.map SpacedEntry.text) out
        = some (out ++ es.flatMap (fun e => e.entry.numbers)) := by
  induction es with
  | nil => intro out _ _; simp [numberParts]
  | cons e rest ih =>
    intro out hv hf
    rw [List.map_cons]
    unfold numberParts
    rw [numberPart_entry fuel out e (hv e (List.mem_cons_self e rest))
      (hf e (List.mem_cons_self e rest))]
    simp only []
    rw [ih _ (fun x hx => hv x (List.mem_cons_of_mem e hx))
      (fun x hx => hf x (List.mem_cons_of_mem e hx))]
    simp

/-- C24, amended: for a filter spec that is a comma-separated list of entries, each
with any number of spaces around it and each a decimal number below `2^63` or a range
`lo-hi` of such numbers with `lo <= hi` and `hi` below `2^63 - 1`, `parseNumberList`
returns, in the order of the entries, the number of each number entry and
`lo, lo+1, ..., hi` for each range, once its range loops are given the steps they
take. -/
theorem C24_number_list (fuel : Nat) (es : List SpacedEntry)
    (hvalid : ∀ e ∈ es, e.entry.valid)
    (hfuel : ∀ e ∈ es, e.entry.numbers.length < fuel) :
    parseNumberList fuel (specText es) = some (es.flatMap (fun e => e.entry.numbers)) := by
  rw [parseNumberList_eq_parts]
  unfold specText
  cases es with
  | nil => rfl
  | cons e rest =>
    simp only []
    rw [splitOn_intercalate_comma _ (by simp)
      (fun c hc => by
        obtain ⟨x, hx, hxc⟩ := List.mem_map.mp hc
        rw [← hxc]
        exact spaced_text_no_comma x (hvalid x hx))]
    have := numberParts_entries fuel (e :: rest) [] hvalid hfuel
    simpa using this

/-- C24 at the filter spec "1,3-5": the list [1, 3, 4, 5]. -/
theorem C24_number_list_witness :
    specText oneThreeToFive = "1,3-5" ∧
    parseNumberList 4 (specText oneThreeToFive) = some [1, 3, 4, 5] ∧
    oneThreeToFive.flatMap (fun e => e.entry.numbers) = [1, 3, 4, 5] :=
  ⟨by decide,
    (C24_number_list 4 oneThreeToFive (by decide) (by decide)).trans (by decide), by decide⟩

/-- C24 as stated fails beyond the range of an `int`: the entry `9223372036854775808`
is dropped, and a range that ends at `9223372036854775807`, the largest `int`, makes
the loop run on without end. -/
theorem C24_beyond_int :
    (∀ fuel, parseNumberList fuel "9223372036854775808" = some []) ∧
    (∀ fuel, parseNumberList fuel "1,9223372036854775808,2" = some [1, 2]) ∧
    (∀ fuel, parseNumberList fuel "9223372036854775806-9223372036854775807" = none) := by
  refine ⟨fun _ => rfl, fun _ => rfl, fun fuel => ?_⟩
  have hp : numberPart fuel [] "9223372036854775806-9223372036854775807".data
      = forUpTo (fun i o => o ++ [i]) 9223372036854775807 fuel 9223372036854775806 [] := rfl
  have he : (9223372036854775807 : Int) = 2 ^ 63 - 1 := by norm_num
  rw [parseNumberList_eq_parts]
  show numberParts fuel ["9223372036854775806-9223372036854775807".data] [] = none
  unfold numberParts
  rw [hp, he, forUpTo_max _ fuel _ _ (by decide) (by decide)]

/-! ## `filterEpisodes` -/

theorem notAfter_iff (a b : Item) :
    notAfter a b ↔ a.ParentIndexNumber < b.ParentIndexNumber ∨
      (a.ParentIndexNumber = b.ParentIndexNumber ∧ a.IndexNumber ≤ b.IndexNumber) := by
  unfold notAfter episodeLess
  by_cases h : b.ParentIndexNumber = a.ParentIndexNumber
  · rw [if_pos h, decide_eq_false_iff_not]
    omega
  · rw [if_neg h, decide_eq_false_iff_not]
    omega

theorem keepEpisode_iff (seasons episodes : List Int) (item : Item) :
    keepEpisode (toSet seasons) (toSet episodes) item = true
      ↔ episodeSelected seasons episodes item := by
  unfold keepEpisode episodeSelected
  have hs := toSet_length_pos seasons
  have he := toSet_length_pos episodes
  have ms := mem_toSet seasons item.ParentIndexNumber
  have me := mem_toSet episodes item.IndexNumber
  by_cases h1 : item.Type_ ≠ "Episode" ∧ item.Type_ ≠ ""
  · rw [if_pos h1]
    simp only [Bool.false_eq_true, false_iff]
    rintro ⟨h | h, _⟩
    · exact h1.1 h
    · exact h1.2 h
  · rw [if_neg h1]
    have ht : item.Type_ = "Episode" ∨ item.Type_ = "" := by
      by_cases h : item.Type_ = "Episode"
      · exact Or.inl h
      · by_cases h2 : item.Type_ = ""
        · exact Or.inr h2
        · exact absurd ⟨h, h2⟩ h1
    by_cases h2 : (toSet seasons).length > 0 ∧ item.ParentIndexNumber ∉ toSet seasons
    · rw [if_pos h2]
      simp only [Bool.false_eq_true, false_iff]
      rintro ⟨_, h, _⟩
      exact h2.2 (ms.mpr (h (hs.mp h2.1)))
    · rw [if_neg h2]
      have hsel : seasons ≠ [] → item.ParentIndexNumber ∈ seasons := by
        intro hne
        by_contra hc
        exact h2 ⟨hs.mpr hne, fun hm => hc (ms.mp hm)⟩
      by_cases h3 : (toSet episodes).length > 0 ∧ item.IndexNumber ∉ toSet episodes
      · rw [if_pos h3]
        simp only [Bool.false_eq_true, false_iff]
        rintro ⟨_, _, h⟩
        exact h3.2 (me.mpr (h (he.mp h3.1)))
      · rw [if_neg h3]
        simp only [true_iff]
        refine ⟨ht, hsel, ?_⟩
        intro hne
        by_contra hc
        exact h3 ⟨he.mpr hne, fun hm => hc (me.mp hm)⟩

/-- C25: `filterEpisodes` returns the selected items, each as often as it is in the
input, in ascending order of season number and then episode number.  The selected items
are those of type Episode or without a type whose season number is in `seasons` when
that list is not empty and whose episode number is in `episodes` when that list is not
empty. -/
theorem C25_filter_sorted_perm (items : List Item) (seasons episodes : List Int) :
    (filterEpisodes items seasons episodes).Pairwise episodeOrder ∧
    (filterEpisodes items seasons episodes).Perm
      (items.filter (fun item => decide (episodeSelected seasons episodes item))) := by
  unfold filterEpisodes
  constructor
  · haveI : IsTotal Item notAfter :=
      ⟨fun a b => by
        rw [notAfter_iff, notAfter_iff]
        omega⟩
    haveI : IsTrans Item notAfter :=
      ⟨fun a b c => by
        rw [notAfter_iff, notAfter_iff, notAfter_iff]
        omega⟩
    have h := List.sorted_insertionSort notAfter
      (items.filter (keepEpisode (toSet seasons) (toSet episodes)))
    exact List.Pairwise.imp (fun hab => (notAfter_iff _ _).mp hab) h
  · have hf : items.filter (keepEpisode (toSet seasons) (toSet episodes))
        = items.filter (fun item => decide (episodeSelected seasons episodes item)) := by
      apply List.filter_congr
      intro x _
      by_cases hx : episodeSelected seasons episodes x
      · rw [(keepEpisode_iff seasons episodes x).mpr hx, decide_eq_true hx]
      · have : keepEpisode (toSet seasons) (toSet episodes) x = false := by
          cases hk : keepEpisode (toSet seasons) (toSet episodes) x with
          | false => rfl
          | true => exact absurd ((keepEpisode_iff seasons episodes x).mp hk) hx
        rw [this, decide_eq_false hx]
    rw [← hf]
    exact List.perm_insertionSort notAfter _

/-- With a season list that is not empty, every item `filterEpisodes` returns has a
season number of the list. -/
theorem filterEpisodes_season_mem (items : List Item) (seasons episodes : List Int)
    (hne : seasons ≠ []) :
    ∀ item ∈ filterEpisodes items seasons episodes, item.ParentIndexNumber ∈ seasons := by
  intro item hitem
  have hp := (C25_filter_sorted_perm items seasons episodes).2
  have hm := (List.Perm.mem_iff hp).mp hitem
  have hs := (List.mem_filter.mp hm).2
  exact (of_decide_eq_true hs).2.1 hne

/-- C29 at its failing input: the season filter "abc" (or "5-3") has no valid entry,
`parseNumberList` returns the empty list for it, and `filterEpisodes` with the empty
list selects every episode: the two episodes come back, though the season number of
neither is an element of the list. -/
theorem C29_invalid_filter_selects_all :
    (∀ fuel, parseNumberList fuel "abc" = some []) ∧
    (∀ fuel, parseNumberList fuel "5-3" = some []) ∧
    filterEpisodes [episode21, episode11] [] [] = [episode11, episode21] ∧
    episode11.ParentIndexNumber ∉ ([] : List Int) :=
  ⟨fun _ => rfl, fun _ => rfl, by decide, by decide⟩

/-! ## `NormalizeServerURL` -/

theorem trimRightSlash_last (s : String) : (trimRightSlash s).data.getLast? ≠ some '/' := by
  unfold trimRightSlash
  simp only []
  intro h
  have hne : List.rdropWhile (fun c => c == '/') s.data ≠ [] := by
    intro hn
    have h2 : (List.rdropWhile (fun c => c == '/') s.data).getLast? = some '/' := h
    rw [hn] at h2
    simp at h2
  have hlast := List.rdropWhile_last_not (fun c => c == '/') s.data hne
  have h2 : (List.rdropWhile (fun c => c == '/') s.data).getLast? = some '/' := h
  rw [List.getLast?_eq_getLast _ hne] at h2
  simp only [Option.some.injEq] at h2
  rw [h2] at hlast
  exact hlast (by decide)

/-- Whatever `net/url` does, the result of `NormalizeServerURL` does not end in a slash,
and it is empty for an empty or blank input. -/
theorem NormalizeServerURL_no_trailing_slash (lib : UrlLib) (raw : String) :
    (NormalizeServerURL lib raw).data.getLast? ≠ some '/' ∧
    (trimSpaceChars raw.data = [] → NormalizeServerURL lib raw = "") := by
  constructor
  · unfold NormalizeServerURL finishServerURL
    simp only []
    split
    · decide
    · split
      · exact trimRightSlash_last _
      · split
        · split
          · exact trimRightSlash_last _
          · exact trimRightSlash_last _
        · exact trimRightSlash_last _
  · intro h
    unfold NormalizeServerURL TrimSpace
    simp only [h]
    rfl

/-- The text before the first occurrence of `sub`: what follows it starts with `sub`
or is empty, and `sub` does not start anywhere inside it. -/
theorem beforeSub_spec (sub : List Char) (s : List Char) :
    ∃ rest, s = beforeSub sub s ++ rest ∧ (rest = [] ∨ sub.isPrefixOf rest = true) ∧
      ∀ k, k < (beforeSub sub s).length → sub.isPrefixOf (s.drop k) = false := by
  induction s with
  | nil => exact ⟨[], rfl, Or.inl rfl, fun k hk => by simp [beforeSub] at hk⟩
  | cons c t ih =>
    by_cases hp : sub.isPrefixOf (c :: t) = true
    · refine ⟨c :: t, ?_, Or.inr hp, ?_⟩
      · simp [beforeSub, hp]
      · intro k hk
        simp [beforeSub, hp] at hk
    · obtain ⟨rest, h1, h2, h3⟩ := ih
      have hp2 : sub.isPrefixOf (c :: t) = false := Bool.eq_false_iff.mpr hp
      have hb : beforeSub sub (c :: t) = c :: beforeSub sub t := by
        simp [beforeSub, hp2]
      refine ⟨rest, ?_, h2, ?_⟩
      · rw [hb, List.cons_append, ← h1]
      · intro k hk
        rw [hb] at hk
        cases k with
        | zero => exact hp2
        | succ j =>
          rw [List.drop_succ_cons]
          exact h3 j (by simpa using hk)

/-- The cases of `TestNormalizeServerURL`; the first two without the parameter
`&url=%2Fhome.html` at the end of their fragment, which holds a percent escape. -/
theorem NormalizeServerURL_tests :
    NormalizeServerURL plainUrl
        "https://jellyfin.xhacker.de/web/#/login.html?serverid=d61c91e2846d446f871c52dc534db09a"
      = "https://jellyfin.xhacker.de" ∧
    NormalizeServerURL plainUrl
        "jellyfin.xhacker.de/web/#/login.html?serverid=d61c91e2846d446f871c52dc534db09a"
      = "https://jellyfin.xhacker.de" ∧
    NormalizeServerURL plainUrl "https://example.com/jellyfin/" = "https://example.com/jellyfin" ∧
    NormalizeServerURL plainUrl "https://example.com/path?x=1#y" = "https://example.com/path" ∧
    NormalizeServerURL plainUrl "" = "" := by
  decide

/-- C26 at its failing input: a server given as host and port without a scheme.
`url.Parse` takes the host for the scheme and the rest for an opaque part, so the input
has a scheme, no `https` is put in front, the path is empty and is not cut at "/web",
and the result is `example.com:8096/web` where the bare base URL is
`https://example.com:8096`.  Without the port the same input is normalized. -/
theorem C26_host_port_not_normalized :
    urlParse "example.com:8096/web/"
      = .ok ⟨"example.com", "8096/web/", none, "", "", false, false, "", ""⟩ ∧
    NormalizeServerURL plainUrl "example.com:8096/web/#/login.html" = "example.com:8096/web" ∧
    NormalizeServerURL plainUrl "example.com/web/#/login.html" = "https://example.com" ∧
    NormalizeServerURL plainUrl "https://example.com:8096/web/#/login.html"
      = "https://example.com:8096" ∧
    NormalizeServerURL plainUrl "localhost:8096" = "localhost:8096" :=
  ⟨rfl, by decide, by decide, by decide, by decide⟩

/-- Further inputs that parse and do not give a base URL with a scheme: a host without
a scheme written with two slashes, and a lone question mark that stays. -/
theorem NormalizeServerURL_other_inputs :
    NormalizeServerURL plainUrl "//example.com/x" = "//example.com/x" ∧
    NormalizeServerURL plainUrl "https://example.com/path?" = "https://example.com/path?" ∧
    NormalizeServerURL plainUrl "https://example.com/website/x" = "https://example.com" := by
  decide

end Jf
